import Mathlib

/-!
# nulls.Float64

A verification development for `float64.go` of the `nulls` package: the
nullable float wrapper `Float64` (a `sql.NullFloat64` under another name) and
its conversions to and from driver values, JSON, plain text and XML.

The methods of `float64.go` are embedded one by one, with the receiver of a
pointer method passed in and returned.  The standard-library routines they call
(`strconv.ParseFloat`, `strconv.FormatFloat`, `json.Marshal`,
`sql.NullFloat64.Scan`) are modelled in their own namespaces; texts are lists
of byte values.
-/

namespace nulls

/-! ## Data model -/

/-- A Go `float64`: the three fields of an IEEE 754 binary64 bit pattern. -/
structure float64 where
  sign : Bool
  expo : Fin 2048
  frac : Fin 4503599627370496
deriving DecidableEq, Repr

/-- A Go `string` or `[]byte`: a sequence of byte values. A byte is a number
below 256; nothing here relies on the bound, so a statement about every text
holds for every Go string. -/
abbrev Bytes := List Nat

/-- The bytes of an ASCII string literal. -/
def bytes (s : String) : Bytes := s.data.map Char.toNat

namespace float64

/-- Go `math.Float64frombits`. -/
def frombits (b : Nat) : float64 :=
  { sign := decide (b / 2 ^ 63 % 2 = 1)
    expo := Fin.ofNat (b / 2 ^ 52 % 2048)
    frac := Fin.ofNat (b % 2 ^ 52) }

/-- Go `math.Float64bits`. -/
def bits (f : float64) : Nat :=
  (if f.sign then 2 ^ 63 else 0) + f.expo.val * 2 ^ 52 + f.frac.val

/-- Go `math.IsNaN`. -/
def IsNaN (f : float64) : Bool := decide (f.expo.val = 2047 ∧ f.frac.val ≠ 0)

/-- Go `math.IsInf(f, 0)`. -/
def IsInf (f : float64) : Bool := decide (f.expo.val = 2047 ∧ f.frac.val = 0)

/-- Neither an infinity nor a NaN. -/
def finite (f : float64) : Prop := f.expo.val ≠ 2047

instance (f : float64) : Decidable f.finite := by unfold finite; exact inferInstance

/-- Go `math.NaN()`: the bit pattern `0x7FF8000000000001`. -/
def NaN : float64 := { sign := false, expo := 2047, frac := 2251799813685249 }

/-- Go `math.Inf(sign)`, negative when `neg`. -/
def Inf (neg : Bool) : float64 := { sign := neg, expo := 2047, frac := 0 }

/-- The float `0`, with the sign bit set when `neg`. -/
def zero (neg : Bool) : float64 := { sign := neg, expo := 0, frac := 0 }

/-- The mantissa of a finite float, with the implicit leading bit of a normal
one: the library's `mant` after `mant |= 1 << 52`. -/
def mant (f : float64) : Nat :=
  if f.expo.val = 0 then f.frac.val else 2 ^ 52 + f.frac.val

/-- The binary exponent of a finite float over `2 ^ -1074`: its value is
`mant * 2 ^ shift * 2 ^ -1074`. -/
def shift (f : float64) : Nat := f.expo.val - 1

/-- Go `==` on two floats: a NaN differs from everything, the two zeros are
equal, every other pair is compared bit by bit. -/
def eq (a b : float64) : Bool :=
  if a.IsNaN || b.IsNaN then false
  else if a.expo.val = 0 ∧ a.frac.val = 0 ∧ b.expo.val = 0 ∧ b.frac.val = 0 then true
  else decide (a = b)

end float64

/-- A Go `error` value, as far as this package can see one. -/
inductive error where
  /-- `*strconv.NumError` wrapping `strconv.ErrSyntax`, with the offending text. -/
  | syntaxError (num : Bytes)
  /-- `*strconv.NumError` wrapping `strconv.ErrRange`, with the offending text. -/
  | rangeError (num : Bytes)
  /-- `*json.UnsupportedValueError` for a float JSON cannot express. -/
  | unsupportedValue (f : float64)
  /-- The error `database/sql` builds when a driver value does not convert. -/
  | convertError (text : Bytes) (cause : error)
  /-- The error `database/sql` builds when asked to convert `nil`. -/
  | convertNull
  /-- An error raised by an XML encoder or decoder, identified by a number. -/
  | xmlError (code : Nat)
deriving DecidableEq, Repr

/-- Go `interface{}` restricted to what this package puts in or takes out:
a `driver.Value` is `nil`, `int64`, `float64`, `bool`, `[]byte`, `string` or
`time.Time`. A time is carried as the text `%v` prints for it, which is all
the conversion to a float looks at. -/
inductive Value where
  | nil
  | int64 (i : Int)
  | float64 (f : float64)
  | bool (b : Bool)
  | bytes (b : Bytes)
  | string (s : Bytes)
  | time (text : Bytes)
deriving DecidableEq, Repr

/-! ## `strconv`: text to float

`ParseFloat` accepts what the library accepts (decimal and hexadecimal
mantissas, underscores as in Go literals, the special names) and returns the
nearest float under round-half-to-even, as the library documents.  The library
reaches that float through fast paths and a digit buffer; here the exact value
`mantissa * base ^ exp` is rounded with integer arithmetic. -/

namespace strconv

/-- The library's `lower`: `c | ('x' - 'X')`. -/
def lower (c : Nat) : Nat := c ||| 32

/-- The library's `commonPrefixLenIgnoreCase`: how many leading bytes of `s`
match the lower-case `pre`, upper-case letters of `s` counting as lower-case. -/
def commonPrefixLenIgnoreCase : Bytes → Bytes → Nat
  | c :: s, p :: pre =>
    let c := if 65 ≤ c ∧ c ≤ 90 then c + 32 else c
    if c = p then commonPrefixLenIgnoreCase s pre + 1 else 0
  | _, _ => 0

/-- The infinity arm of `special`: `s` after the optional sign. -/
def specialInf (neg : Bool) (nsign : Nat) (s : Bytes) : Option (float64 × Nat) :=
  let n := commonPrefixLenIgnoreCase s (bytes "infinity")
  let n := if 3 < n ∧ n < 8 then 3 else n
  if n = 3 ∨ n = 8 then some (float64.Inf neg, nsign + n) else none

/-- The library's `special`: the value of a leading `Inf`, `Infinity` or `NaN`
and the number of bytes it takes. -/
def special (s : Bytes) : Option (float64 × Nat) :=
  match s with
  | [] => none
  | c :: rest =>
    if c = 43 ∨ c = 45 then specialInf (decide (c = 45)) 1 rest
    else if c = 105 ∨ c = 73 then specialInf false 0 s
    else if c = 110 ∨ c = 78 then
      if commonPrefixLenIgnoreCase s (bytes "nan") = 3 then some (float64.NaN, 3) else none
    else none

/-- The running state of the mantissa loop of `readFloat`. -/
structure mantState where
  mantissa : Nat := 0
  nd : Nat := 0
  dp : Int := 0
  sawdot : Bool := false
  sawdigits : Bool := false
  underscores : Bool := false
deriving DecidableEq, Repr

/-- The mantissa loop of `readFloat`: consumes digits, underscores and one
point, and returns the state with the text left from the byte that stopped it.
All digits enter `mantissa` (the library keeps the first 19 and re-reads the
rest from the text when they matter). -/
def readMantissa (base : Nat) : Bytes → mantState → mantState × Bytes
  | [], st => (st, [])
  | c :: s, st =>
    if c = 95 then readMantissa base s { st with underscores := true }
    else if c = 46 then
      if st.sawdot then (st, c :: s)
      else readMantissa base s { st with sawdot := true, dp := st.nd }
    else if 48 ≤ c ∧ c ≤ 57 then
      if c = 48 ∧ st.nd = 0 then
        readMantissa base s { st with sawdigits := true, dp := st.dp - 1 }
      else
        readMantissa base s
          { st with sawdigits := true, nd := st.nd + 1, mantissa := st.mantissa * base + (c - 48) }
    else if base = 16 ∧ 97 ≤ lower c ∧ lower c ≤ 102 then
      readMantissa base s
        { st with sawdigits := true, nd := st.nd + 1
                  mantissa := st.mantissa * 16 + (lower c - 97 + 10) }
    else (st, c :: s)

/-- The exponent loop of `readFloat`: digits and underscores; the value stops
growing once it has reached 10000. -/
def readExponent : Bytes → Nat → Bool → Nat × Bool × Bytes
  | [], e, us => (e, us, [])
  | c :: s, e, us =>
    if 48 ≤ c ∧ c ≤ 57 then readExponent s (if e < 10000 then e * 10 + (c - 48) else e) us
    else if c = 95 then readExponent s e true
    else (e, us, c :: s)

/-- The library's `underscoreOK`: underscores only between digits or after a
base prefix. The state `saw` is `94` at the start, `48` after a digit (or a
base prefix), `95` after an underscore and `33` after anything else. -/
def underscoreOKloop (hex : Bool) : Bytes → Nat → Bool
  | [], saw => saw != 95
  | c :: s, saw =>
    if (48 ≤ c ∧ c ≤ 57) ∨ (hex ∧ 97 ≤ lower c ∧ lower c ≤ 102) then underscoreOKloop hex s 48
    else if c = 95 then
      if saw != 48 then false else underscoreOKloop hex s 95
    else
      if saw == 95 then false else underscoreOKloop hex s 33

/-- The library's `underscoreOK`. -/
def underscoreOK (s : Bytes) : Bool :=
  let s := match s with
    | c :: r => if c = 45 ∨ c = 43 then r else s
    | [] => s
  match s with
  | c0 :: c1 :: r =>
    if c0 = 48 ∧ (lower c1 = 98 ∨ lower c1 = 111 ∨ lower c1 = 120) then
      underscoreOKloop (lower c1 = 120) r 48
    else underscoreOKloop false s 94
  | _ => underscoreOKloop false s 94

/-- What `readFloat` returns when it succeeds: the exact value is
`mantissa * 10 ^ exp`, or `mantissa * 2 ^ exp` when `hex`; `n` bytes were read. -/
structure readResult where
  mantissa : Nat
  exp : Int
  neg : Bool
  hex : Bool
  n : Nat
deriving DecidableEq, Repr

/-- The tail of `readFloat`: the exponent `exp` belongs to a non-zero mantissa
only, and the underscores of the bytes read must be well placed. -/
def readFinish (s : Bytes) (neg hex : Bool) (st : mantState) (dp : Int) (rest : Bytes)
    (underscores : Bool) : Option readResult :=
  let ndMant : Int := if hex then st.nd * 4 else st.nd
  let exp : Int := if st.mantissa ≠ 0 then dp - ndMant else 0
  let n := s.length - rest.length
  if underscores ∧ ¬ underscoreOK (s.take n) then none
  else some { mantissa := st.mantissa, exp := exp, neg := neg, hex := hex, n := n }

/-- The library's `readFloat`: sign, optional `0x`, mantissa, optional
exponent (required after a hexadecimal mantissa). `none` is its `ok = false`. -/
def readFloat (s : Bytes) : Option readResult :=
  match s with
  | [] => none
  | c :: r =>
    let neg := decide (c = 45)
    let s1 := if c = 43 ∨ c = 45 then r else s
    let hex := match s1 with
      | c0 :: c1 :: _ :: _ => decide (c0 = 48 ∧ lower c1 = 120)
      | _ => false
    let s2 := if hex then s1.drop 2 else s1
    let (st, s3) := readMantissa (if hex then 16 else 10) s2 {}
    if ¬ st.sawdigits then none
    else
      let dp : Int := if st.sawdot then st.dp else st.nd
      let dp : Int := if hex then dp * 4 else dp
      match s3 with
      | [] => if hex then none else readFinish s neg hex st dp [] st.underscores
      | c :: s4 =>
        if lower c = (if hex then 112 else 101) then
          match s4 with
          | [] => none
          | d :: s5 =>
            let esign : Int := if d = 45 then -1 else 1
            let s6 := if d = 43 ∨ d = 45 then s5 else s4
            match s6 with
            | [] => none
            | d2 :: _ =>
              if d2 < 48 ∨ 57 < d2 then none
              else
                match readExponent s6 0 st.underscores with
                | (e, us, s7) => readFinish s neg hex st (dp + e * esign) s7 us
        else if hex then none
        else readFinish s neg hex st dp (c :: s4) st.underscores

/-- The loop of `bitLen`. -/
def bitLenLoop : Nat → Nat → Nat
  | 0, _ => 0
  | fuel + 1, n => if n = 0 then 0 else bitLenLoop fuel (n / 2) + 1

/-- The number of binary digits of `n` (Go `bits.Len`); `0` for `0`. -/
def bitLen (n : Nat) : Nat := bitLenLoop n n

/-- The integer part of the binary logarithm of `N / D`, for `0 < D ≤ N`. -/
def floorLog2 (N D : Nat) : Nat :=
  let t := bitLen N - bitLen D
  if D * 2 ^ t ≤ N then t else t - 1

/-- The integer nearest to `N / D`, a tie going to the even one. -/
def roundHalfEven (N D : Nat) : Nat :=
  let q := N / D
  let r := N % D
  if D < 2 * r ∨ (2 * r = D ∧ q % 2 = 1) then q + 1 else q

/-- The float nearest to `N / D` (ties to even), with the sign bit `neg`, and
whether the value overflowed to an infinity. All floats are multiples of
`2 ^ -1074`: the value is first counted in that unit, then cut to 53 bits. -/
def nearest (neg : Bool) (N D : Nat) : float64 × Bool :=
  let N := N * 2 ^ 1074
  let s := floorLog2 N D - 52
  let m := roundHalfEven N (D * 2 ^ s)
  if m < 2 ^ 52 then ({ sign := neg, expo := 0, frac := Fin.ofNat m }, false)
  else
    let s := if m = 2 ^ 53 then s + 1 else s
    let m := if m = 2 ^ 53 then 2 ^ 52 else m
    if 2047 ≤ s + 1 then (float64.Inf neg, true)
    else ({ sign := neg, expo := Fin.ofNat (s + 1), frac := Fin.ofNat (m - 2 ^ 52) }, false)

/-- The float and overflow flag for what `readFloat` read: the library's
`atofHex` for a hexadecimal mantissa, its decimal conversion otherwise. -/
def atofValue (r : readResult) : float64 × Bool :=
  let b : Nat := if r.hex then 2 else 10
  if 0 ≤ r.exp then nearest r.neg (r.mantissa * b ^ r.exp.toNat) 1
  else nearest r.neg r.mantissa (b ^ (-r.exp).toNat)

/-- Go `strconv.ParseFloat(s, 64)`: the float and the error (`none` for `nil`).
A text that is not a number in full gives `0` and a syntax error; a number too
large gives an infinity and a range error. -/
def ParseFloat (s : Bytes) : float64 × Option error :=
  match special s with
  | some (val, n) =>
    if n ≠ s.length then (float64.zero false, some (error.syntaxError s)) else (val, none)
  | none =>
    match readFloat s with
    | none => (float64.zero false, some (error.syntaxError s))
    | some r =>
      if r.n ≠ s.length then (float64.zero false, some (error.syntaxError s))
      else
        match atofValue r with
        | (f, true) => (f, some (error.rangeError s))
        | (f, false) => (f, none)

/-! ## `strconv`: float to text

`FormatFloat(f, fmt, -1, 64)` prints the shortest decimal that `ParseFloat`
reads back as `f`.  The digits are found as the library's `roundShortest` finds
them: walking down the decimal positions until `f` truncated there, or the next
decimal above it, lies between the midpoints to the neighbouring floats.  All
quantities are counted in units of `10 ^ -1076`, in which every float and
every midpoint is a whole number. -/

/-- The loop of `decimalDigits`. -/
def decimalDigitsLoop : Nat → Nat → Bytes → Bytes
  | 0, _, acc => acc
  | fuel + 1, n, acc =>
    if n < 10 then (48 + n) :: acc
    else decimalDigitsLoop fuel (n / 10) ((48 + n % 10) :: acc)

/-- The decimal digits of `n` as ASCII bytes, most significant first. -/
def decimalDigits (n : Nat) : Bytes := decimalDigitsLoop (n + 1) n []

/-- The number a run of ASCII digits adds to the mantissa `m` read so far:
each digit `c` turns `m` into `m * 10 + (c - 48)`, as in `readFloat`. -/
def decimalValue (m : Nat) (ds : Bytes) : Nat := ds.foldl (fun a c => a * 10 + (c - 48)) m

/-- The shortest digits for a float `mant * 2 ^ sh * 2 ^ -1074`, as a decimal
`(c, p)` meaning `c * 10 ^ p * 10 ^ -1076`. `W` is the float, `lo` and `hi` the
midpoints below and above it, which count as inside when `incl`. -/
def shortestLoop (W lo hi : Nat) (incl : Bool) : Nat → Nat × Nat
  | 0 => (W, 0)
  | p + 1 =>
    let q := W / 10 ^ (p + 1)
    let r := W % 10 ^ (p + 1)
    let down := q * 10 ^ (p + 1)
    let up := (q + 1) * 10 ^ (p + 1)
    let okdown : Bool := decide (lo < down ∨ (incl ∧ lo = down))
    let okup : Bool := decide (up < hi ∨ (incl ∧ up = hi))
    if okdown ∧ okup then
      if 10 ^ (p + 1) < 2 * r ∨ (2 * r = 10 ^ (p + 1) ∧ q % 2 = 1) then (q + 1, p + 1)
      else (q, p + 1)
    else if okdown then (q, p + 1)
    else if okup then (q + 1, p + 1)
    else shortestLoop W lo hi incl p

/-- The library's `roundShortest` for mantissa `mant` (below `2 ^ 53`) and
binary exponent `sh` over `2 ^ -1074`: the digits `c` and the position `p`. -/
def roundShortest (mant sh : Nat) : Nat × Nat :=
  let W := 4 * mant * 2 ^ sh * 5 ^ 1076
  let hi := (4 * mant + 2) * 2 ^ sh * 5 ^ 1076
  let lo :=
    if 2 ^ 52 < mant ∨ sh = 0 then (4 * mant - 2) * 2 ^ sh * 5 ^ 1076
    else (4 * mant - 1) * 2 ^ sh * 5 ^ 1076
  shortestLoop W lo hi (decide (mant % 2 = 0)) (decimalDigits hi).length

/-- The digits of a float as the library's `decimalSlice`: the bytes `d` and
the position `dp` of the point, the value being `0.d * 10 ^ dp`. -/
structure decimalSlice where
  d : Bytes
  dp : Int
deriving DecidableEq, Repr

/-- The shortest digits of the finite float `f`; no digits for a zero. -/
def shortestDigits (f : float64) : decimalSlice :=
  if f.mant = 0 then { d := [], dp := 0 }
  else
    match roundShortest f.mant f.shift with
    | (c, p) =>
      let d := decimalDigits c
      { d := d, dp := (d.length : Int) + p - 1076 }

/-- The library's `fmtF` with the precision of the shortest form,
`max(nd - dp, 0)`: `-ddddd.ddddd`. -/
def fmtF (neg : Bool) (d : decimalSlice) : Bytes :=
  let sgn : Bytes := if neg then [45] else []
  let int : Bytes :=
    if 0 < d.dp then d.d.take d.dp.toNat ++ List.replicate (d.dp.toNat - d.d.length) 48
    else [48]
  let frac : Bytes :=
    if d.dp < d.d.length then
      46 :: (List.replicate (-d.dp).toNat 48 ++ d.d.drop d.dp.toNat)
    else []
  sgn ++ int ++ frac

/-- The library's `fmtE` with the precision of the shortest form, `nd - 1`:
`-d.dddde±dd`, the exponent with at least two digits. -/
def fmtE (neg : Bool) (d : decimalSlice) : Bytes :=
  let sgn : Bytes := if neg then [45] else []
  let first : Bytes := [d.d.headD 48]
  let more : Bytes := if 1 < d.d.length then 46 :: d.d.drop 1 else []
  let exp : Int := if d.d.length = 0 then 0 else d.dp - 1
  let esgn : Nat := if exp < 0 then 45 else 43
  let e := exp.natAbs
  let edigits : Bytes :=
    if e < 10 then [48, 48 + e]
    else if e < 100 then [48 + e / 10, 48 + e % 10]
    else [48 + e / 100, 48 + e / 10 % 10, 48 + e % 10]
  sgn ++ first ++ more ++ [101, esgn] ++ edigits

/-- Go `strconv.FormatFloat(f, fmt, -1, 64)` for `fmt` the byte `f` (when
`e = false`) or the byte `e` (when `e = true`). -/
def FormatFloat (f : float64) (e : Bool) : Bytes :=
  if f.expo.val = 2047 then
    if f.frac.val ≠ 0 then bytes "NaN"
    else if f.sign then bytes "-Inf"
    else bytes "+Inf"
  else if e then fmtE f.sign (shortestDigits f)
  else fmtF f.sign (shortestDigits f)

/-- Go `strconv.FormatInt(i, 10)`. -/
def FormatInt (i : Int) : Bytes :=
  if i < 0 then 45 :: decimalDigits i.natAbs else decimalDigits i.natAbs

end strconv

/-! ## `encoding/json`, `database/sql`, `encoding/xml` -/

namespace json

/-- The magnitude of `f` is below that of `g`, for floats that are not NaN:
magnitudes are ordered as their bit patterns without the sign. -/
def absLt (f g : float64) : Bool :=
  decide (f.expo.val * 2 ^ 52 + f.frac.val < g.expo.val * 2 ^ 52 + g.frac.val)

/-- The float constant `1e-6`, bit pattern `0x3EB0C6F7A0B5ED8D`. -/
def f1em6 : float64 := { sign := false, expo := 1003, frac := 218766855499149 }

/-- The float constant `1e21`, bit pattern `0x444B1AE4D6E2EF50`. -/
def f1e21 : float64 := { sign := false, expo := 1092, frac := 3125794903879504 }

/-- The exponent clean-up of the float encoder: `e-09` becomes `e-9`. -/
def cleanExponent (b : Bytes) : Bytes :=
  let n := b.length
  if 4 ≤ n ∧ b.getD (n - 4) 0 = 101 ∧ (b.getD (n - 3) 0 = 45 ∨ b.getD (n - 3) 0 = 43)
      ∧ b.getD (n - 2) 0 = 48 then
    b.take (n - 2) ++ [b.getD (n - 1) 0]
  else b

/-- Go `json.Marshal(f)` for a `float64`: the library's `floatEncoder`.
`if math.IsInf(f, 0) || math.IsNaN(f)` it fails with an
`UnsupportedValueError`; other floats print as in ES6, in the format `f`
unless `abs != 0 && (abs < 1e-6 || abs >= 1e21)`, which selects the format
`e` followed by the exponent clean-up. -/
def MarshalFloat64 (f : float64) : Bytes × Option error :=
  if f.IsInf ∨ f.IsNaN then ([], some (error.unsupportedValue f))
  else
    let e : Bool := decide (¬ (f.expo.val = 0 ∧ f.frac.val = 0)) && (absLt f f1em6 || !absLt f f1e21)
    let b := strconv.FormatFloat f e
    (if e then cleanExponent b else b, none)

/-- Go `json.Marshal(nil)`. -/
def MarshalNil : Bytes × Option error := (bytes "null", none)

/-- The digit loops of `isValidNumber`: the text after its leading digits. -/
def skipDigits : Bytes → Bytes
  | [] => []
  | c :: s => if 48 ≤ c ∧ c ≤ 57 then skipDigits s else c :: s

/-- The fraction step of `isValidNumber`: a point followed by a digit takes
the digits after it along. -/
def skipFraction (s : Bytes) : Bytes :=
  match s with
  | c0 :: c1 :: r2 => if c0 = 46 ∧ 48 ≤ c1 ∧ c1 ≤ 57 then skipDigits r2 else s
  | _ => s

/-- The exponent step of `isValidNumber` and its final test: an exponent
letter, an optional sign and digits, and nothing after them. -/
def exponentOK (s : Bytes) : Bool :=
  match s with
  | c0 :: c1 :: r3 =>
    if c0 = 101 ∨ c0 = 69 then
      if c1 = 43 ∨ c1 = 45 then
        (if r3 = [] then false else (skipDigits r3).isEmpty)
      else (skipDigits (c1 :: r3)).isEmpty
    else false
  | _ => s.isEmpty

/-- The library's `isValidNumber`: whether a text is a number of the JSON
grammar, an optional minus sign, `0` or digits without a leading zero, an
optional fraction and an optional exponent. -/
def isValidNumber (s : Bytes) : Bool :=
  match (match s with
    | c :: r => if c = 45 then r else s
    | [] => s) with
  | [] => false
  | c :: r =>
    if c = 48 ∨ (49 ≤ c ∧ c ≤ 57) then
      exponentOK (skipFraction (if c = 48 then r else skipDigits r))
    else false

end json

namespace sql

/-- Go `sql.NullFloat64`. -/
structure NullFloat64 where
  Float64 : float64
  Valid : Bool
deriving DecidableEq, Repr

/-- The float branch of the library's `convertAssign` for a source that is not
itself a float: the text `s` of the source (its `asString`) goes through
`strconv.ParseFloat`, and the destination keeps its value when that fails. -/
def assignParsed (dest : float64) (s : Bytes) : float64 × Option error :=
  match strconv.ParseFloat s with
  | (f64, none) => (f64, none)
  | (_, some err) => (dest, some (error.convertError s err))

/-- The library's `convertAssign(&dest, src)` for a `*float64` destination: a
float is stored as it is; an integer, a boolean, bytes, a string or a time go
through their text (`FormatInt`, `FormatBool`, the bytes themselves, `%v`). -/
def convertAssign (dest : float64) (src : Value) : float64 × Option error :=
  match src with
  | .float64 f => (f, none)
  | .nil => (dest, some error.convertNull)
  | .int64 i => assignParsed dest (strconv.FormatInt i)
  | .bool b => assignParsed dest (if b then bytes "true" else bytes "false")
  | .bytes b => assignParsed dest b
  | .string s => assignParsed dest s
  | .time text => assignParsed dest text

/-- Go `(*sql.NullFloat64).Scan`:
`if value == nil { n.Float64, n.Valid = 0, false; return nil }`, then
`err := convertAssign(&n.Float64, value); n.Valid = err == nil; return err`.
`Valid` is set only when the conversion succeeded. -/
def NullFloat64.Scan (n : NullFloat64) (value : Value) : NullFloat64 × Option error :=
  if value = Value.nil then ({ n with Float64 := float64.zero false, Valid := false }, none)
  else
    match convertAssign n.Float64 value with
    | (f, err) => ({ n with Float64 := f, Valid := decide (err = none) }, err)

end sql

namespace xml

/-- Go `xml.Name`. -/
structure Name where
  Space : Bytes
  Local : Bytes
deriving DecidableEq, Repr

/-- Go `xml.Attr`. -/
structure Attr where
  Name : Name
  Value : Bytes
deriving DecidableEq, Repr

/-- Go `xml.StartElement`. -/
structure StartElement where
  Name : Name
  Attr : List Attr
deriving DecidableEq, Repr

end xml

/-! ## `float64.go` -/

set_option linter.dupNamespace false in
/-- Go `type Float64 sql.NullFloat64`. -/
structure Float64 where
  Float64 : float64
  Valid : Bool
deriving DecidableEq, Repr

/-- Go `Float64.Interface`. -/
def Float64.Interface (ns : nulls.Float64) : Value :=
  if ¬ ns.Valid then Value.nil
  else Value.float64 ns.Float64

/-- Go `NewFloat64`. -/
def NewFloat64 (i : float64) : nulls.Float64 := { Float64 := i, Valid := true }

/-- Go `(*Float64).Scan`: the receiver after the call and the error. -/
def Float64.Scan (ns : nulls.Float64) (value : Value) : nulls.Float64 × Option error :=
  let n : sql.NullFloat64 := { Float64 := ns.Float64, Valid := false }
  match n.Scan value with
  | (n, err) => ({ Float64 := n.Float64, Valid := n.Valid }, err)

/-- Go `Float64.Value`. -/
def Float64.Value (ns : nulls.Float64) : Value × Option error :=
  if ¬ ns.Valid then (Value.nil, none)
  else (Value.float64 ns.Float64, none)

/-- Go `Float64.MarshalJSON`. -/
def Float64.MarshalJSON (ns : nulls.Float64) : Bytes × Option error :=
  if ns.Valid then json.MarshalFloat64 ns.Float64
  else json.MarshalNil

/-- Go `(*Float64).UnmarshalJSON`: the receiver after the call and the error. -/
def Float64.UnmarshalJSON (ns : nulls.Float64) (text : Bytes) : nulls.Float64 × Option error :=
  let t := text
  let ns := { ns with Valid := true }
  if t = bytes "null" then ({ ns with Valid := false }, none)
  else
    match strconv.ParseFloat t with
    | (_, some err) => ({ ns with Valid := false }, some err)
    | (i, none) => ({ ns with Float64 := i }, none)

/-- Go `(*Float64).UnmarshalText`. -/
def Float64.UnmarshalText (ns : nulls.Float64) (text : Bytes) : nulls.Float64 × Option error :=
  ns.UnmarshalJSON text

/-- Go `Float64.MarshalXML`. The encoder `e` is a state of any type `Enc`, and
`EncodeElement` is its method of that name for a float. -/
def Float64.MarshalXML {Enc : Type}
    (EncodeElement : Enc → float64 → xml.StartElement → Enc × Option error)
    (ns : nulls.Float64) (e : Enc) (start : xml.StartElement) : Enc × Option error :=
  if ns.Valid then EncodeElement e ns.Float64 start
  else (e, none)

/-- Go `(*Float64).UnmarshalXML`. The decoder `d` is a state of any type `Dec`,
and `DecodeElement` is its method of that name for a string target: it returns
the decoder, the string and the error. -/
def Float64.UnmarshalXML {Dec : Type}
    (DecodeElement : Dec → xml.StartElement → Dec × Bytes × Option error)
    (ns : nulls.Float64) (d : Dec) (start : xml.StartElement) : nulls.Float64 × Dec × Option error :=
  match DecodeElement d start with
  | (d, _, some err) => (ns, d, some err)
  | (d, data, none) =>
    if data = bytes "" then (ns, d, none)
    else if data = bytes "null" then (ns, d, none)
    else
      match strconv.ParseFloat data with
      | (_, some err) => (ns, d, some err)
      | (val, none) => ({ ns with Valid := true, Float64 := val }, d, none)

/-- Go `Float64.MarshalXMLAttr`. -/
def Float64.MarshalXMLAttr (ns : nulls.Float64) (name : xml.Name) : xml.Attr × Option error :=
  if ns.Valid then
    let value := strconv.FormatFloat ns.Float64 false
    ({ Name := name, Value := value }, none)
  else ({ Name := { Space := [], Local := [] }, Value := [] }, none)

/-- Go `(*Float64).UnmarshalXMLAttr`: the receiver after the call and the error. -/
def Float64.UnmarshalXMLAttr (ns : nulls.Float64) (attr : xml.Attr) : nulls.Float64 × Option error :=
  if attr.Value = bytes "" then (ns, none)
  else if attr.Value = bytes "null" then (ns, none)
  else
    match strconv.ParseFloat attr.Value with
    | (_, some err) => (ns, some err)
    | (val, none) => ({ ns with Valid := true, Float64 := val }, none)

/-! ## Rounding: the nearest float to a value between two midpoints -/

namespace strconv

theorem bitLenLoop_zero (fuel : Nat) : bitLenLoop fuel 0 = 0 := by
  cases fuel <;> simp [bitLenLoop]

theorem bitLenLoop_bounds : ∀ (fuel n : Nat), n ≤ fuel →
    n < 2 ^ bitLenLoop fuel n ∧ (n ≠ 0 → 2 ^ bitLenLoop fuel n ≤ 2 * n)
  | 0, n, h => by
    have : n = 0 := by omega
    subst this
    simp [bitLenLoop]
  | fuel + 1, n, h => by
    by_cases hn : n = 0
    · subst hn
      simp [bitLenLoop]
    · have hle : n / 2 ≤ fuel := by omega
      obtain ⟨ih1, ih2⟩ := bitLenLoop_bounds fuel (n / 2) hle
      simp only [bitLenLoop, hn, if_false, pow_succ]
      refine ⟨by omega, fun _ => ?_⟩
      by_cases h2 : n / 2 = 0
      · rw [h2, bitLenLoop_zero]
        simp
        omega
      · have := ih2 h2
        omega

theorem bitLen_lt (n : Nat) : n < 2 ^ bitLen n := (bitLenLoop_bounds n n le_rfl).1

theorem bitLen_le (n : Nat) (hn : n ≠ 0) : 2 ^ bitLen n ≤ 2 * n :=
  (bitLenLoop_bounds n n le_rfl).2 hn

theorem floorLog2_eq (N D L : Nat) (hD : 0 < D) (h1 : D * 2 ^ L ≤ N) (h2 : N < D * 2 ^ (L + 1)) :
    floorLog2 N D = L := by
  have hN : N ≠ 0 := by
    have : 0 < D * 2 ^ L := Nat.mul_pos hD (Nat.pow_pos (by norm_num))
    omega
  have hDne : D ≠ 0 := by omega
  have a1 := bitLen_lt N
  have a2 := bitLen_le N hN
  have b1 := bitLen_lt D
  have b2 := bitLen_le D hDne
  -- bitLen D + L ≤ bitLen N
  have hlow : bitLen D + L ≤ bitLen N := by
    have h : 2 ^ (bitLen D + L) < 2 ^ (bitLen N + 1) := by
      calc 2 ^ (bitLen D + L) = 2 ^ bitLen D * 2 ^ L := pow_add 2 _ _
        _ ≤ 2 * D * 2 ^ L := Nat.mul_le_mul_right _ b2
        _ = 2 * (D * 2 ^ L) := by ring
        _ ≤ 2 * N := by omega
        _ < 2 * 2 ^ bitLen N := by omega
        _ = 2 ^ (bitLen N + 1) := by ring
    have := (Nat.pow_lt_pow_iff_right (by norm_num : 1 < 2)).mp h
    omega
  have hup : bitLen N ≤ bitLen D + L + 1 := by
    have h : 2 ^ bitLen N < 2 ^ (bitLen D + L + 2) := by
      calc 2 ^ bitLen N ≤ 2 * N := a2
        _ < 2 * (D * 2 ^ (L + 1)) := by omega
        _ = D * 2 ^ (L + 2) := by ring
        _ < 2 ^ bitLen D * 2 ^ (L + 2) := Nat.mul_lt_mul_of_pos_right b1 (Nat.pow_pos (by norm_num))
        _ = 2 ^ (bitLen D + L + 2) := by ring
    have := (Nat.pow_lt_pow_iff_right (by norm_num : 1 < 2)).mp h
    omega
  unfold floorLog2
  simp only
  rcases (by omega : bitLen N - bitLen D = L ∨ bitLen N - bitLen D = L + 1) with ht | ht
  · rw [ht, if_pos h1]
  · rw [ht, if_neg (by omega)]
    omega

theorem floorLog2_le (N D k : Nat) (hD : 0 < D) (h : N < D * 2 ^ (k + 1)) :
    floorLog2 N D ≤ k := by
  unfold floorLog2
  simp only
  by_cases hN : N = 0
  · subst hN
    have : bitLen 0 = 0 := by simp [bitLen, bitLenLoop]
    rw [this]
    simp
  have hDne : D ≠ 0 := by omega
  have a2 := bitLen_le N hN
  have b1 := bitLen_lt D
  have hup : bitLen N ≤ bitLen D + k + 1 := by
    have h : 2 ^ bitLen N < 2 ^ (bitLen D + k + 2) := by
      calc 2 ^ bitLen N ≤ 2 * N := a2
        _ < 2 * (D * 2 ^ (k + 1)) := by omega
        _ = D * 2 ^ (k + 2) := by ring
        _ < 2 ^ bitLen D * 2 ^ (k + 2) := Nat.mul_lt_mul_of_pos_right b1 (Nat.pow_pos (by norm_num))
        _ = 2 ^ (bitLen D + k + 2) := by ring
    have := (Nat.pow_lt_pow_iff_right (by norm_num : 1 < 2)).mp h
    omega
  by_cases ht : bitLen N - bitLen D = k + 1
  · rw [ht, if_neg (by omega)]
    omega
  · split <;> omega

theorem roundHalfEven_eq (N P k m : Nat) (hm : m = k + 1) (hP : 0 < P)
    (hlo : (2 * k + 1) * P < 2 * N ∨ ((2 * k + 1) * P = 2 * N ∧ k % 2 = 1))
    (hhi : 2 * N < (2 * k + 3) * P ∨ (2 * N = (2 * k + 3) * P ∧ k % 2 = 1)) :
    roundHalfEven N P = m := by
  subst hm
  have e1 : (2 * k + 1) * P = 2 * (k * P) + P := by ring
  have e2 : (2 * k + 3) * P = 2 * (k * P) + 3 * P := by ring
  rw [e1] at hlo
  rw [e2] at hhi
  have hq1 : k ≤ N / P := (Nat.le_div_iff_mul_le hP).mpr (by omega)
  have hq2 : N / P < k + 2 := (Nat.div_lt_iff_lt_mul hP).mpr (by
    have : (k + 2) * P = k * P + 2 * P := by ring
    omega)
  have hdm := Nat.div_add_mod N P
  have hr := Nat.mod_lt N hP
  unfold roundHalfEven
  simp only
  rcases (by omega : N / P = k ∨ N / P = k + 1) with hq | hq
  · rw [hq] at hdm ⊢
    rw [Nat.mul_comm] at hdm
    rw [if_pos]
    by_cases h : P < 2 * (N % P)
    · exact Or.inl h
    · right
      omega
  · rw [hq] at hdm ⊢
    have e3 : P * (k + 1) = k * P + P := by ring
    rw [e3] at hdm
    rw [if_neg]
    omega

theorem float64_mk_eq (f : float64) (s : Bool) (e m : Nat) (h1 : f.sign = s)
    (h2 : f.expo.val = e) (h3 : f.frac.val = m) :
    (({ sign := s, expo := Fin.ofNat e, frac := Fin.ofNat m } : float64), false) = (f, false) := by
  obtain ⟨fs, fe, ff⟩ := f
  simp only at h1 h2 h3
  subst h1 h2 h3
  have he := fe.isLt
  have hf := ff.isLt
  congr 2
  · apply Fin.ext
    simp [Fin.ofNat, Nat.mod_eq_of_lt he]
  · apply Fin.ext
    simp [Fin.ofNat, Nat.mod_eq_of_lt hf]

/-- `nearest` once the exponent `s` and the rounded mantissa `m` are known. -/
theorem nearest_of_round (neg : Bool) (N D X s m : Nat) (hX : N * 2 ^ 1074 = X)
    (hs : floorLog2 X D - 52 = s) (hm : roundHalfEven X (D * 2 ^ s) = m) :
    nearest neg N D =
      if m < 2 ^ 52 then ({ sign := neg, expo := 0, frac := Fin.ofNat m }, false)
      else if 2047 ≤ (if m = 2 ^ 53 then s + 1 else s) + 1 then (float64.Inf neg, true)
      else ({ sign := neg, expo := Fin.ofNat ((if m = 2 ^ 53 then s + 1 else s) + 1),
              frac := Fin.ofNat ((if m = 2 ^ 53 then 2 ^ 52 else m) - 2 ^ 52) }, false) := by
  unfold nearest
  simp only [hX, hs, hm]

/-- A mantissa `m` below `2 ^ 53` found at exponent `s` is the float `f` whose
mantissa and exponent they are. -/
theorem nearest_of_round_eq (f : float64) (hfin : f.finite) (N D X : Nat)
    (hX : N * 2 ^ 1074 = X) (hs : floorLog2 X D - 52 = f.shift)
    (hm : roundHalfEven X (D * 2 ^ f.shift) = f.mant) :
    nearest f.sign N D = (f, false) := by
  rw [nearest_of_round f.sign N D X f.shift f.mant hX hs hm]
  clear hX hs hm
  have hfr := f.frac.isLt
  have hex := f.expo.isLt
  unfold float64.finite at hfin
  by_cases he0 : f.expo.val = 0
  · have hmf : f.mant = f.frac.val := by unfold float64.mant; rw [if_pos he0]
    rw [hmf, if_pos (by omega)]
    exact float64_mk_eq f f.sign 0 f.frac.val rfl he0 rfl
  · have hmf : f.mant = 2 ^ 52 + f.frac.val := by unfold float64.mant; rw [if_neg he0]
    have hsh : f.shift + 1 = f.expo.val := by unfold float64.shift; omega
    have hne : ¬ (2 ^ 52 + f.frac.val = 2 ^ 53) := by omega
    rw [hmf, if_neg (by omega), if_neg hne, if_neg hne, hsh, if_neg (by omega)]
    exact float64_mk_eq f f.sign f.expo.val _ rfl rfl (by omega)

/-- The mantissa `2 ^ 53` found one exponent below that of `f`, whose mantissa
is `2 ^ 52`, is `f`. -/
theorem nearest_of_round_up_eq (f : float64) (hfin : f.finite) (N D X t : Nat)
    (hX : N * 2 ^ 1074 = X) (hmant : f.mant = 2 ^ 52) (ht : f.shift = t + 1)
    (hs : floorLog2 X D - 52 = t) (hm : roundHalfEven X (D * 2 ^ t) = 2 ^ 53) :
    nearest f.sign N D = (f, false) := by
  rw [nearest_of_round f.sign N D X t (2 ^ 53) hX hs hm]
  clear hX hs hm
  have hfr := f.frac.isLt
  have hex := f.expo.isLt
  unfold float64.finite at hfin
  have he0 : f.expo.val ≠ 0 := by unfold float64.shift at ht; omega
  have hmf : f.mant = 2 ^ 52 + f.frac.val := by unfold float64.mant; rw [if_neg he0]
  have ht1 : t + 1 + 1 = f.expo.val := by unfold float64.shift at ht; omega
  have h53 : ¬ ((2 : Nat) ^ 53 < 2 ^ 52) := by norm_num
  rw [if_neg h53, if_pos rfl, if_pos rfl, ht1, if_neg (by omega)]
  exact float64_mk_eq f f.sign f.expo.val _ rfl rfl (by omega)

/-- The exponent and mantissa found for a value in the regular interval of a
float with mantissa `k + 1` and exponent `sh`. `P` is `D * 2 ^ sh`. -/
theorem round_regular (X D sh k : Nat) (hD : 0 < D) (hk : k + 1 < 2 ^ 53)
    (hreg : 2 ^ 52 < k + 1 ∨ sh = 0)
    (hlo : (2 * k + 1) * (D * 2 ^ sh) < 2 * X
      ∨ ((2 * k + 1) * (D * 2 ^ sh) = 2 * X ∧ k % 2 = 1))
    (hhi : 2 * X < (2 * k + 3) * (D * 2 ^ sh)
      ∨ (2 * X = (2 * k + 3) * (D * 2 ^ sh) ∧ k % 2 = 1)) :
    floorLog2 X D - 52 = sh ∧ roundHalfEven X (D * 2 ^ sh) = k + 1 := by
  have hPpos : 0 < D * 2 ^ sh := Nat.mul_pos hD (Nat.pow_pos (by norm_num))
  refine ⟨?_, roundHalfEven_eq X _ k (k + 1) rfl hPpos hlo hhi⟩
  have hlo' : (2 * k + 1) * (D * 2 ^ sh) ≤ 2 * X := by
    rcases hlo with h | ⟨h, _⟩ <;> omega
  have hhi' : 2 * X ≤ (2 * k + 3) * (D * 2 ^ sh) := by
    rcases hhi with h | ⟨h, _⟩ <;> omega
  have hup : X < D * 2 ^ (52 + sh + 1) := by
    have e3 : D * 2 ^ (52 + sh + 1) = 2 ^ 53 * (D * 2 ^ sh) := by ring
    rw [e3]
    have h1 : (2 * k + 3) * (D * 2 ^ sh) ≤ (2 * 2 ^ 53 - 1) * (D * 2 ^ sh) :=
      Nat.mul_le_mul_right _ (by omega)
    have e4 : (2 * 2 ^ 53 - 1) * (D * 2 ^ sh) + D * 2 ^ sh = 2 * (2 ^ 53 * (D * 2 ^ sh)) := by
      have : 2 * 2 ^ 53 - 1 + 1 = 2 * 2 ^ 53 := by norm_num
      calc (2 * 2 ^ 53 - 1) * (D * 2 ^ sh) + D * 2 ^ sh
          = (2 * 2 ^ 53 - 1 + 1) * (D * 2 ^ sh) := by ring
        _ = 2 * (2 ^ 53 * (D * 2 ^ sh)) := by rw [this]; ring
    omega
  rcases hreg with hbig | hsh0
  · have hL : floorLog2 X D = 52 + sh := by
      apply floorLog2_eq _ _ _ hD _ hup
      have e3 : D * 2 ^ (52 + sh) = 2 ^ 52 * (D * 2 ^ sh) := by ring
      rw [e3]
      have h1 : (2 * 2 ^ 52) * (D * 2 ^ sh) ≤ (2 * k + 1) * (D * 2 ^ sh) :=
        Nat.mul_le_mul_right _ (by omega)
      have e4 : (2 * 2 ^ 52) * (D * 2 ^ sh) = 2 * (2 ^ 52 * (D * 2 ^ sh)) := by ring
      omega
    omega
  · subst hsh0
    have hL : floorLog2 X D ≤ 52 := floorLog2_le _ _ _ hD (by simpa using hup)
    omega

/-- The exponent and mantissa found for a value in the narrow gap below a
float with mantissa `2 ^ 52` and exponent `t + 1`. `Q` is `D * 2 ^ t`. -/
theorem round_below_binade (X D t : Nat) (hD : 0 < D)
    (hlo : (2 ^ 54 - 1) * (D * 2 ^ t) ≤ 2 * X) (hside : X < 2 ^ 53 * (D * 2 ^ t)) :
    floorLog2 X D - 52 = t ∧ roundHalfEven X (D * 2 ^ t) = 2 ^ 53 := by
  have hQpos : 0 < D * 2 ^ t := Nat.mul_pos hD (Nat.pow_pos (by norm_num))
  have e5 : D * 2 ^ (52 + t) = 2 ^ 52 * (D * 2 ^ t) := by ring
  have e6 : D * 2 ^ (52 + t + 1) = 2 ^ 53 * (D * 2 ^ t) := by ring
  generalize D * 2 ^ t = Q at *
  constructor
  · have hL : floorLog2 X D = 52 + t := by
      apply floorLog2_eq _ _ _ hD
      · rw [e5]; omega
      · rw [e6]; omega
    omega
  · apply roundHalfEven_eq X Q (2 ^ 53 - 1) (2 ^ 53) (by norm_num) hQpos
    · have h1 : (2 * (2 ^ 53 - 1) + 1) * Q ≤ 2 * X := by
        have : 2 * (2 ^ 53 - 1) + 1 = 2 ^ 54 - 1 := by norm_num
        rw [this]; exact hlo
      rcases Nat.lt_or_eq_of_le h1 with h | h
      · exact Or.inl h
      · exact Or.inr ⟨h, by norm_num⟩
    · left
      have : 2 * (2 ^ 53 - 1) + 3 = 2 * 2 ^ 53 + 1 := by norm_num
      rw [this]
      have : (2 * 2 ^ 53 + 1) * Q = 2 * (2 ^ 53 * Q) + Q := by ring
      omega

/-- The exponent and mantissa found for a value `X / D` (in units of
`2 ^ -1074`) between the midpoints to the neighbours of `f`: those of `f`, or
`2 ^ 53` one exponent lower when `f` opens a binade and the value is below it. -/
theorem round_cases (f : float64) (hnz : f.mant ≠ 0) (X D : Nat) (hD : 0 < D)
    (hlo : if 2 ^ 52 < f.mant ∨ f.shift = 0 then
        (4 * f.mant - 2) * 2 ^ f.shift * D < 4 * X
          ∨ ((4 * f.mant - 2) * 2 ^ f.shift * D = 4 * X ∧ f.mant % 2 = 0)
      else
        (4 * f.mant - 1) * 2 ^ f.shift * D < 4 * X
          ∨ ((4 * f.mant - 1) * 2 ^ f.shift * D = 4 * X ∧ f.mant % 2 = 0))
    (hhi : 4 * X < (4 * f.mant + 2) * 2 ^ f.shift * D
          ∨ (4 * X = (4 * f.mant + 2) * 2 ^ f.shift * D ∧ f.mant % 2 = 0)) :
    (floorLog2 X D - 52 = f.shift ∧ roundHalfEven X (D * 2 ^ f.shift) = f.mant)
    ∨ (∃ t, f.mant = 2 ^ 52 ∧ f.shift = t + 1 ∧ floorLog2 X D - 52 = t
        ∧ roundHalfEven X (D * 2 ^ t) = 2 ^ 53) := by
  have hfr := f.frac.isLt
  have hex := f.expo.isLt
  have hm53 : f.mant < 2 ^ 53 := by
    unfold float64.mant; split <;> omega
  obtain ⟨k, hk⟩ : ∃ k, f.mant = k + 1 := ⟨f.mant - 1, by omega⟩
  have hpar : f.mant % 2 = 0 ↔ k % 2 = 1 := by omega
  have e2 : (4 * f.mant + 2) * 2 ^ f.shift * D = 2 * ((2 * k + 3) * (D * 2 ^ f.shift)) := by
    rw [hk]; ring
  rw [e2] at hhi
  have hhi2 : 2 * X < (2 * k + 3) * (D * 2 ^ f.shift)
      ∨ (2 * X = (2 * k + 3) * (D * 2 ^ f.shift) ∧ k % 2 = 1) := by
    rcases hhi with h | ⟨h, hp⟩
    · left; omega
    · right; exact ⟨by omega, hpar.mp hp⟩
  by_cases hreg : 2 ^ 52 < f.mant ∨ f.shift = 0
  · rw [if_pos hreg] at hlo
    have e1 : (4 * f.mant - 2) * 2 ^ f.shift * D = 2 * ((2 * k + 1) * (D * 2 ^ f.shift)) := by
      rw [hk]
      have : 4 * (k + 1) - 2 = 2 * (2 * k + 1) := by omega
      rw [this]; ring
    rw [e1] at hlo
    have hlo2 : (2 * k + 1) * (D * 2 ^ f.shift) < 2 * X
        ∨ ((2 * k + 1) * (D * 2 ^ f.shift) = 2 * X ∧ k % 2 = 1) := by
      rcases hlo with h | ⟨h, hp⟩
      · left; omega
      · right; exact ⟨by omega, hpar.mp hp⟩
    left
    rw [hk]
    exact round_regular X D f.shift k hD (by omega) (by omega) hlo2 hhi2
  · rw [if_neg hreg] at hlo
    have hmant : f.mant = 2 ^ 52 := by
      have : 2 ^ 52 ≤ f.mant := by
        unfold float64.mant; unfold float64.shift at hreg
        split <;> omega
      omega
    obtain ⟨t, ht⟩ : ∃ t, f.shift = t + 1 := ⟨f.shift - 1, by omega⟩
    have hk52 : k = 4503599627370495 := by omega
    have eP : D * 2 ^ f.shift = 2 * (D * 2 ^ t) := by rw [ht, pow_succ]; ring
    have e1 : (4 * f.mant - 1) * 2 ^ f.shift * D = 2 * (18014398509481983 * (D * 2 ^ t)) := by
      rw [hmant, ht]
      rw [show (4 * 2 ^ 52 - 1 : Nat) = 18014398509481983 by norm_num]; ring
    rw [e1] at hlo
    have hQpos : 0 < D * 2 ^ t := Nat.mul_pos hD (Nat.pow_pos (by norm_num))
    have hlo3 : (2 ^ 54 - 1) * (D * 2 ^ t) ≤ 2 * X := by
      rw [show (2 ^ 54 - 1 : Nat) = 18014398509481983 by norm_num]
      rcases hlo with h | ⟨h, _⟩ <;> linarith
    clear hlo e1
    by_cases hside : X < 2 ^ 53 * (D * 2 ^ t)
    · right
      obtain ⟨hs, hm⟩ := round_below_binade X D t hD hlo3 hside
      exact ⟨t, hmant, ht, hs, hm⟩
    · -- at or above `f`: the regular case, the lower bound holding with room
      left
      rw [hk]
      have hlo2 : (2 * k + 1) * (D * 2 ^ f.shift) < 2 * X
          ∨ ((2 * k + 1) * (D * 2 ^ f.shift) = 2 * X ∧ k % 2 = 1) := by
        left
        rw [eP, hk52]
        generalize D * 2 ^ t = Q at *
        omega
      have hPpos : 0 < D * 2 ^ f.shift := Nat.mul_pos hD (Nat.pow_pos (by norm_num))
      refine ⟨?_, roundHalfEven_eq X _ k (k + 1) rfl hPpos hlo2 hhi2⟩
      have hhi' : 2 * X ≤ (2 * k + 3) * (D * 2 ^ f.shift) := by
        rcases hhi2 with h | ⟨h, _⟩ <;> omega
      have hL : floorLog2 X D = 52 + f.shift := by
        apply floorLog2_eq _ _ _ hD
        · have e3 : D * 2 ^ (52 + f.shift) = 2 ^ 53 * (D * 2 ^ t) := by rw [ht]; ring
          rw [e3]; omega
        · have e3 : D * 2 ^ (52 + f.shift + 1) = 2 ^ 53 * (D * 2 ^ f.shift) := by ring
          rw [e3]
          rw [hk52] at hhi'
          generalize D * 2 ^ f.shift = P at *
          omega
      omega

/-- The float nearest to `N / D` is `f` when `N / D` lies between the midpoints
to the neighbours of `f`, a midpoint itself counting when the mantissa of `f`
is even. Midpoints are compared after multiplying out the denominators. -/
theorem nearest_eq (f : float64) (hfin : f.finite) (hnz : f.mant ≠ 0) (N D : Nat) (hD : 0 < D)
    (hlo : if 2 ^ 52 < f.mant ∨ f.shift = 0 then
        (4 * f.mant - 2) * 2 ^ f.shift * D < 4 * (N * 2 ^ 1074)
          ∨ ((4 * f.mant - 2) * 2 ^ f.shift * D = 4 * (N * 2 ^ 1074) ∧ f.mant % 2 = 0)
      else
        (4 * f.mant - 1) * 2 ^ f.shift * D < 4 * (N * 2 ^ 1074)
          ∨ ((4 * f.mant - 1) * 2 ^ f.shift * D = 4 * (N * 2 ^ 1074) ∧ f.mant % 2 = 0))
    (hhi : 4 * (N * 2 ^ 1074) < (4 * f.mant + 2) * 2 ^ f.shift * D
          ∨ (4 * (N * 2 ^ 1074) = (4 * f.mant + 2) * 2 ^ f.shift * D ∧ f.mant % 2 = 0)) :
    nearest f.sign N D = (f, false) := by
  rcases round_cases f hnz (N * 2 ^ 1074) D hD hlo hhi with ⟨hs, hm⟩ | ⟨t, hmant, ht, hs, hm⟩
  · exact nearest_of_round_eq f hfin N D _ rfl hs hm
  · exact nearest_of_round_up_eq f hfin N D _ t rfl hmant ht hs hm

/-! ## The shortest digits lie between the midpoints -/

/-- The decimal picked by `shortestLoop` lies between `lo` and `hi`, which it
may touch only when `incl`. -/
theorem shortestLoop_spec (W lo hi : Nat) (incl : Bool) (hlo : lo < W) (hhi : W < hi) :
    ∀ (n c p : Nat), shortestLoop W lo hi incl n = (c, p) →
      (lo < c * 10 ^ p ∨ (incl = true ∧ lo = c * 10 ^ p))
      ∧ (c * 10 ^ p < hi ∨ (incl = true ∧ c * 10 ^ p = hi)) := by
  intro n
  induction n with
  | zero =>
    intro c p h
    obtain ⟨rfl, rfl⟩ := Prod.mk.inj h
    simp [hlo, hhi]
  | succ p ih =>
    intro c p' h
    have hpos : 0 < 10 ^ (p + 1) := Nat.pow_pos (by norm_num)
    have hdown : W / 10 ^ (p + 1) * 10 ^ (p + 1) ≤ W := Nat.div_mul_le_self _ _
    have hup : W < (W / 10 ^ (p + 1) + 1) * 10 ^ (p + 1) := by
      have := Nat.lt_succ_self (W / 10 ^ (p + 1))
      exact (Nat.div_lt_iff_lt_mul hpos).mp this
    unfold shortestLoop at h
    simp only [decide_eq_true_eq, Bool.decide_and, Bool.decide_or, Bool.decide_eq_true,
      Bool.and_eq_true, Bool.or_eq_true] at h
    generalize W / 10 ^ (p + 1) = q at *
    by_cases hd : lo < q * 10 ^ (p + 1) ∨ (incl = true ∧ lo = q * 10 ^ (p + 1))
    · by_cases hu : (q + 1) * 10 ^ (p + 1) < hi ∨ (incl = true ∧ (q + 1) * 10 ^ (p + 1) = hi)
      · rw [if_pos ⟨hd, hu⟩] at h
        split at h
        · obtain ⟨rfl, rfl⟩ := Prod.mk.inj h
          exact ⟨Or.inl (by omega), hu⟩
        · obtain ⟨rfl, rfl⟩ := Prod.mk.inj h
          exact ⟨hd, Or.inl (by omega)⟩
      · rw [if_neg (fun h => hu h.2), if_pos hd] at h
        obtain ⟨rfl, rfl⟩ := Prod.mk.inj h
        exact ⟨hd, Or.inl (by omega)⟩
    · rw [if_neg (fun h => hd h.1), if_neg hd] at h
      by_cases hu : (q + 1) * 10 ^ (p + 1) < hi ∨ (incl = true ∧ (q + 1) * 10 ^ (p + 1) = hi)
      · rw [if_pos hu] at h
        obtain ⟨rfl, rfl⟩ := Prod.mk.inj h
        exact ⟨Or.inl (by omega), hu⟩
      · rw [if_neg hu] at h
        exact ih c p' h

theorem two_pow_1076 : (2 : Nat) ^ 1076 = 4 * 2 ^ 1074 := by
  rw [show (1076 : Nat) = 2 + 1074 from rfl, pow_add]
  congr 1

theorem ten_pow_1076 : (10 : Nat) ^ 1076 = 4 * 2 ^ 1074 * 5 ^ 1076 := by
  rw [← two_pow_1076, ← Nat.mul_pow]

theorem pow5_pos : 0 < (5 : Nat) ^ 1076 := by positivity

/-- Comparing `a / 4` with `X` is comparing `a * K` with `C` when
`C / D = 4 * X * K / D`. -/
theorem scale_lt (a X C D K : Nat) (hK : 0 < K) (hD : 0 < D) (hv : 4 * X * K = C * D) :
    (a * K < C ↔ a * D < 4 * X) ∧ (a * K = C ↔ a * D = 4 * X)
    ∧ (C < a * K ↔ 4 * X < a * D) := by
  have e : a * K * D = a * D * K := by ring
  refine ⟨?_, ?_, ?_⟩
  · rw [← Nat.mul_lt_mul_right hD, ← hv, e, Nat.mul_lt_mul_right hK]
  · constructor
    · intro h
      have : a * D * K = 4 * X * K := by rw [← e, h, hv]
      exact Nat.eq_of_mul_eq_mul_right hK this
    · intro h
      have : a * K * D = C * D := by rw [e, h, hv]
      exact Nat.eq_of_mul_eq_mul_right hD this
  · rw [← Nat.mul_lt_mul_right hD, ← hv, e, Nat.mul_lt_mul_right hK]

/-- The digits of `roundShortest` stand for a value between the midpoints
around the float, counted in units of `10 ^ -1076`. -/
theorem roundShortest_spec (mant sh c p : Nat) (hm : mant ≠ 0)
    (h : roundShortest mant sh = (c, p)) :
    ((if 2 ^ 52 < mant ∨ sh = 0 then (4 * mant - 2) * 2 ^ sh * 5 ^ 1076
        else (4 * mant - 1) * 2 ^ sh * 5 ^ 1076) < c * 10 ^ p
      ∨ (mant % 2 = 0 ∧ (if 2 ^ 52 < mant ∨ sh = 0 then (4 * mant - 2) * 2 ^ sh * 5 ^ 1076
        else (4 * mant - 1) * 2 ^ sh * 5 ^ 1076) = c * 10 ^ p))
    ∧ (c * 10 ^ p < (4 * mant + 2) * 2 ^ sh * 5 ^ 1076
      ∨ (mant % 2 = 0 ∧ c * 10 ^ p = (4 * mant + 2) * 2 ^ sh * 5 ^ 1076)) := by
  unfold roundShortest at h
  simp only at h
  have hK := pow5_pos
  generalize (5 : Nat) ^ 1076 = K at *
  have hS : 0 < 2 ^ sh * K := Nat.mul_pos (Nat.pos_pow_of_pos sh (by norm_num)) hK
  have hlo : (if 2 ^ 52 < mant ∨ sh = 0 then (4 * mant - 2) * 2 ^ sh * K
        else (4 * mant - 1) * 2 ^ sh * K) < 4 * mant * 2 ^ sh * K := by
    split
    · rw [Nat.mul_assoc, Nat.mul_assoc (4 * mant)]
      exact Nat.mul_lt_mul_of_pos_right (by omega) hS
    · rw [Nat.mul_assoc, Nat.mul_assoc (4 * mant)]
      exact Nat.mul_lt_mul_of_pos_right (by omega) hS
  have hhi : 4 * mant * 2 ^ sh * K < (4 * mant + 2) * 2 ^ sh * K := by
    rw [Nat.mul_assoc, Nat.mul_assoc (4 * mant + 2)]
    exact Nat.mul_lt_mul_of_pos_right (by omega) hS
  have := shortestLoop_spec _ _ _ _ hlo hhi _ c p h
  simpa using this

/-- Parsing back the digits of `roundShortest`: any fraction `N / D` equal to
the decimal `c * 10 ^ p * 10 ^ -1076` they stand for rounds to the float. -/
theorem nearest_roundShortest (f : float64) (hfin : f.finite) (hnz : f.mant ≠ 0) (c p : Nat)
    (h : roundShortest f.mant f.shift = (c, p)) (N D : Nat) (hD : 0 < D)
    (hval : N * 10 ^ 1076 = c * 10 ^ p * D) :
    nearest f.sign N D = (f, false) := by
  obtain ⟨h1, h2⟩ := roundShortest_spec f.mant f.shift c p hnz h
  have hK := pow5_pos
  have hval' : 4 * (N * 2 ^ 1074) * 5 ^ 1076 = c * 10 ^ p * D := by
    rw [← hval, ten_pow_1076]; ring
  clear hval h
  generalize c * 10 ^ p = C at *
  generalize (5 : Nat) ^ 1076 = K at *
  apply nearest_eq f hfin hnz N D hD
  · generalize N * 2 ^ 1074 = X at *
    split
    · rename_i hc
      rw [if_pos hc] at h1
      have hs := scale_lt ((4 * f.mant - 2) * 2 ^ f.shift) X C D K hK hD hval'
      rcases h1 with h | ⟨hp, h⟩
      · exact Or.inl (hs.1.mp h)
      · exact Or.inr ⟨hs.2.1.mp h, hp⟩
    · rename_i hc
      rw [if_neg hc] at h1
      have hs := scale_lt ((4 * f.mant - 1) * 2 ^ f.shift) X C D K hK hD hval'
      rcases h1 with h | ⟨hp, h⟩
      · exact Or.inl (hs.1.mp h)
      · exact Or.inr ⟨hs.2.1.mp h, hp⟩
  · generalize N * 2 ^ 1074 = X at *
    have hs := scale_lt ((4 * f.mant + 2) * 2 ^ f.shift) X C D K hK hD hval'
    rcases h2 with h | ⟨hp, h⟩
    · exact Or.inl (hs.2.2.mp h)
    · exact Or.inr ⟨(hs.2.1.mp h.symm).symm, hp⟩

/-- The digits of `roundShortest` are not all zero. -/
theorem roundShortest_pos (mant sh c p : Nat) (hm : mant ≠ 0)
    (h : roundShortest mant sh = (c, p)) : 0 < c := by
  obtain ⟨h1, _⟩ := roundShortest_spec mant sh c p hm h
  by_contra hc
  have hc0 : c = 0 := by omega
  subst hc0
  have hK := pow5_pos
  generalize (5 : Nat) ^ 1076 = K at *
  have hS : 0 < 2 ^ sh * K := Nat.mul_pos (Nat.pos_pow_of_pos sh (by norm_num)) hK
  simp only [Nat.zero_mul, Nat.not_lt_zero, false_or] at h1
  obtain ⟨_, h1⟩ := h1
  split at h1
  · have : 0 < (4 * mant - 2) * (2 ^ sh * K) := Nat.mul_pos (by omega) hS
    rw [Nat.mul_assoc] at h1
    omega
  · have : 0 < (4 * mant - 1) * (2 ^ sh * K) := Nat.mul_pos (by omega) hS
    rw [Nat.mul_assoc] at h1
    omega

/-! ## Digits and the mantissa loop -/

theorem decimalDigitsLoop_append (fuel : Nat) :
    ∀ (n : Nat) (acc : Bytes), n < fuel →
      decimalDigitsLoop fuel n acc = decimalDigitsLoop (n + 1) n [] ++ acc := by
  induction fuel using Nat.strong_induction_on with
  | _ fuel ih =>
    intro n acc hn
    cases fuel with
    | zero => omega
    | succ f =>
      by_cases h10 : n < 10
      · simp [decimalDigitsLoop, h10]
      · have hdiv : n / 10 < n := Nat.div_lt_self (by omega) (by norm_num)
        simp only [decimalDigitsLoop, h10, if_false]
        rw [ih f (by omega) (n / 10) _ (by omega), ih n (by omega) (n / 10) _ hdiv]
        simp

theorem decimalDigits_lt (n : Nat) (h : n < 10) : decimalDigits n = [48 + n] := by
  simp [decimalDigits, decimalDigitsLoop, h]

theorem decimalDigits_ge (n : Nat) (h : 10 ≤ n) :
    decimalDigits n = decimalDigits (n / 10) ++ [48 + n % 10] := by
  have hdiv : n / 10 < n := Nat.div_lt_self (by omega) (by norm_num)
  have hL : decimalDigits n = decimalDigitsLoop n (n / 10) [48 + n % 10] := by
    show decimalDigitsLoop (n + 1) n [] = _
    rw [decimalDigitsLoop, if_neg (not_lt.mpr h)]
  rw [hL, decimalDigitsLoop_append n (n / 10) _ hdiv]
  rfl

theorem decimalValue_append (m : Nat) (a b : Bytes) :
    decimalValue m (a ++ b) = decimalValue (decimalValue m a) b := by
  simp [decimalValue, List.foldl_append]

theorem decimalValue_zeros (m k : Nat) :
    decimalValue m (List.replicate k 48) = m * 10 ^ k := by
  induction k generalizing m with
  | zero => simp [decimalValue]
  | succ k ih =>
    rw [List.replicate_succ]
    show decimalValue (m * 10 + (48 - 48)) (List.replicate k 48) = _
    rw [ih]
    simp [pow_succ]
    ring

/-- The digits of `n` are ASCII digits. -/
theorem decimalDigits_range (n : Nat) : ∀ b ∈ decimalDigits n, 48 ≤ b ∧ b ≤ 57 := by
  induction n using Nat.strong_induction_on with
  | _ n ih =>
    by_cases h : n < 10
    · rw [decimalDigits_lt n h]
      intro b hb
      simp at hb
      omega
    · rw [decimalDigits_ge n (by omega)]
      intro b hb
      rcases List.mem_append.mp hb with hb | hb
      · exact ih (n / 10) (Nat.div_lt_self (by omega) (by norm_num)) b hb
      · simp at hb
        omega

/-- Reading the digits of `n` gives `n` back. -/
theorem decimalValue_decimalDigits (n : Nat) : decimalValue 0 (decimalDigits n) = n := by
  induction n using Nat.strong_induction_on with
  | _ n ih =>
    by_cases h : n < 10
    · rw [decimalDigits_lt n h]
      simp [decimalValue]
    · rw [decimalDigits_ge n (by omega), decimalValue_append,
        ih (n / 10) (Nat.div_lt_self (by omega) (by norm_num))]
      simp [decimalValue]
      omega

/-- The digits of a positive number start with a digit other than `0`. -/
theorem decimalDigits_head (n : Nat) (hn : 0 < n) :
    ∃ d ds, decimalDigits n = d :: ds ∧ 49 ≤ d ∧ d ≤ 57 := by
  induction n using Nat.strong_induction_on with
  | _ n ih =>
    by_cases h : n < 10
    · exact ⟨48 + n, [], decimalDigits_lt n h, by omega, by omega⟩
    · obtain ⟨d, ds, hd, h1, h2⟩ :=
        ih (n / 10) (Nat.div_lt_self (by omega) (by norm_num)) (Nat.div_pos (by omega) (by norm_num))
      exact ⟨d, ds ++ [48 + n % 10], by rw [decimalDigits_ge n (by omega), hd]; rfl, h1, h2⟩

/-- A number has as many digits as its size requires: `10 ^ (nd - 1) ≤ n < 10 ^ nd`. -/
theorem decimalDigits_length (n : Nat) (hn : 0 < n) :
    n < 10 ^ (decimalDigits n).length ∧ 10 ^ (decimalDigits n).length ≤ 10 * n := by
  induction n using Nat.strong_induction_on with
  | _ n ih =>
    by_cases h : n < 10
    · rw [decimalDigits_lt n h]
      simp
      omega
    · obtain ⟨h1, h2⟩ :=
        ih (n / 10) (Nat.div_lt_self (by omega) (by norm_num)) (Nat.div_pos (by omega) (by norm_num))
      rw [decimalDigits_ge n (by omega)]
      simp only [List.length_append, List.length_singleton, pow_succ]
      omega

/-- Digits after the first significant one all enter the mantissa. -/
theorem readMantissa_digits (ds rest : Bytes) (hds : ∀ b ∈ ds, 48 ≤ b ∧ b ≤ 57) :
    ∀ (m nd : Nat) (dp : Int) (sawdot us : Bool), nd ≠ 0 →
      readMantissa 10 (ds ++ rest) ⟨m, nd, dp, sawdot, true, us⟩
        = readMantissa 10 rest ⟨decimalValue m ds, nd + ds.length, dp, sawdot, true, us⟩ := by
  induction ds with
  | nil => intro m nd dp sawdot us _; simp [decimalValue]
  | cons d ds ih =>
    intro m nd dp sawdot us hnd
    have hd := hds d (List.mem_cons_self _ _)
    have h95 : d ≠ 95 := by omega
    have h46 : d ≠ 46 := by omega
    have hz : ¬ (d = 48 ∧ nd = 0) := fun h => hnd h.2
    rw [List.cons_append, readMantissa]
    simp only [h95, h46, if_false, hd.1, hd.2, and_self, if_true, hz]
    rw [ih (fun b hb => hds b (List.mem_cons_of_mem _ hb)) _ _ _ _ _ (by omega)]
    simp [decimalValue, Nat.add_assoc, Nat.add_comm 1]

/-- A number starting with a digit other than `0`, read from a state with no
significant digit yet. -/
theorem readMantissa_number (ds rest : Bytes) (hds : ∀ b ∈ ds, 48 ≤ b ∧ b ≤ 57)
    (hhead : ∃ d ds', ds = d :: ds' ∧ 49 ≤ d)
    (m : Nat) (dp : Int) (sawdot sawdigits us : Bool) :
    readMantissa 10 (ds ++ rest) ⟨m, 0, dp, sawdot, sawdigits, us⟩
      = readMantissa 10 rest ⟨decimalValue m ds, ds.length, dp, sawdot, true, us⟩ := by
  obtain ⟨d, ds', rfl, h49⟩ := hhead
  have hd := hds d (List.mem_cons_self _ _)
  have h95 : d ≠ 95 := by omega
  have h46 : d ≠ 46 := by omega
  have h48 : d ≠ 48 := by omega
  rw [List.cons_append, readMantissa]
  simp only [h95, h46, if_false, hd.1, hd.2, and_self, if_true, h48, false_and]
  rw [readMantissa_digits ds' rest (fun b hb => hds b (List.mem_cons_of_mem _ hb)) _ _ _ _ _
    (by omega)]
  simp [decimalValue, Nat.add_comm]

/-- Zeros before the first significant digit only move the decimal point. -/
theorem readMantissa_zeros (k : Nat) (rest : Bytes) :
    ∀ (m : Nat) (dp : Int) (sawdot us : Bool),
      readMantissa 10 (List.replicate k 48 ++ rest) ⟨m, 0, dp, sawdot, true, us⟩
        = readMantissa 10 rest ⟨m, 0, dp - k, sawdot, true, us⟩ := by
  induction k with
  | zero => intro m dp sawdot us; simp
  | succ k ih =>
    intro m dp sawdot us
    rw [List.replicate_succ, List.cons_append, readMantissa]
    simp only [show (48 : Nat) ≠ 95 by decide, show (48 : Nat) ≠ 46 by decide, if_false,
      show (48 : Nat) ≤ 48 by decide, show (48 : Nat) ≤ 57 by decide, and_self, if_true]
    rw [ih]
    congr 2
    push_cast
    ring

/-- The decimal point, met for the first time. -/
theorem readMantissa_dot (rest : Bytes) (m nd : Nat) (dp : Int) (sawdigits us : Bool) :
    readMantissa 10 (46 :: rest) ⟨m, nd, dp, false, sawdigits, us⟩
      = readMantissa 10 rest ⟨m, nd, (nd : Int), true, sawdigits, us⟩ := by
  rw [readMantissa]
  simp

/-- The exponent letter stops the mantissa loop. -/
theorem readMantissa_e (rest : Bytes) (st : mantState) :
    readMantissa 10 (101 :: rest) st = (st, 101 :: rest) := by
  rw [readMantissa]
  simp [lower]

/-! ## Reading a formatted number -/

/-- `readFloat` on a sign and a decimal number that the mantissa loop reads
to the end of the text. -/
theorem readFloat_plain (neg : Bool) (b0 : Nat) (bt : Bytes) (hb0 : 48 ≤ b0 ∧ b0 ≤ 57)
    (hhex : (match b0 :: bt with
      | c0 :: c1 :: _ :: _ => decide (c0 = 48 ∧ lower c1 = 120)
      | _ => false) = false)
    (st : mantState) (hread : readMantissa 10 (b0 :: bt) {} = (st, []))
    (hsaw : st.sawdigits = true) (hus : st.underscores = false) :
    readFloat ((if neg then [45] else []) ++ b0 :: bt)
      = some { mantissa := st.mantissa
               exp := if st.mantissa ≠ 0 then
                   (if st.sawdot then st.dp else (st.nd : Int)) - (st.nd : Int) else 0
               neg := neg, hex := false
               n := ((if neg then [45] else []) ++ b0 :: bt).length } := by
  have h43 : b0 ≠ 43 := by omega
  have h45 : b0 ≠ 45 := by omega
  cases neg
  · simp only [Bool.false_eq_true, if_false, List.nil_append]
    unfold readFloat
    simp only [h43, h45, or_self, if_false, hhex, Bool.false_eq_true, hread, hsaw,
      not_true_eq_false, readFinish, hus, false_and, List.length_nil, Nat.sub_zero,
      decide_False]
  · simp only [if_true, List.singleton_append]
    unfold readFloat
    simp only [or_true, if_true, hhex, Bool.false_eq_true, if_false, hread, hsaw,
      not_true_eq_false, readFinish, hus, false_and, List.length_nil, Nat.sub_zero,
      decide_True]

/-- `readFloat` on a sign, a decimal mantissa, the exponent letter, a sign and
exponent digits read to the end of the text. -/
theorem readFloat_exponent (neg : Bool) (b0 : Nat) (bt : Bytes) (hb0 : 48 ≤ b0 ∧ b0 ≤ 57)
    (hhex : (match b0 :: bt with
      | c0 :: c1 :: _ :: _ => decide (c0 = 48 ∧ lower c1 = 120)
      | _ => false) = false)
    (st : mantState) (sg e0 : Nat) (et : Bytes) (e : Nat)
    (hread : readMantissa 10 (b0 :: bt) {} = (st, 101 :: sg :: e0 :: et))
    (hsaw : st.sawdigits = true) (hus : st.underscores = false)
    (hsg : sg = 43 ∨ sg = 45) (he0 : 48 ≤ e0 ∧ e0 ≤ 57)
    (hexp : readExponent (e0 :: et) 0 false = (e, false, [])) :
    readFloat ((if neg then [45] else []) ++ b0 :: bt)
      = some { mantissa := st.mantissa
               exp := if st.mantissa ≠ 0 then
                   (if st.sawdot then st.dp else (st.nd : Int))
                     + (e : Int) * (if sg = 45 then -1 else 1) - (st.nd : Int) else 0
               neg := neg, hex := false
               n := ((if neg then [45] else []) ++ b0 :: bt).length } := by
  have h43 : b0 ≠ 43 := by omega
  have h45 : b0 ≠ 45 := by omega
  have hl : lower 101 = 101 := by decide
  have hd2 : ¬ (e0 < 48 ∨ 57 < e0) := by omega
  cases neg
  · simp only [Bool.false_eq_true, if_false, List.nil_append]
    unfold readFloat
    simp only [h43, h45, or_self, if_false, hhex, Bool.false_eq_true, hread, hsaw,
      not_true_eq_false, hl, if_true, hsg, hd2, hus, hexp, readFinish, false_and,
      List.length_nil, Nat.sub_zero, decide_False]
  · simp only [if_true, List.singleton_append]
    unfold readFloat
    simp only [or_true, if_true, hhex, Bool.false_eq_true, if_false, hread, hsaw,
      not_true_eq_false, hl, hsg, hd2, hus, hexp, readFinish, false_and,
      List.length_nil, Nat.sub_zero, decide_True]

/-- A text starting with a digit, or a minus sign and a digit, is not one of
the special names. -/
theorem special_number (neg : Bool) (b0 : Nat) (bt : Bytes) (hb0 : 48 ≤ b0 ∧ b0 ≤ 57) :
    special ((if neg then [45] else []) ++ b0 :: bt) = none := by
  have hinf : bytes "infinity" = [105, 110, 102, 105, 110, 105, 116, 121] := by decide
  have h1 : ¬ (b0 = 43 ∨ b0 = 45) := by omega
  have h2 : ¬ (b0 = 105 ∨ b0 = 73) := by omega
  have h3 : ¬ (b0 = 110 ∨ b0 = 78) := by omega
  have h4 : ¬ (65 ≤ b0 ∧ b0 ≤ 90) := by omega
  have h5 : b0 ≠ 105 := by omega
  cases neg
  · simp [special, h1, h2, h3]
  · simp [special, specialInf, hinf, commonPrefixLenIgnoreCase, h4, h5]

theorem ParseFloat_of_readFloat (s : Bytes) (r : readResult) (f : float64)
    (hsp : special s = none) (hr : readFloat s = some r) (hn : r.n = s.length)
    (hv : atofValue r = (f, false)) : ParseFloat s = (f, none) := by
  unfold ParseFloat
  simp [hsp, hr, hn, hv]

/-- The decimal `M * 10 ^ E` read from the text rounds to `f` when it equals
the decimal `c * 10 ^ (p - 1076)` that `roundShortest` found for `f`. -/
theorem atofValue_shortest (f : float64) (hfin : f.finite) (hnz : f.mant ≠ 0) (c p : Nat)
    (h : roundShortest f.mant f.shift = (c, p)) (M : Nat) (E : Int) (n : Nat)
    (hval : (0 ≤ E ∧ M * 10 ^ E.toNat * 10 ^ 1076 = c * 10 ^ p)
      ∨ (E < 0 ∧ M * 10 ^ 1076 = c * 10 ^ p * 10 ^ (-E).toNat)) :
    atofValue { mantissa := M, exp := E, neg := f.sign, hex := false, n := n } = (f, false) := by
  unfold atofValue
  simp only [Bool.false_eq_true, if_false]
  rcases hval with ⟨hE, hv⟩ | ⟨hE, hv⟩
  · rw [if_pos hE]
    exact nearest_roundShortest f hfin hnz c p h _ 1 (by norm_num) (by rw [hv]; ring)
  · rw [if_neg (by omega)]
    exact nearest_roundShortest f hfin hnz c p h _ _ (by positivity) hv

theorem hex_false_of_ne (b0 : Nat) (bt : Bytes) (h : b0 ≠ 48) :
    (match b0 :: bt with
      | c0 :: c1 :: _ :: _ => decide (c0 = 48 ∧ lower c1 = 120)
      | _ => false) = false := by
  rcases bt with _ | ⟨c1, _ | ⟨c2, r⟩⟩ <;> simp [h]

theorem hex_false_of_dot (bt : Bytes) :
    (match 48 :: 46 :: bt with
      | c0 :: c1 :: _ :: _ => decide (c0 = 48 ∧ lower c1 = 120)
      | _ => false) = false := by
  have : lower 46 ≠ 120 := by decide
  rcases bt with _ | ⟨c2, r⟩ <;> simp [this]

/-! ## The plain format reads back -/

/-- `fmtF` when the point lies at or after the last digit: the digits and
padding zeros. -/
theorem fmtF_int (neg : Bool) (ds : Bytes) (k : Nat) (hne : ds ≠ []) :
    fmtF neg { d := ds, dp := ((ds.length + k : Nat) : Int) }
      = (if neg then [45] else []) ++ (ds ++ List.replicate k 48) := by
  have hpos : 0 < ds.length := List.length_pos.mpr hne
  have c1 : (0 : Int) < ((ds.length + k : Nat) : Int) := by omega
  have c2 : ¬ (((ds.length + k : Nat) : Int) < (ds.length : Int)) := by omega
  unfold fmtF
  simp only [Int.toNat_ofNat]
  rw [if_pos c1, if_neg c2]
  simp [List.take_of_length_le]

/-- `fmtF` when the point lies inside the digits. -/
theorem fmtF_mixed (neg : Bool) (ds : Bytes) (j : Nat) (hj0 : 0 < j) (hj : j < ds.length) :
    fmtF neg { d := ds, dp := (j : Int) }
      = (if neg then [45] else []) ++ (ds.take j ++ 46 :: ds.drop j) := by
  have c1 : (0 : Int) < (j : Int) := by omega
  have c2 : (j : Int) < (ds.length : Int) := by omega
  have h1 : j - ds.length = 0 := by omega
  have h2 : (-(j : Int)).toNat = 0 := by omega
  unfold fmtF
  simp only [Int.toNat_ofNat]
  rw [if_pos c1, if_pos c2, h1, h2]
  simp

/-- `fmtF` when the point lies at or before the first digit: `0.`, zeros and
the digits. -/
theorem fmtF_small (neg : Bool) (ds : Bytes) (k : Nat) (hne : ds ≠ []) :
    fmtF neg { d := ds, dp := -(k : Int) }
      = (if neg then [45] else []) ++ (48 :: 46 :: (List.replicate k 48 ++ ds)) := by
  have hpos : 0 < ds.length := List.length_pos.mpr hne
  have c1 : ¬ ((0 : Int) < -(k : Int)) := by omega
  have c2 : -(k : Int) < (ds.length : Int) := by omega
  have h1 : (-(k : Int)).toNat = 0 := by omega
  have h2 : (- -(k : Int)).toNat = k := by omega
  unfold fmtF
  simp only
  rw [if_neg c1, if_pos c2, h1, h2]
  simp

/-- A sign and a decimal number that the mantissa loop reads to the end parse
to `f` when the value read is the decimal `roundShortest` found for `f`. -/
theorem ParseFloat_body (f : float64) (hfin : f.finite) (hnz : f.mant ≠ 0) (c p : Nat)
    (hrs : roundShortest f.mant f.shift = (c, p))
    (body : Bytes) (b0 : Nat) (bt : Bytes) (hbody : body = b0 :: bt) (hb0 : 48 ≤ b0 ∧ b0 ≤ 57)
    (hhex : b0 ≠ 48 ∨ ∃ r, bt = 46 :: r)
    (st : mantState) (hread : readMantissa 10 body ⟨0, 0, 0, false, false, false⟩ = (st, []))
    (hsaw : st.sawdigits = true) (hus : st.underscores = false) (hm : st.mantissa ≠ 0)
    (hval : (0 ≤ (if st.sawdot then st.dp else (st.nd : Int)) - (st.nd : Int)
        ∧ st.mantissa * 10 ^ ((if st.sawdot then st.dp else (st.nd : Int)) - (st.nd : Int)).toNat
            * 10 ^ 1076 = c * 10 ^ p)
      ∨ ((if st.sawdot then st.dp else (st.nd : Int)) - (st.nd : Int) < 0
        ∧ st.mantissa * 10 ^ 1076
          = c * 10 ^ p * 10 ^ (-((if st.sawdot then st.dp else (st.nd : Int)) - (st.nd : Int))).toNat)) :
    ParseFloat ((if f.sign then [45] else []) ++ body) = (f, none) := by
  subst hbody
  have hhex' : (match b0 :: bt with
      | c0 :: c1 :: _ :: _ => decide (c0 = 48 ∧ lower c1 = 120)
      | _ => false) = false := by
    rcases hhex with h | ⟨r, rfl⟩
    · exact hex_false_of_ne b0 bt h
    · by_cases h : b0 = 48
      · subst h; exact hex_false_of_dot r
      · exact hex_false_of_ne b0 _ h
  have hr := readFloat_plain f.sign b0 bt hb0 hhex' st hread hsaw hus
  refine ParseFloat_of_readFloat _ _ f (special_number f.sign b0 bt hb0) hr rfl ?_
  rw [if_pos hm]
  exact atofValue_shortest f hfin hnz c p hrs _ _ _ hval

theorem zeros_range (k : Nat) : ∀ b ∈ List.replicate k 48, 48 ≤ b ∧ b ≤ 57 := by
  intro b hb
  have := List.eq_of_mem_replicate hb
  omega

/-- The text `fmtF` prints for the shortest digits of a finite float other
than zero parses back to that float. -/
theorem ParseFloat_fmtF_digits (f : float64) (hfin : f.finite) (hnz : f.mant ≠ 0) (c p : Nat)
    (hrs : roundShortest f.mant f.shift = (c, p)) :
    ParseFloat (fmtF f.sign
        { d := decimalDigits c, dp := ((decimalDigits c).length : Int) + (p : Int) - 1076 })
      = (f, none) := by
  have hc : 0 < c := roundShortest_pos _ _ c p hnz hrs
  obtain ⟨d0, ds', hds, h49, h57⟩ := decimalDigits_head c hc
  have hrange := decimalDigits_range c
  have hvalue := decimalValue_decimalDigits c
  have hne : decimalDigits c ≠ [] := by rw [hds]; simp
  have hlen : (decimalDigits c).length = ds'.length + 1 := by rw [hds]; simp
  have hd0 : 48 ≤ d0 ∧ d0 ≤ 57 := ⟨by omega, h57⟩
  generalize hdsdef : decimalDigits c = ds at *
  by_cases hp : 1076 ≤ p
  · -- the digits and padding zeros
    obtain ⟨k, rfl⟩ : ∃ k, p = k + 1076 := ⟨p - 1076, by omega⟩
    have e : (ds.length : Int) + ((k + 1076 : Nat) : Int) - 1076 = ((ds.length + k : Nat) : Int) := by
      push_cast; ring
    rw [e, fmtF_int f.sign ds k hne]
    have hread : readMantissa 10 (ds ++ List.replicate k 48) ⟨0, 0, 0, false, false, false⟩
        = (⟨c * 10 ^ k, ds.length + k, 0, false, true, false⟩, []) := by
      rw [readMantissa_number ds _ hrange ⟨d0, ds', hds, h49⟩, hvalue]
      have := readMantissa_digits (List.replicate k 48) [] (zeros_range k) c ds.length 0 false
        false (by omega)
      rw [List.append_nil] at this
      rw [this, decimalValue_zeros]
      simp [readMantissa]
    refine ParseFloat_body f hfin hnz c (k + 1076) hrs _ d0 (ds' ++ List.replicate k 48)
      (by rw [hds]; rfl) hd0 (Or.inl (by omega)) _ hread rfl rfl ?_ ?_
    · exact Nat.pos_iff_ne_zero.mp (Nat.mul_pos hc (by positivity))
    · left
      simp only [Bool.false_eq_true, if_false, sub_self, le_refl, Int.toNat_zero, pow_zero,
        mul_one, true_and]
      rw [pow_add, Nat.mul_assoc]
  · by_cases hq : 1076 < ds.length + p
    · -- the point inside the digits
      obtain ⟨j, hj⟩ : ∃ j, ds.length + p = j + 1076 := ⟨ds.length + p - 1076, by omega⟩
      have e : (ds.length : Int) + (p : Int) - 1076 = (j : Int) := by omega
      rw [e, fmtF_mixed f.sign ds j (by omega) (by omega)]
      have htake : ∀ b ∈ ds.take j, 48 ≤ b ∧ b ≤ 57 :=
        fun b hb => hrange b (List.mem_of_mem_take hb)
      have hdrop : ∀ b ∈ ds.drop j, 48 ≤ b ∧ b ≤ 57 :=
        fun b hb => hrange b (List.mem_of_mem_drop hb)
      have htl : (ds.take j).length = j := by rw [List.length_take]; omega
      have hdl : (ds.drop j).length = ds.length - j := List.length_drop _ _
      have hthead : ∃ d t, ds.take j = d :: t ∧ 49 ≤ d := by
        obtain ⟨i, rfl⟩ : ∃ i, j = i + 1 := ⟨j - 1, by omega⟩
        exact ⟨d0, ds'.take i, by rw [hds]; rfl, h49⟩
      have hread : readMantissa 10 (ds.take j ++ 46 :: ds.drop j) ⟨0, 0, 0, false, false, false⟩
          = (⟨c, ds.length, (j : Int), true, true, false⟩, []) := by
        rw [readMantissa_number (ds.take j) _ htake hthead, readMantissa_dot]
        have := readMantissa_digits (ds.drop j) [] hdrop (decimalValue 0 (ds.take j))
          (ds.take j).length ((ds.take j).length : Int) true false (by omega)
        rw [List.append_nil] at this
        rw [this, ← decimalValue_append, List.take_append_drop, hvalue, htl, hdl]
        simp [readMantissa]
        omega
      obtain ⟨d, t, hdt, _⟩ := hthead
      have hdd : d = d0 := by
        have : (ds.take j).head? = ds.head? := by
          obtain ⟨i, rfl⟩ : ∃ i, j = i + 1 := ⟨j - 1, by omega⟩
          rw [hds]; rfl
        rw [hdt, hds] at this
        simpa using this
      subst hdd
      refine ParseFloat_body f hfin hnz c p hrs _ d (t ++ 46 :: ds.drop j)
        (by rw [hdt]; rfl) hd0 (Or.inl (by omega)) _ hread rfl rfl (by simpa using hc.ne') ?_
      right
      simp only [if_true]
      have hE : (-((j : Int) - (ds.length : Int))).toNat = 1076 - p := by omega
      refine ⟨by omega, ?_⟩
      have hpp : p + (1076 - p) = 1076 := by omega
      rw [hE, Nat.mul_assoc, ← pow_add, hpp]
    · -- `0.`, zeros and the digits
      obtain ⟨k, hk⟩ : ∃ k, ds.length + p + k = 1076 := ⟨1076 - (ds.length + p), by omega⟩
      have e : (ds.length : Int) + (p : Int) - 1076 = -(k : Int) := by omega
      rw [e, fmtF_small f.sign ds k hne]
      have hread : readMantissa 10 (48 :: 46 :: (List.replicate k 48 ++ ds))
            ⟨0, 0, 0, false, false, false⟩
          = (⟨c, ds.length, -(k : Int), true, true, false⟩, []) := by
        rw [readMantissa]
        simp only [show (48 : Nat) ≠ 95 by decide, show (48 : Nat) ≠ 46 by decide, if_false,
          show (48 : Nat) ≤ 48 by decide, show (48 : Nat) ≤ 57 by decide, and_self, if_true]
        rw [readMantissa_dot, readMantissa_zeros]
        have := readMantissa_number ds [] hrange ⟨d0, ds', hds, h49⟩ 0 ((0 : Nat) - (k : Int))
          true true false
        rw [List.append_nil] at this
        rw [this, hvalue]
        simp [readMantissa]
      refine ParseFloat_body f hfin hnz c p hrs _ 48 (46 :: (List.replicate k 48 ++ ds))
        rfl (by omega) (Or.inr ⟨_, rfl⟩) _ hread rfl rfl (by simpa using hc.ne') ?_
      right
      simp only [if_true]
      have hE : (-(-(k : Int) - (ds.length : Int))).toNat = 1076 - p := by omega
      refine ⟨by omega, ?_⟩
      have hpp : p + (1076 - p) = 1076 := by omega
      rw [hE, Nat.mul_assoc, ← pow_add, hpp]

theorem mant_eq_zero (f : float64) (h : f.mant = 0) : f = float64.zero f.sign := by
  obtain ⟨s, e, m⟩ := f
  unfold float64.mant at h
  simp only at h
  have he : e.val = 0 := by
    by_contra hne
    rw [if_neg hne] at h
    omega
  rw [if_pos he] at h
  have e0 : e = 0 := Fin.ext he
  have m0 : m = 0 := Fin.ext h
  subst e0 m0
  rfl

/-- Go `strconv.ParseFloat(strconv.FormatFloat(f, 'f', -1, 64), 64)` is `f`
for every finite float. -/
theorem ParseFloat_fmtF (f : float64) (hfin : f.finite) :
    ParseFloat (fmtF f.sign (shortestDigits f)) = (f, none) := by
  unfold shortestDigits
  by_cases hnz : f.mant = 0
  · rw [if_pos hnz]
    have hf := mant_eq_zero f hnz
    rw [hf]
    cases f.sign
    · decide!
    · decide!
  · rw [if_neg hnz]
    rcases hrs : roundShortest f.mant f.shift with ⟨c, p⟩
    exact ParseFloat_fmtF_digits f hfin hnz c p hrs

/-- The plain format of every float that is not a NaN reads back as that
float; the infinities print as `+Inf` and `-Inf`. -/
theorem ParseFloat_FormatFloat (f : float64) (hnan : f.IsNaN = false) :
    ParseFloat (FormatFloat f false) = (f, none) := by
  unfold FormatFloat
  by_cases hinf : f.expo.val = 2047
  · have hfrac : f.frac.val = 0 := by
      unfold float64.IsNaN at hnan
      simp only [decide_eq_false_iff_not, not_and, not_not] at hnan
      exact hnan hinf
    rw [if_pos hinf, if_neg (by omega)]
    obtain ⟨s, e, m⟩ := f
    simp only at hinf hfrac
    have e0 : e = 2047 := Fin.ext hinf
    have m0 : m = 0 := Fin.ext hfrac
    subst e0 m0
    cases s
    · decide
    · decide
  · rw [if_neg hinf]
    simp only [Bool.false_eq_true, if_false]
    exact ParseFloat_fmtF f hinf

end strconv

/-! ## The exponent format and the JSON encoder read back -/

namespace strconv

/-- The exponent digits `fmtE` prints, two at least, read back as the exponent. -/
theorem readExponent_fmtE (e : Nat) (he : e < 1000) :
    readExponent (if e < 10 then [48, 48 + e]
        else if e < 100 then [48 + e / 10, 48 + e % 10]
        else [48 + e / 100, 48 + e / 10 % 10, 48 + e % 10]) 0 false = (e, false, []) := by
  by_cases h1 : e < 10
  · rw [if_pos h1]
    have a1 : 48 + e ≤ 57 := by omega
    simp [readExponent, a1]
  · rw [if_neg h1]
    by_cases h2 : e < 100
    · rw [if_pos h2]
      have a1 : 48 + e / 10 ≤ 57 := by omega
      have a2 : 48 + e % 10 ≤ 57 := by omega
      have a3 : e / 10 < 10000 := by omega
      simp [readExponent, a1, a2, a3]
      omega
    · rw [if_neg h2]
      have a1 : 48 + e / 100 ≤ 57 := by omega
      have a2 : 48 + e / 10 % 10 ≤ 57 := by omega
      have a3 : 48 + e % 10 ≤ 57 := by omega
      have a4 : e / 100 < 10000 := by omega
      have a5 : e / 100 * 10 + e / 10 % 10 < 10000 := by omega
      simp [readExponent, a1, a2, a3, a4, a5]
      omega

/-- A one-digit exponent, as the JSON encoder leaves it, reads back too. -/
theorem readExponent_one (e : Nat) (he : e < 10) :
    readExponent [48 + e] 0 false = (e, false, []) := by
  have a1 : 48 + e ≤ 57 := by omega
  simp [readExponent, a1]

end strconv

namespace json

theorem getD_append_add (pre l : Bytes) (i : Nat) :
    (pre ++ l).getD (pre.length + i) 0 = l.getD i 0 := by
  induction pre with
  | nil => simp
  | cons a pre ih =>
    rw [List.cons_append, List.length_cons, show pre.length + 1 + i = (pre.length + i) + 1 by omega,
      List.getD_cons_succ, ih]

theorem take_append_add (pre l : Bytes) (i : Nat) :
    (pre ++ l).take (pre.length + i) = pre ++ l.take i := by
  induction pre with
  | nil => simp
  | cons a pre ih =>
    rw [List.cons_append, List.length_cons, show pre.length + 1 + i = (pre.length + i) + 1 by omega,
      List.take_succ_cons, ih, List.cons_append]

/-- The exponent clean-up drops the leading zero of a two-digit exponent and
changes nothing else. -/
theorem cleanExponent_fmtE (pre : Bytes) (sg e : Nat) (hsg : sg = 43 ∨ sg = 45) (he : e < 1000) :
    cleanExponent (pre ++ [101, sg] ++ (if e < 10 then [48, 48 + e]
        else if e < 100 then [48 + e / 10, 48 + e % 10]
        else [48 + e / 100, 48 + e / 10 % 10, 48 + e % 10]))
      = pre ++ [101, sg] ++ (if e < 10 then [48 + e]
        else if e < 100 then [48 + e / 10, 48 + e % 10]
        else [48 + e / 100, 48 + e / 10 % 10, 48 + e % 10]) := by
  have hsg101 : sg ≠ 101 := by omega
  by_cases h1 : e < 10
  · rw [if_pos h1, if_pos h1]
    unfold cleanExponent
    simp only [List.append_assoc, List.cons_append, List.nil_append, List.length_append,
      List.length_cons, List.length_nil]
    rw [show pre.length + (0 + 1 + 1 + 1 + 1) - 4 = pre.length + 0 by omega,
      show pre.length + (0 + 1 + 1 + 1 + 1) - 3 = pre.length + 1 by omega,
      show pre.length + (0 + 1 + 1 + 1 + 1) - 2 = pre.length + 2 by omega,
      show pre.length + (0 + 1 + 1 + 1 + 1) - 1 = pre.length + 3 by omega]
    simp only [getD_append_add, take_append_add]
    have hs : sg = 45 ∨ sg = 43 := hsg.symm
    simp [hs]
  · rw [if_neg h1, if_neg h1]
    by_cases h2 : e < 100
    · rw [if_pos h2]
      have hx : 48 + e / 10 ≠ 48 := by omega
      unfold cleanExponent
      simp only [List.append_assoc, List.cons_append, List.nil_append, List.length_append,
        List.length_cons, List.length_nil]
      rw [show pre.length + (0 + 1 + 1 + 1 + 1) - 4 = pre.length + 0 by omega,
        show pre.length + (0 + 1 + 1 + 1 + 1) - 3 = pre.length + 1 by omega,
        show pre.length + (0 + 1 + 1 + 1 + 1) - 2 = pre.length + 2 by omega,
        show pre.length + (0 + 1 + 1 + 1 + 1) - 1 = pre.length + 3 by omega]
      simp only [getD_append_add]
      simp [hx]
    · rw [if_neg h2]
      unfold cleanExponent
      simp only [List.append_assoc, List.cons_append, List.nil_append, List.length_append,
        List.length_cons, List.length_nil]
      rw [show pre.length + (0 + 1 + 1 + 1 + 1 + 1) - 4 = pre.length + 1 by omega,
        show pre.length + (0 + 1 + 1 + 1 + 1 + 1) - 3 = pre.length + 2 by omega,
        show pre.length + (0 + 1 + 1 + 1 + 1 + 1) - 2 = pre.length + 3 by omega,
        show pre.length + (0 + 1 + 1 + 1 + 1 + 1) - 1 = pre.length + 4 by omega]
      simp only [getD_append_add]
      simp [hsg101]

end json

namespace strconv

theorem pow5_lower : (10 : Nat) ^ 77 ≤ 5 ^ 1076 := by decide!

theorem pow5_upper : 10 * (2 ^ 55 * 2 ^ 2045 * 5 ^ 1076) < 10 ^ 2077 := by decide!

/-- The decimal exponent of the shortest digits of a finite float stays within
three digits: the digits and their position together span between 78 and 2076
places above `10 ^ -1076`. -/
theorem roundShortest_magnitude (f : float64) (hfin : f.finite) (hnz : f.mant ≠ 0) (c p : Nat)
    (hrs : roundShortest f.mant f.shift = (c, p)) :
    78 ≤ (decimalDigits c).length + p ∧ (decimalDigits c).length + p ≤ 2076 := by
  obtain ⟨h1, h2⟩ := roundShortest_spec f.mant f.shift c p hnz hrs
  have hc : 0 < c := roundShortest_pos _ _ c p hnz hrs
  obtain ⟨hlt, hge⟩ := decimalDigits_length c hc
  have hfr := f.frac.isLt
  have hex := f.expo.isLt
  unfold float64.finite at hfin
  have hm53 : f.mant < 2 ^ 53 := by
    unfold float64.mant; split <;> omega
  have hsh : f.shift ≤ 2045 := by unfold float64.shift; omega
  have hp2 : 2 ^ f.shift ≤ 2 ^ 2045 := by
    apply Nat.pow_le_pow_right
    · norm_num
    · exact hsh
  have hp1 : 1 ≤ 2 ^ f.shift := Nat.one_le_two_pow
  have k1 := pow5_lower
  have k2 := pow5_upper
  have hK := pow5_pos
  generalize hnd : (decimalDigits c).length = nd at *
  have hC1 : c * 10 ^ p < 10 ^ (nd + p) := by
    rw [pow_add]
    exact Nat.mul_lt_mul_of_pos_right hlt (by positivity)
  have hC2 : 10 ^ (nd + p) ≤ 10 * (c * 10 ^ p) := by
    rw [pow_add, ← Nat.mul_assoc]
    exact Nat.mul_le_mul_right _ hge
  generalize c * 10 ^ p = C at *
  constructor
  · -- below: the lower midpoint is at least `5 ^ 1076`
    have hlo : 5 ^ 1076 ≤ C := by
      have hA : ∀ A : Nat, 1 ≤ A → 5 ^ 1076 ≤ A * 2 ^ f.shift * 5 ^ 1076 := by
        intro A hA
        exact Nat.le_mul_of_pos_left _ (Nat.mul_pos hA hp1)
      have hlo' : (if 2 ^ 52 < f.mant ∨ f.shift = 0 then (4 * f.mant - 2) * 2 ^ f.shift * 5 ^ 1076
          else (4 * f.mant - 1) * 2 ^ f.shift * 5 ^ 1076) ≤ C := by
        rcases h1 with h | ⟨_, h⟩
        · exact Nat.le_of_lt h
        · exact Nat.le_of_eq h
      split at hlo'
      · exact le_trans (hA _ (by omega)) hlo'
      · exact le_trans (hA _ (by omega)) hlo'
    have : (10 : Nat) ^ 77 < 10 ^ (nd + p) := lt_of_le_of_lt (le_trans k1 hlo) hC1
    have := (Nat.pow_lt_pow_iff_right (by norm_num : 1 < 10)).mp this
    exact this
  · -- above: the upper midpoint is below `2 ^ 55 * 2 ^ 2045 * 5 ^ 1076`
    have hhi : C ≤ 2 ^ 55 * 2 ^ 2045 * 5 ^ 1076 := by
      have hhi' : C ≤ (4 * f.mant + 2) * 2 ^ f.shift * 5 ^ 1076 := by
        rcases h2 with h | ⟨_, h⟩
        · exact Nat.le_of_lt h
        · exact Nat.le_of_eq h
      refine le_trans hhi' (Nat.mul_le_mul_right _ (Nat.mul_le_mul ?_ hp2))
      have : (2 : Nat) ^ 55 = 36028797018963968 := by norm_num
      omega
    have : (10 : Nat) ^ (nd + p) < 10 ^ 2077 :=
      lt_of_le_of_lt (le_trans hC2 (Nat.mul_le_mul_left _ hhi)) k2
    have := (Nat.pow_lt_pow_iff_right (by norm_num : 1 < 10)).mp this
    exact Nat.lt_succ_iff.mp this

/-- A sign, a decimal mantissa and a signed exponent parse to `f` when the
value read is the decimal `roundShortest` found for `f`. -/
theorem ParseFloat_bodyE (f : float64) (hfin : f.finite) (hnz : f.mant ≠ 0) (c p : Nat)
    (hrs : roundShortest f.mant f.shift = (c, p))
    (b0 : Nat) (bt : Bytes) (hb0 : 49 ≤ b0 ∧ b0 ≤ 57)
    (st : mantState) (sg e0 : Nat) (et : Bytes) (e : Nat)
    (hread : readMantissa 10 (b0 :: bt) ⟨0, 0, 0, false, false, false⟩
      = (st, 101 :: sg :: e0 :: et))
    (hsaw : st.sawdigits = true) (hus : st.underscores = false) (hm : st.mantissa ≠ 0)
    (hsg : sg = 43 ∨ sg = 45) (he0 : 48 ≤ e0 ∧ e0 ≤ 57)
    (hexp : readExponent (e0 :: et) 0 false = (e, false, []))
    (hval : (0 ≤ (if st.sawdot then st.dp else (st.nd : Int))
            + (e : Int) * (if sg = 45 then -1 else 1) - (st.nd : Int)
        ∧ st.mantissa * 10 ^ ((if st.sawdot then st.dp else (st.nd : Int))
            + (e : Int) * (if sg = 45 then -1 else 1) - (st.nd : Int)).toNat
            * 10 ^ 1076 = c * 10 ^ p)
      ∨ ((if st.sawdot then st.dp else (st.nd : Int))
            + (e : Int) * (if sg = 45 then -1 else 1) - (st.nd : Int) < 0
        ∧ st.mantissa * 10 ^ 1076
          = c * 10 ^ p * 10 ^ (-((if st.sawdot then st.dp else (st.nd : Int))
            + (e : Int) * (if sg = 45 then -1 else 1) - (st.nd : Int))).toNat)) :
    ParseFloat ((if f.sign then [45] else []) ++ b0 :: bt) = (f, none) := by
  have hb0' : 48 ≤ b0 ∧ b0 ≤ 57 := ⟨by omega, hb0.2⟩
  have hr := readFloat_exponent f.sign b0 bt hb0' (hex_false_of_ne b0 bt (by omega)) st sg e0 et e
    hread hsaw hus hsg he0 hexp
  refine ParseFloat_of_readFloat _ _ f (special_number f.sign b0 bt hb0') hr rfl ?_
  rw [if_pos hm]
  exact atofValue_shortest f hfin hnz c p hrs _ _ _ hval

/-- The shape of what `fmtE` prints for digits `d0 :: ds`. -/
theorem fmtE_cons (neg : Bool) (d0 : Nat) (ds : Bytes) (dp : Int) :
    fmtE neg { d := d0 :: ds, dp := dp }
      = ((if neg then [45] else []) ++ [d0] ++ (if ds ≠ [] then 46 :: ds else []))
        ++ [101, if dp - 1 < 0 then 45 else 43]
        ++ (if (dp - 1).natAbs < 10 then [48, 48 + (dp - 1).natAbs]
          else if (dp - 1).natAbs < 100 then
            [48 + (dp - 1).natAbs / 10, 48 + (dp - 1).natAbs % 10]
          else [48 + (dp - 1).natAbs / 100, 48 + (dp - 1).natAbs / 10 % 10,
            48 + (dp - 1).natAbs % 10]) := by
  unfold fmtE
  have h1 : (1 < (d0 :: ds).length) ↔ ds ≠ [] := by
    cases ds <;> simp
  simp only [List.headD_cons, List.drop_succ_cons, List.drop_zero, List.length_cons,
    Nat.succ_ne_zero, if_false]
  by_cases hds : ds = []
  · subst hds; simp
  · have : 1 < ds.length + 1 := by
      have := List.length_pos.mpr hds
      omega
    simp [hds, this]

/-- The mantissa `d0.ds`, the exponent letter, the sign and any exponent
digits that read as the decimal exponent of the shortest digits of `f`
together parse to `f`. -/
theorem ParseFloat_exponent_text (f : float64) (hfin : f.finite) (hnz : f.mant ≠ 0) (c p : Nat)
    (hrs : roundShortest f.mant f.shift = (c, p)) (d0 : Nat) (ds : Bytes)
    (hds : decimalDigits c = d0 :: ds) (e0 : Nat) (et : Bytes) (he0 : 48 ≤ e0 ∧ e0 ≤ 57)
    (hexp : readExponent (e0 :: et) 0 false
      = ((((ds.length + 1 : Nat) : Int) + (p : Int) - 1076 - 1).natAbs, false, [])) :
    ParseFloat (((if f.sign then [45] else []) ++ [d0] ++ (if ds ≠ [] then 46 :: ds else []))
        ++ [101, if ((ds.length + 1 : Nat) : Int) + (p : Int) - 1076 - 1 < 0 then 45 else 43]
        ++ e0 :: et) = (f, none) := by
  have hc : 0 < c := roundShortest_pos _ _ c p hnz hrs
  obtain ⟨d0', ds', hds', h49, h57⟩ := decimalDigits_head c hc
  rw [hds] at hds'
  obtain ⟨rfl, rfl⟩ := List.cons.inj hds'
  have hrange := decimalDigits_range c
  have hvalue := decimalValue_decimalDigits c
  rw [hds] at hrange hvalue
  have hd0r : ∀ b ∈ [d0], 48 ≤ b ∧ b ≤ 57 := fun b hb => hrange b (by simp at hb; simp [hb])
  have hdsr : ∀ b ∈ ds, 48 ≤ b ∧ b ≤ 57 := fun b hb => hrange b (List.mem_cons_of_mem _ hb)
  generalize hX : ((ds.length + 1 : Nat) : Int) + (p : Int) - 1076 - 1 = X at *
  generalize hsgdef : (if X < 0 then 45 else 43) = sg
  have hsg : sg = 43 ∨ sg = 45 := by rw [← hsgdef]; split <;> simp
  have hsgn : (X.natAbs : Int) * (if sg = 45 then -1 else 1) = X := by
    rw [← hsgdef]
    by_cases hx : X < 0
    · simp only [hx, if_true]; omega
    · simp only [hx, if_false]
      rw [if_neg (by decide)]; omega
  have hassoc : ((if f.sign then [45] else []) ++ [d0] ++ (if ds ≠ [] then 46 :: ds else []))
        ++ [101, sg] ++ e0 :: et
      = (if f.sign then [45] else [])
        ++ d0 :: ((if ds ≠ [] then 46 :: ds else []) ++ 101 :: sg :: e0 :: et) := by
    simp [List.append_assoc]
  rw [hassoc]
  have hread : readMantissa 10
        (d0 :: ((if ds ≠ [] then 46 :: ds else []) ++ 101 :: sg :: e0 :: et))
        ⟨0, 0, 0, false, false, false⟩
      = (⟨c, ds.length + 1, if ds ≠ [] then 1 else 0, decide (ds ≠ []), true, false⟩,
          101 :: sg :: e0 :: et) := by
    have h1 := readMantissa_number [d0]
      ((if ds ≠ [] then 46 :: ds else []) ++ 101 :: sg :: e0 :: et) hd0r ⟨d0, [], rfl, h49⟩
      0 0 false false false
    rw [List.singleton_append] at h1
    rw [h1]
    by_cases hne : ds = []
    · subst hne
      simp only [ne_eq, not_true_eq_false, if_false, List.nil_append, decide_False]
      rw [readMantissa_e]
      simp only [List.length_singleton, List.length_nil, Nat.zero_add]
      rw [hvalue]
    · simp only [ne_eq, hne, not_false_eq_true, if_true, List.cons_append, decide_True]
      rw [readMantissa_dot, readMantissa_digits ds _ hdsr _ _ _ _ _ (by simp), readMantissa_e,
        ← decimalValue_append, List.singleton_append, hvalue]
      simp [Nat.add_comm]
  refine ParseFloat_bodyE f hfin hnz c p hrs d0 _ ⟨h49, h57⟩ _ sg e0 et X.natAbs hread rfl rfl
    (by simpa using hc.ne') hsg he0 hexp ?_
  have hdpb : (if (decide (ds ≠ [])) = true then (if ds ≠ [] then (1 : Int) else 0)
      else ((ds.length + 1 : Nat) : Int)) = 1 := by
    by_cases hne : ds = []
    · subst hne; simp
    · simp [hne]
  simp only [hdpb, hsgn]
  by_cases hE : 0 ≤ 1 + X - ((ds.length + 1 : Nat) : Int)
  · left
    refine ⟨hE, ?_⟩
    obtain ⟨k, hk⟩ : ∃ k, p = k + 1076 := ⟨p - 1076, by omega⟩
    have hT : (1 + X - ((ds.length + 1 : Nat) : Int)).toNat = k := by omega
    rw [hT, hk, pow_add, Nat.mul_assoc]
  · right
    refine ⟨by omega, ?_⟩
    have hT : (-(1 + X - ((ds.length + 1 : Nat) : Int))).toNat = 1076 - p := by omega
    have hpp : p + (1076 - p) = 1076 := by omega
    rw [hT, Nat.mul_assoc, ← pow_add, hpp]

end strconv

namespace json

/-- The text `json.Marshal` prints for a finite float parses back to it. -/
theorem ParseFloat_MarshalFloat64 (f : float64) (hfin : f.finite) :
    (MarshalFloat64 f).2 = none ∧ strconv.ParseFloat (MarshalFloat64 f).1 = (f, none) := by
  have hfin' := hfin
  unfold float64.finite at hfin'
  have hinf : f.IsInf = false := by simp [float64.IsInf, hfin']
  have hnan : f.IsNaN = false := by simp [float64.IsNaN, hfin']
  unfold MarshalFloat64
  simp only [hinf, hnan, Bool.false_eq_true, or_self, if_false, true_and]
  generalize (absLt f f1em6 || !absLt f f1e21) = big
  by_cases hz : f.expo.val = 0 ∧ f.frac.val = 0
  · -- a zero prints in the plain format
    simp only [hz, and_self, not_true_eq_false, decide_False, Bool.false_and,
      Bool.false_eq_true, if_false]
    exact strconv.ParseFloat_FormatFloat f hnan
  · simp only [hz, not_false_eq_true, decide_True, Bool.true_and]
    cases big
    · simp only [Bool.false_eq_true, if_false]
      exact strconv.ParseFloat_FormatFloat f hnan
    · simp only [if_true]
      have hnz : f.mant ≠ 0 := by
        intro h
        have := strconv.mant_eq_zero f h
        apply hz
        rw [this]
        exact ⟨rfl, rfl⟩
      unfold strconv.FormatFloat
      rw [if_neg hfin']
      simp only [if_true]
      unfold strconv.shortestDigits
      rw [if_neg hnz]
      rcases hrs : strconv.roundShortest f.mant f.shift with ⟨c, p⟩
      simp only
      have hc : 0 < c := strconv.roundShortest_pos _ _ c p hnz hrs
      obtain ⟨d0, ds, hds, h49, h57⟩ := strconv.decimalDigits_head c hc
      obtain ⟨hm1, hm2⟩ := strconv.roundShortest_magnitude f hfin hnz c p hrs
      rw [hds] at hm1 hm2 ⊢
      simp only [List.length_cons] at hm1 hm2 ⊢
      rw [strconv.fmtE_cons]
      have he : (((ds.length + 1 : Nat) : Int) + (p : Int) - 1076 - 1).natAbs < 1000 := by omega
      have hsg : (if ((ds.length + 1 : Nat) : Int) + (p : Int) - 1076 - 1 < 0 then 45 else 43) = 43
          ∨ (if ((ds.length + 1 : Nat) : Int) + (p : Int) - 1076 - 1 < 0 then 45 else 43) = 45 := by
        split <;> simp
      rw [cleanExponent_fmtE _ _ _ hsg he]
      generalize hE : (((ds.length + 1 : Nat) : Int) + (p : Int) - 1076 - 1).natAbs = e at *
      by_cases h1 : e < 10
      · rw [if_pos h1]
        exact strconv.ParseFloat_exponent_text f hfin hnz c p hrs d0 ds hds (48 + e) []
          (by omega) (by rw [hE]; exact strconv.readExponent_one e h1)
      · rw [if_neg h1]
        have hr := strconv.readExponent_fmtE e he
        rw [if_neg h1] at hr
        by_cases h2 : e < 100
        · rw [if_pos h2] at hr ⊢
          exact strconv.ParseFloat_exponent_text f hfin hnz c p hrs d0 ds hds (48 + e / 10) _
            (by omega) (by rw [hE]; exact hr)
        · rw [if_neg h2] at hr ⊢
          exact strconv.ParseFloat_exponent_text f hfin hnz c p hrs d0 ds hds (48 + e / 100) _
            (by omega) (by rw [hE]; exact hr)

end json

/-! ## The JSON encoder prints JSON numbers -/

namespace json

theorem skipDigits_append (ds rest : Bytes) (h : ∀ b ∈ ds, 48 ≤ b ∧ b ≤ 57) :
    skipDigits (ds ++ rest) = skipDigits rest := by
  induction ds with
  | nil => rfl
  | cons d ds ih =>
    have hd := h d (List.mem_cons_self _ _)
    rw [List.cons_append, skipDigits, if_pos hd]
    exact ih (fun b hb => h b (List.mem_cons_of_mem _ hb))

theorem skipDigits_digits (ds : Bytes) (h : ∀ b ∈ ds, 48 ≤ b ∧ b ≤ 57) : skipDigits ds = [] := by
  have := skipDigits_append ds [] h
  rw [List.append_nil] at this
  rw [this]; rfl

/-- A text made of an optional minus sign, an integer part without a leading
zero, an optional fraction and an optional signed exponent is a JSON number. -/
theorem isValidNumber_parts (neg : Bool) (i0 : Nat) (irest frac ex : Bytes)
    (hint : (i0 = 48 ∧ irest = []) ∨ (49 ≤ i0 ∧ i0 ≤ 57 ∧ ∀ b ∈ irest, 48 ≤ b ∧ b ≤ 57))
    (hfrac : frac = [] ∨ ∃ d ds, frac = 46 :: d :: ds ∧ (48 ≤ d ∧ d ≤ 57)
      ∧ ∀ b ∈ ds, 48 ≤ b ∧ b ≤ 57)
    (hexp : ex = [] ∨ ∃ sg e0 et, ex = 101 :: sg :: e0 :: et ∧ (sg = 43 ∨ sg = 45)
      ∧ (48 ≤ e0 ∧ e0 ≤ 57) ∧ ∀ b ∈ et, 48 ≤ b ∧ b ≤ 57) :
    isValidNumber ((if neg then [45] else []) ++ i0 :: (irest ++ (frac ++ ex))) = true := by
  have hi45 : i0 ≠ 45 := by rcases hint with ⟨h, _⟩ | ⟨h, _, _⟩ <;> omega
  have hi : i0 = 48 ∨ (49 ≤ i0 ∧ i0 ≤ 57) := by
    rcases hint with ⟨h, _⟩ | ⟨h1, h2, _⟩
    · exact Or.inl h
    · exact Or.inr ⟨h1, h2⟩
  have hexv : exponentOK ex = true := by
    rcases hexp with rfl | ⟨sg, e0, et, rfl, hsg, he0, het⟩
    · rfl
    · have : skipDigits (e0 :: et) = [] :=
        skipDigits_digits _ (fun b hb => by
          rcases List.mem_cons.mp hb with rfl | hb
          · exact he0
          · exact het b hb)
      simp [exponentOK, hsg, this]
  have hstopx : skipDigits ex = ex := by
    rcases hexp with rfl | ⟨sg, e0, et, rfl, _, _, _⟩
    · rfl
    · simp [skipDigits]
  have hstop : skipDigits (frac ++ ex) = frac ++ ex := by
    rcases hfrac with rfl | ⟨d, ds, rfl, _, _⟩
    · simpa using hstopx
    · simp [skipDigits]
  have hs2 : (if i0 = 48 then irest ++ (frac ++ ex) else skipDigits (irest ++ (frac ++ ex)))
      = frac ++ ex := by
    rcases hint with ⟨h, rfl⟩ | ⟨h1, h2, h3⟩
    · simp [h]
    · rw [if_neg (by omega), skipDigits_append _ _ h3, hstop]
  have hs3 : skipFraction (frac ++ ex) = ex := by
    rcases hfrac with rfl | ⟨d, ds, rfl, hd, hds⟩
    · rcases hexp with rfl | ⟨sg, e0, et, rfl, _, _, _⟩
      · rfl
      · simp [skipFraction]
    · simp [skipFraction, hd, skipDigits_append _ _ hds, hstopx]
  cases neg
  · simp only [Bool.false_eq_true, if_false, List.nil_append]
    unfold isValidNumber
    simp only [hi45, if_false, hi, if_true, hs2, hs3, hexv]
  · simp only [if_true, List.singleton_append]
    unfold isValidNumber
    simp only [if_true, hi, hs2, hs3, hexv]

/-- The plain format of a non-zero number is a JSON number. -/
theorem isValidNumber_fmtF_digits (neg : Bool) (c p : Nat) (hc : 0 < c) :
    isValidNumber (strconv.fmtF neg
        { d := strconv.decimalDigits c
          dp := ((strconv.decimalDigits c).length : Int) + (p : Int) - 1076 }) = true := by
  obtain ⟨d0, ds', hds, h49, h57⟩ := strconv.decimalDigits_head c hc
  have hrange := strconv.decimalDigits_range c
  have hne : strconv.decimalDigits c ≠ [] := by rw [hds]; simp
  generalize hdsdef : strconv.decimalDigits c = ds at *
  subst hds
  have hds'r : ∀ b ∈ ds', 48 ≤ b ∧ b ≤ 57 := fun b hb => hrange b (List.mem_cons_of_mem _ hb)
  by_cases hp : 1076 ≤ p
  · obtain ⟨k, rfl⟩ : ∃ k, p = k + 1076 := ⟨p - 1076, by omega⟩
    have e : (((d0 :: ds').length : Nat) : Int) + ((k + 1076 : Nat) : Int) - 1076
        = ((((d0 :: ds').length + k : Nat)) : Int) := by
      push_cast; ring
    rw [e, strconv.fmtF_int neg _ k hne]
    have := isValidNumber_parts neg d0 (ds' ++ List.replicate k 48) [] []
      (Or.inr ⟨h49, h57, fun b hb => by
        rcases List.mem_append.mp hb with hb | hb
        · exact hds'r b hb
        · exact strconv.zeros_range k b hb⟩) (Or.inl rfl) (Or.inl rfl)
    simpa using this
  · by_cases hq : 1076 < (d0 :: ds').length + p
    · obtain ⟨j, hj⟩ : ∃ j, (d0 :: ds').length + p = j + 1 + 1076 :=
        ⟨(d0 :: ds').length + p - 1077, by omega⟩
      have e : (((d0 :: ds').length : Nat) : Int) + (p : Int) - 1076 = ((j + 1 : Nat) : Int) := by
        omega
      have hjlt : j < ds'.length := by simp only [List.length_cons] at hj; omega
      rw [e, strconv.fmtF_mixed neg _ (j + 1) (by omega) (by simp only [List.length_cons]; omega)]
      obtain ⟨d, rest, hdrop⟩ : ∃ d rest, ds'.drop j = d :: rest := by
        match h : ds'.drop j with
        | [] =>
          have := congrArg List.length h
          rw [List.length_drop] at this
          simp at this
          omega
        | d :: rest => exact ⟨d, rest, rfl⟩
      have hdr : ∀ b ∈ d :: rest, 48 ≤ b ∧ b ≤ 57 := fun b hb =>
        hds'r b (List.mem_of_mem_drop (hdrop ▸ hb))
      have := isValidNumber_parts neg d0 (ds'.take j) (46 :: d :: rest) []
        (Or.inr ⟨h49, h57, fun b hb => hds'r b (List.mem_of_mem_take hb)⟩)
        (Or.inr ⟨d, rest, rfl, hdr d (List.mem_cons_self _ _),
          fun b hb => hdr b (List.mem_cons_of_mem _ hb)⟩) (Or.inl rfl)
      simpa [hdrop] using this
    · obtain ⟨k, hk⟩ : ∃ k, (d0 :: ds').length + p + k = 1076 :=
        ⟨1076 - ((d0 :: ds').length + p), by omega⟩
      have e : (((d0 :: ds').length : Nat) : Int) + (p : Int) - 1076 = -(k : Int) := by omega
      rw [e, strconv.fmtF_small neg _ k hne]
      obtain ⟨x, xs, hx⟩ : ∃ x xs, List.replicate k 48 ++ d0 :: ds' = x :: xs := by
        cases k with
        | zero => exact ⟨d0, ds', by simp⟩
        | succ k => exact ⟨48, List.replicate k 48 ++ d0 :: ds', by simp [List.replicate_succ]⟩
      have hxr : ∀ b ∈ x :: xs, 48 ≤ b ∧ b ≤ 57 := by
        intro b hb
        rw [← hx] at hb
        rcases List.mem_append.mp hb with hb | hb
        · exact strconv.zeros_range k b hb
        · exact hrange b hb
      have := isValidNumber_parts neg 48 [] (46 :: x :: xs) [] (Or.inl ⟨rfl, rfl⟩)
        (Or.inr ⟨x, xs, rfl, hxr x (List.mem_cons_self _ _),
          fun b hb => hxr b (List.mem_cons_of_mem _ hb)⟩) (Or.inl rfl)
      rw [hx]
      simpa using this

/-- The exponent format of a non-zero number, after the exponent clean-up, is
a JSON number. -/
theorem isValidNumber_fmtE_digits (neg : Bool) (c p : Nat) (hc : 0 < c)
    (he : (((strconv.decimalDigits c).length : Int) + (p : Int) - 1076 - 1).natAbs < 1000) :
    isValidNumber (cleanExponent (strconv.fmtE neg
        { d := strconv.decimalDigits c
          dp := ((strconv.decimalDigits c).length : Int) + (p : Int) - 1076 })) = true := by
  obtain ⟨d0, ds, hds, h49, h57⟩ := strconv.decimalDigits_head c hc
  have hrange := strconv.decimalDigits_range c
  rw [hds] at he hrange ⊢
  have hdsr : ∀ b ∈ ds, 48 ≤ b ∧ b ≤ 57 := fun b hb => hrange b (List.mem_cons_of_mem _ hb)
  rw [strconv.fmtE_cons]
  generalize hX : (((d0 :: ds).length : Nat) : Int) + (p : Int) - 1076 - 1 = X at *
  have hsg : (if X < 0 then 45 else 43) = 43 ∨ (if X < 0 then 45 else 43) = 45 := by
    split <;> simp
  rw [cleanExponent_fmtE _ _ _ hsg he]
  generalize (if X < 0 then 45 else 43) = sg at *
  generalize X.natAbs = e at *
  have hfrac : (if ds ≠ [] then 46 :: ds else []) = []
      ∨ ∃ d t, (if ds ≠ [] then 46 :: ds else []) = 46 :: d :: t ∧ (48 ≤ d ∧ d ≤ 57)
        ∧ ∀ b ∈ t, 48 ≤ b ∧ b ≤ 57 := by
    cases ds with
    | nil => left; simp
    | cons d t =>
      right
      exact ⟨d, t, by simp, hdsr d (List.mem_cons_self _ _),
        fun b hb => hdsr b (List.mem_cons_of_mem _ hb)⟩
  have hexp : ∃ e0 et, (if e < 10 then [48 + e]
        else if e < 100 then [48 + e / 10, 48 + e % 10]
        else [48 + e / 100, 48 + e / 10 % 10, 48 + e % 10]) = e0 :: et
      ∧ (48 ≤ e0 ∧ e0 ≤ 57) ∧ ∀ b ∈ et, 48 ≤ b ∧ b ≤ 57 := by
    by_cases h1 : e < 10
    · exact ⟨48 + e, [], by simp [h1], by omega, by simp⟩
    · by_cases h2 : e < 100
      · refine ⟨48 + e / 10, [48 + e % 10], by simp [h1, h2], by omega, ?_⟩
        intro b hb
        simp at hb
        omega
      · refine ⟨48 + e / 100, [48 + e / 10 % 10, 48 + e % 10], by simp [h1, h2], by omega, ?_⟩
        intro b hb
        simp at hb
        omega
  obtain ⟨e0, et, hed, he0, het⟩ := hexp
  rw [hed]
  have := isValidNumber_parts neg d0 [] (if ds ≠ [] then 46 :: ds else []) (101 :: sg :: e0 :: et)
    (Or.inr ⟨h49, h57, by simp⟩) hfrac (Or.inr ⟨sg, e0, et, rfl, hsg, he0, het⟩)
  simpa [List.append_assoc] using this

/-- The bytes `json.Marshal` prints for a finite float are a number of the
JSON grammar. -/
theorem isValidNumber_MarshalFloat64 (f : float64) (hfin : f.finite) :
    isValidNumber (MarshalFloat64 f).1 = true := by
  have hfin' := hfin
  unfold float64.finite at hfin'
  have hinf : f.IsInf = false := by simp [float64.IsInf, hfin']
  have hnan : f.IsNaN = false := by simp [float64.IsNaN, hfin']
  unfold MarshalFloat64
  simp only [hinf, hnan, Bool.false_eq_true, or_self, if_false]
  by_cases hnz : f.mant = 0
  · have hf := strconv.mant_eq_zero f hnz
    rw [hf]
    cases f.sign
    · decide
    · decide
  · have hz : ¬ (f.expo.val = 0 ∧ f.frac.val = 0) := by
      intro h
      apply hnz
      unfold float64.mant
      rw [if_pos h.1]; exact h.2
    simp only [hz, not_false_eq_true, decide_True, Bool.true_and]
    rcases hrs : strconv.roundShortest f.mant f.shift with ⟨c, p⟩
    have hc : 0 < c := strconv.roundShortest_pos _ _ c p hnz hrs
    obtain ⟨hm1, hm2⟩ := strconv.roundShortest_magnitude f hfin hnz c p hrs
    generalize (absLt f f1em6 || !absLt f f1e21) = big
    cases big
    · simp only [Bool.false_eq_true, if_false]
      unfold strconv.FormatFloat strconv.shortestDigits
      rw [if_neg hfin', if_neg hnz, hrs]
      simp only [Bool.false_eq_true, if_false]
      exact isValidNumber_fmtF_digits f.sign c p hc
    · simp only [if_true]
      unfold strconv.FormatFloat strconv.shortestDigits
      rw [if_neg hfin', if_neg hnz, hrs]
      simp only [if_true]
      exact isValidNumber_fmtE_digits f.sign c p hc (by omega)

end json

/-! ## The digits of `roundShortest` are the fewest -/

namespace strconv

/-- The loop stops at the highest decimal position, among those it walks, at
which a decimal lies between `lo` and `hi`. -/
theorem shortestLoop_shortest (W lo hi : Nat) (incl : Bool) :
    ∀ (n c p : Nat), shortestLoop W lo hi incl n = (c, p) →
      p ≤ n ∧ ∀ (q m : Nat), p < q → q ≤ n →
        ¬ ((lo < m * 10 ^ q ∨ (incl = true ∧ lo = m * 10 ^ q))
          ∧ (m * 10 ^ q < hi ∨ (incl = true ∧ m * 10 ^ q = hi))) := by
  intro n
  induction n with
  | zero =>
    intro c p h
    obtain ⟨rfl, rfl⟩ := Prod.mk.inj h
    exact ⟨le_rfl, fun q m h1 h2 => by omega⟩
  | succ k ih =>
    intro c p h
    unfold shortestLoop at h
    simp only [decide_eq_true_eq, Bool.decide_and, Bool.decide_or, Bool.decide_eq_true,
      Bool.and_eq_true, Bool.or_eq_true] at h
    generalize W / 10 ^ (k + 1) = w at *
    by_cases hd : lo < w * 10 ^ (k + 1) ∨ (incl = true ∧ lo = w * 10 ^ (k + 1))
    · have hp : p = k + 1 := by
        by_cases hu : (w + 1) * 10 ^ (k + 1) < hi ∨ (incl = true ∧ (w + 1) * 10 ^ (k + 1) = hi)
        · rw [if_pos ⟨hd, hu⟩] at h
          split at h
          · exact (Prod.mk.inj h).2.symm
          · exact (Prod.mk.inj h).2.symm
        · rw [if_neg (fun h => hu h.2), if_pos hd] at h
          exact (Prod.mk.inj h).2.symm
      exact ⟨by omega, fun q m h1 h2 => by omega⟩
    · by_cases hu : (w + 1) * 10 ^ (k + 1) < hi ∨ (incl = true ∧ (w + 1) * 10 ^ (k + 1) = hi)
      · rw [if_neg (fun h => hd h.1), if_neg hd, if_pos hu] at h
        have hp : p = k + 1 := (Prod.mk.inj h).2.symm
        exact ⟨by omega, fun q m h1 h2 => by omega⟩
      · rw [if_neg (fun h => hd h.1), if_neg hd, if_neg hu] at h
        obtain ⟨hle, hrest⟩ := ih c p h
        refine ⟨by omega, ?_⟩
        intro q m h1 h2
        by_cases hq : q ≤ k
        · exact hrest q m h1 hq
        · have hqk : q = k + 1 := by omega
          subst hqk
          rintro ⟨ha, hb⟩
          by_cases hm : m ≤ w
          · have hmul : m * 10 ^ (k + 1) ≤ w * 10 ^ (k + 1) := Nat.mul_le_mul_right _ hm
            apply hd
            rcases ha with ha | ⟨hi1, ha⟩
            · exact Or.inl (by omega)
            · rcases Nat.lt_or_ge lo (w * 10 ^ (k + 1)) with hlt | hge
              · exact Or.inl hlt
              · exact Or.inr ⟨hi1, by omega⟩
          · have hmul : (w + 1) * 10 ^ (k + 1) ≤ m * 10 ^ (k + 1) :=
              Nat.mul_le_mul_right _ (by omega)
            apply hu
            rcases hb with hb | ⟨hi1, hb⟩
            · exact Or.inl (by omega)
            · rcases Nat.lt_or_ge ((w + 1) * 10 ^ (k + 1)) hi with hlt | hge
              · exact Or.inl hlt
              · exact Or.inr ⟨hi1, by omega⟩

/-- The digits of `roundShortest` are the fewest that identify the float: no
decimal that ends at a higher position than the one chosen lies between the
midpoints around the float. -/
theorem roundShortest_shortest (mant sh c p : Nat) (hm : mant ≠ 0)
    (h : roundShortest mant sh = (c, p)) (q m : Nat) (hq : p < q) :
    ¬ (((if 2 ^ 52 < mant ∨ sh = 0 then (4 * mant - 2) * 2 ^ sh * 5 ^ 1076
          else (4 * mant - 1) * 2 ^ sh * 5 ^ 1076) < m * 10 ^ q
        ∨ (mant % 2 = 0 ∧ (if 2 ^ 52 < mant ∨ sh = 0 then (4 * mant - 2) * 2 ^ sh * 5 ^ 1076
          else (4 * mant - 1) * 2 ^ sh * 5 ^ 1076) = m * 10 ^ q))
      ∧ (m * 10 ^ q < (4 * mant + 2) * 2 ^ sh * 5 ^ 1076
        ∨ (mant % 2 = 0 ∧ m * 10 ^ q = (4 * mant + 2) * 2 ^ sh * 5 ^ 1076))) := by
  unfold roundShortest at h
  simp only at h
  have hK := pow5_pos
  generalize (5 : Nat) ^ 1076 = K at *
  have hS : 0 < 2 ^ sh * K := Nat.mul_pos (Nat.pos_pow_of_pos sh (by norm_num)) hK
  have hhi : 0 < (4 * mant + 2) * 2 ^ sh * K := by
    rw [Nat.mul_assoc]
    exact Nat.mul_pos (by omega) hS
  have hlo : 0 < (if 2 ^ 52 < mant ∨ sh = 0 then (4 * mant - 2) * 2 ^ sh * K
        else (4 * mant - 1) * 2 ^ sh * K) := by
    split
    · rw [Nat.mul_assoc]
      exact Nat.mul_pos (by omega) hS
    · rw [Nat.mul_assoc]
      exact Nat.mul_pos (by omega) hS
  generalize (if 2 ^ 52 < mant ∨ sh = 0 then (4 * mant - 2) * 2 ^ sh * K
        else (4 * mant - 1) * 2 ^ sh * K) = lo at *
  generalize (4 * mant + 2) * 2 ^ sh * K = hi at *
  obtain ⟨hle, hrest⟩ := shortestLoop_shortest _ lo hi _ _ c p h
  by_cases hqn : q ≤ (decimalDigits hi).length
  · have := hrest q m hq hqn
    simpa using this
  · rintro ⟨ha, hb⟩
    have hlen := (decimalDigits_length hi hhi).1
    have hpow : 10 ^ (decimalDigits hi).length ≤ 10 ^ q :=
      Nat.pow_le_pow_right (by norm_num) (by omega)
    rcases Nat.eq_zero_or_pos m with hm0 | hmpos
    · subst hm0
      simp only [Nat.zero_mul] at ha
      omega
    · have : 10 ^ q ≤ m * 10 ^ q := Nat.le_mul_of_pos_left _ hmpos
      omega

end strconv

/-! ## The plain format has no exponent -/

namespace strconv

/-- The plain format of a finite float is made of a sign, digits and a point:
no exponent letter occurs in it. -/
theorem FormatFloat_plain_bytes (f : float64) (hfin : f.finite) :
    ∀ b ∈ FormatFloat f false, b = 45 ∨ b = 46 ∨ (48 ≤ b ∧ b ≤ 57) := by
  have hd : ∀ b ∈ (shortestDigits f).d, 48 ≤ b ∧ b ≤ 57 := by
    unfold shortestDigits
    split
    · simp
    · rcases roundShortest f.mant f.shift with ⟨c, p⟩
      exact decimalDigits_range c
  have he : f.expo.val ≠ 2047 := hfin
  intro b hb
  unfold FormatFloat at hb
  rw [if_neg he] at hb
  simp only [Bool.false_eq_true, if_false] at hb
  unfold fmtF at hb
  simp only [List.mem_append] at hb
  rcases hb with (hb | hb) | hb
  · split at hb
    · simp at hb; exact Or.inl hb
    · simp at hb
  · split at hb
    · rw [List.mem_append] at hb
      rcases hb with hb | hb
      · exact Or.inr (Or.inr (hd b (List.mem_of_mem_take hb)))
      · exact Or.inr (Or.inr (zeros_range _ b hb))
    · simp at hb; omega
  · split at hb
    · rw [List.mem_cons, List.mem_append] at hb
      rcases hb with hb | hb | hb
      · exact Or.inr (Or.inl hb)
      · exact Or.inr (Or.inr (zeros_range _ b hb))
      · exact Or.inr (Or.inr (hd b (List.mem_of_mem_drop hb)))
    · simp at hb

end strconv

/-! ## Rounding, conversely: a value that rounds to a float lies between its midpoints -/

namespace strconv

/-- What `roundHalfEven` returns is within a half of `N / P`, and is even when
it is exactly a half away. -/
theorem roundHalfEven_bounds (N P : Nat) (hP : 0 < P) :
    2 * (roundHalfEven N P * P) ≤ 2 * N + P
    ∧ 2 * N ≤ 2 * (roundHalfEven N P * P) + P
    ∧ (2 * (roundHalfEven N P * P) = 2 * N + P → roundHalfEven N P % 2 = 0)
    ∧ (2 * N = 2 * (roundHalfEven N P * P) + P → roundHalfEven N P % 2 = 0) := by
  have hdm := Nat.div_add_mod N P
  have hr := Nat.mod_lt N hP
  rw [Nat.mul_comm] at hdm
  unfold roundHalfEven
  simp only
  generalize N / P = q at *
  generalize N % P = r at *
  split
  · rename_i hc
    have e : (q + 1) * P = q * P + P := by ring
    rw [e]
    generalize q * P = A at *
    refine ⟨by omega, by omega, fun h => ?_, fun h => by omega⟩
    rcases hc with hc | ⟨_, hc⟩
    · omega
    · omega
  · rename_i hc
    generalize q * P = A at *
    refine ⟨by omega, by omega, fun h => by omega, fun h => ?_⟩
    by_contra hodd
    apply hc
    right
    omega

/-- The value `floorLog2` returns is the binary logarithm of `X / D`. -/
theorem floorLog2_spec (X D : Nat) (hD : 0 < D) (hX : D ≤ X) :
    D * 2 ^ floorLog2 X D ≤ X ∧ X < D * 2 ^ (floorLog2 X D + 1) := by
  have hq : X / D ≠ 0 := by
    have : 0 < X / D := Nat.div_pos hX hD
    omega
  have h1 := Nat.pow_log_le_self 2 hq
  have h2 := Nat.lt_pow_succ_log_self (by norm_num : 1 < 2) (X / D)
  have hdm := Nat.div_add_mod X D
  have hr := Nat.mod_lt X hD
  have a1 : D * 2 ^ Nat.log 2 (X / D) ≤ X := by
    have : D * 2 ^ Nat.log 2 (X / D) ≤ D * (X / D) := Nat.mul_le_mul_left _ h1
    omega
  have a2 : X < D * 2 ^ (Nat.log 2 (X / D) + 1) := by
    have : D * (X / D + 1) ≤ D * 2 ^ (Nat.log 2 (X / D) + 1) := Nat.mul_le_mul_left _ h2
    have e : D * (X / D + 1) = D * (X / D) + D := by ring
    omega
  rw [floorLog2_eq X D _ hD a1 a2]
  exact ⟨a1, a2⟩

/-- The value lies below `2 ^ 53` at the exponent `nearest` rounds it at, and
at or above `2 ^ 52` when that exponent is not the lowest. -/
theorem round_range (X D : Nat) (hD : 0 < D) :
    X < 2 ^ 53 * (D * 2 ^ (floorLog2 X D - 52))
    ∧ (0 < floorLog2 X D - 52 → 2 ^ 52 * (D * 2 ^ (floorLog2 X D - 52)) ≤ X) := by
  by_cases hX : D ≤ X
  · obtain ⟨a1, a2⟩ := floorLog2_spec X D hD hX
    generalize floorLog2 X D = L at *
    by_cases hL : L ≤ 52
    · have hs : L - 52 = 0 := by omega
      rw [hs]
      refine ⟨?_, fun h => by omega⟩
      have : D * 2 ^ (L + 1) ≤ D * 2 ^ 53 :=
        Nat.mul_le_mul_left _ (Nat.pow_le_pow_right (by norm_num) (by omega))
      have e : 2 ^ 53 * (D * 2 ^ 0) = D * 2 ^ 53 := by ring
      rw [e]
      omega
    · obtain ⟨s, hs⟩ : ∃ s, L = 52 + s := ⟨L - 52, by omega⟩
      subst hs
      have hs' : 52 + s - 52 = s := by omega
      rw [hs']
      have e1 : D * 2 ^ (52 + s) = 2 ^ 52 * (D * 2 ^ s) := by ring
      have e2 : D * 2 ^ (52 + s + 1) = 2 ^ 53 * (D * 2 ^ s) := by ring
      rw [e1] at a1
      rw [e2] at a2
      exact ⟨a2, fun _ => a1⟩
  · have hL : floorLog2 X D ≤ 0 := floorLog2_le X D 0 hD (by simp; omega)
    have hs : floorLog2 X D - 52 = 0 := by omega
    rw [hs]
    refine ⟨?_, fun h => by omega⟩
    have e : 2 ^ 53 * (D * 2 ^ 0) = D * 2 ^ 53 := by ring
    rw [e]
    have : D * 1 ≤ D * 2 ^ 53 := Nat.mul_le_mul_left _ (by norm_num)
    omega

/-- The fields of a float built from an exponent and a fraction in range. -/
theorem float64_mk_fields (neg : Bool) (e m : Nat) (he : e < 2048) (hm : m < 2 ^ 52) :
    ({ sign := neg, expo := Fin.ofNat e, frac := Fin.ofNat m } : float64).expo.val = e
    ∧ ({ sign := neg, expo := Fin.ofNat e, frac := Fin.ofNat m } : float64).frac.val = m := by
  constructor
  · simp [Fin.ofNat, Nat.mod_eq_of_lt he]
  · have : m < 4503599627370496 := by norm_num at hm; exact hm
    simp [Fin.ofNat, Nat.mod_eq_of_lt this]

/-- A value that rounds to the mantissa `M` at the spacing `D * 2 ^ S` lies
between the midpoints `M - 1/2` and `M + 1/2`, a midpoint only for an even
`M`. -/
theorem round_bounds_regular (X D M S : Nat) (hM : M ≠ 0)
    (b1 : 2 * (M * (D * 2 ^ S)) ≤ 2 * X + D * 2 ^ S)
    (b2 : 2 * X ≤ 2 * (M * (D * 2 ^ S)) + D * 2 ^ S)
    (t1 : 2 * (M * (D * 2 ^ S)) = 2 * X + D * 2 ^ S → M % 2 = 0)
    (t2 : 2 * X = 2 * (M * (D * 2 ^ S)) + D * 2 ^ S → M % 2 = 0) :
    ((4 * M - 2) * 2 ^ S * D < 4 * X ∨ ((4 * M - 2) * 2 ^ S * D = 4 * X ∧ M % 2 = 0))
    ∧ (4 * X < (4 * M + 2) * 2 ^ S * D ∨ (4 * X = (4 * M + 2) * 2 ^ S * D ∧ M % 2 = 0)) := by
  obtain ⟨k, hk⟩ : ∃ k, M = k + 1 := ⟨M - 1, by omega⟩
  have e1 : (4 * M - 2) * 2 ^ S * D = 4 * (k * (D * 2 ^ S)) + 2 * (D * 2 ^ S) := by
    rw [hk, show 4 * (k + 1) - 2 = 4 * k + 2 by omega]; ring
  have e2 : (4 * M + 2) * 2 ^ S * D = 4 * (k * (D * 2 ^ S)) + 6 * (D * 2 ^ S) := by
    rw [hk]; ring
  have e3 : M * (D * 2 ^ S) = k * (D * 2 ^ S) + D * 2 ^ S := by rw [hk]; ring
  rw [e1, e2]
  rw [e3] at b1 b2 t1 t2
  generalize D * 2 ^ S = P at *
  generalize k * P = A at *
  constructor
  · by_cases h : 4 * A + 2 * P < 4 * X
    · exact Or.inl h
    · exact Or.inr ⟨by omega, t1 (by omega)⟩
  · by_cases h : 4 * X < 4 * A + 6 * P
    · exact Or.inl h
    · exact Or.inr ⟨by omega, t2 (by omega)⟩

/-- The converse of `nearest_eq`: a value `N / D` that `nearest` rounds to the
non-zero float `f` lies between the midpoints to the neighbours of `f`, a
midpoint itself only when the mantissa of `f` is even. -/
theorem nearest_bounds (f : float64) (neg : Bool) (hnz : f.mant ≠ 0) (N D : Nat) (hD : 0 < D)
    (h : nearest neg N D = (f, false)) :
    (if 2 ^ 52 < f.mant ∨ f.shift = 0 then
        (4 * f.mant - 2) * 2 ^ f.shift * D < 4 * (N * 2 ^ 1074)
          ∨ ((4 * f.mant - 2) * 2 ^ f.shift * D = 4 * (N * 2 ^ 1074) ∧ f.mant % 2 = 0)
      else
        (4 * f.mant - 1) * 2 ^ f.shift * D < 4 * (N * 2 ^ 1074)
          ∨ ((4 * f.mant - 1) * 2 ^ f.shift * D = 4 * (N * 2 ^ 1074) ∧ f.mant % 2 = 0))
    ∧ (4 * (N * 2 ^ 1074) < (4 * f.mant + 2) * 2 ^ f.shift * D
          ∨ (4 * (N * 2 ^ 1074) = (4 * f.mant + 2) * 2 ^ f.shift * D ∧ f.mant % 2 = 0)) := by
  rw [nearest_of_round neg N D (N * 2 ^ 1074) _ _ rfl rfl rfl] at h
  generalize N * 2 ^ 1074 = X at *
  obtain ⟨r1, r2⟩ := round_range X D hD
  generalize floorLog2 X D - 52 = s at *
  have hP : 0 < D * 2 ^ s := Nat.mul_pos hD (Nat.pow_pos (by norm_num))
  obtain ⟨b1, b2, t1, t2⟩ := roundHalfEven_bounds X (D * 2 ^ s) hP
  generalize roundHalfEven X (D * 2 ^ s) = m at *
  -- the mantissa found is at most `2 ^ 53`, and at least `2 ^ 52` above the lowest exponent
  have hm53 : m ≤ 2 ^ 53 := by
    by_contra hc
    have : (2 ^ 53 + 1) * (D * 2 ^ s) ≤ m * (D * 2 ^ s) := Nat.mul_le_mul_right _ (by omega)
    have e : (2 ^ 53 + 1) * (D * 2 ^ s) = 2 ^ 53 * (D * 2 ^ s) + D * 2 ^ s := by ring
    rw [e] at this
    generalize m * (D * 2 ^ s) = A at *
    generalize 2 ^ 53 * (D * 2 ^ s) = B at *
    omega
  have hm52 : 0 < s → 2 ^ 52 ≤ m := by
    intro hs
    have r := r2 hs
    by_contra hc
    have : (m + 1) * (D * 2 ^ s) ≤ 2 ^ 52 * (D * 2 ^ s) := Nat.mul_le_mul_right _ (by omega)
    have e : (m + 1) * (D * 2 ^ s) = m * (D * 2 ^ s) + D * 2 ^ s := by ring
    rw [e] at this
    generalize m * (D * 2 ^ s) = A at *
    generalize 2 ^ 52 * (D * 2 ^ s) = B at *
    omega
  by_cases c1 : m < 2 ^ 52
  · -- a subnormal, or zero
    rw [if_pos c1] at h
    have hf : f = { sign := neg, expo := Fin.ofNat 0, frac := Fin.ofNat m } :=
      (Prod.mk.inj h).1.symm
    obtain ⟨he, hfr⟩ := float64_mk_fields neg 0 m (by norm_num) c1
    rw [← hf] at he hfr
    have hmant : f.mant = m := by unfold float64.mant; rw [if_pos he, hfr]
    have hshift : f.shift = 0 := by unfold float64.shift; omega
    have hs0 : s = 0 := by
      by_contra hc
      have := hm52 (by omega)
      omega
    subst hs0
    rw [hmant, hshift, if_pos (Or.inr rfl)]
    rw [hmant] at hnz
    exact round_bounds_regular X D m 0 hnz b1 b2 t1 t2
  · rw [if_neg c1] at h
    by_cases c2 : 2047 ≤ (if m = 2 ^ 53 then s + 1 else s) + 1
    · rw [if_pos c2] at h
      exact absurd (Prod.mk.inj h).2 (by simp)
    · rw [if_neg c2] at h
      have hf := (Prod.mk.inj h).1.symm
      by_cases c3 : m = 2 ^ 53
      · -- rounded up into the next binade
        rw [if_pos c3] at c2
        rw [if_pos c3, if_pos c3] at hf
        obtain ⟨he, hfr⟩ := float64_mk_fields neg (s + 1 + 1) (2 ^ 52 - 2 ^ 52) (by omega)
          (by norm_num)
        rw [← hf] at he hfr
        have hmant : f.mant = 2 ^ 52 := by
          unfold float64.mant
          rw [if_neg (by omega), hfr]
          norm_num
        have hshift : f.shift = s + 1 := by unfold float64.shift; omega
        rw [hmant, hshift, if_neg (by omega)]
        subst c3
        have e1 : (4 * 2 ^ 52 - 1) * 2 ^ (s + 1) * D = 2 * ((2 ^ 54 - 1) * (D * 2 ^ s)) := by
          rw [show (4 * 2 ^ 52 - 1 : Nat) = 2 ^ 54 - 1 by norm_num, pow_succ]; ring
        have e2 : (4 * 2 ^ 52 + 2) * 2 ^ (s + 1) * D
            = 4 * (2 ^ 53 * (D * 2 ^ s)) + 4 * (D * 2 ^ s) := by
          rw [pow_succ]; ring
        have e3 : (2 ^ 54 - 1) * (D * 2 ^ s) + D * 2 ^ s = 2 * (2 ^ 53 * (D * 2 ^ s)) := by
          have : (2 ^ 54 - 1 : Nat) + 1 = 2 * 2 ^ 53 := by norm_num
          calc (2 ^ 54 - 1) * (D * 2 ^ s) + D * 2 ^ s
              = (2 ^ 54 - 1 + 1) * (D * 2 ^ s) := by ring
            _ = 2 * (2 ^ 53 * (D * 2 ^ s)) := by rw [this]; ring
        rw [e1, e2]
        generalize D * 2 ^ s = P at *
        generalize (2 ^ 54 - 1) * P = C at *
        generalize 2 ^ 53 * P = B at *
        refine ⟨?_, Or.inl (by omega)⟩
        by_cases hlt : 2 * C < 4 * X
        · exact Or.inl hlt
        · exact Or.inr ⟨by omega, by norm_num⟩
      · rw [if_neg c3] at c2
        rw [if_neg c3, if_neg c3] at hf
        obtain ⟨he, hfr⟩ := float64_mk_fields neg (s + 1) (m - 2 ^ 52) (by omega) (by omega)
        rw [← hf] at he hfr
        have hmant : f.mant = m := by
          unfold float64.mant
          rw [if_neg (by omega), hfr]
          omega
        have hshift : f.shift = s := by unfold float64.shift; omega
        rw [hmant, hshift]
        rw [hmant] at hnz
        obtain ⟨g1, g2⟩ := round_bounds_regular X D m s hnz b1 b2 t1 t2
        refine ⟨?_, g2⟩
        split
        · exact g1
        · rename_i hreg
          -- the float opens a binade: the value is not below it
          have hm : m = 2 ^ 52 := by omega
          have hs : 0 < s := by omega
          have r := r2 hs
          subst hm
          left
          have e1 : (4 * 2 ^ 52 - 1) * 2 ^ s * D + D * 2 ^ s = 4 * (2 ^ 52 * (D * 2 ^ s)) := by
            have : (4 * 2 ^ 52 - 1 : Nat) + 1 = 4 * 2 ^ 52 := by norm_num
            calc (4 * 2 ^ 52 - 1) * 2 ^ s * D + D * 2 ^ s
                = (4 * 2 ^ 52 - 1 + 1) * (D * 2 ^ s) := by ring
              _ = 4 * (2 ^ 52 * (D * 2 ^ s)) := by rw [this]; ring
          generalize (4 * 2 ^ 52 - 1) * 2 ^ s * D = C at *
          generalize D * 2 ^ s = P at *
          generalize 2 ^ 52 * P = B at *
          omega

end strconv

/-! ## Every decimal that reads back has at least the digits printed -/

namespace strconv

/-- Counting digits: when `c * 10 ^ p` is a decimal between `lo` and `hi` and
no decimal ending at a higher position than `p` lies between them, every
decimal `M * 10 ^ q`, or `M / 10 ^ j`, between them has at least as many
digits in `M` as `c` has. -/
theorem fewest_digits_core (lo hi c p M : Nat) (incl : Prop) (hlo0 : 0 < lo)
    (hin : (lo < c * 10 ^ p ∨ (incl ∧ lo = c * 10 ^ p))
      ∧ (c * 10 ^ p < hi ∨ (incl ∧ c * 10 ^ p = hi)))
    (hmin : ∀ (q m : Nat), p < q →
      ¬ ((lo < m * 10 ^ q ∨ (incl ∧ lo = m * 10 ^ q))
        ∧ (m * 10 ^ q < hi ∨ (incl ∧ m * 10 ^ q = hi))))
    (hc : 0 < c)
    (hM : (∃ q, (lo < M * 10 ^ q ∨ (incl ∧ lo = M * 10 ^ q))
        ∧ (M * 10 ^ q < hi ∨ (incl ∧ M * 10 ^ q = hi)))
      ∨ (∃ j, lo * 10 ^ j ≤ M)) :
    (decimalDigits c).length ≤ (decimalDigits M).length := by
  by_contra hlt
  have hMpos : 0 < M := by
    rcases hM with ⟨q, h1, _⟩ | ⟨j, h⟩
    · by_contra h0
      have : M = 0 := by omega
      subst this
      simp only [Nat.zero_mul] at h1
      omega
    · have : 0 < lo * 10 ^ j := Nat.mul_pos hlo0 (Nat.pow_pos (by norm_num))
      omega
  obtain ⟨hMl, hMl2⟩ := decimalDigits_length M hMpos
  obtain ⟨hcn, hcn2⟩ := decimalDigits_length c hc
  generalize (decimalDigits c).length = n at *
  generalize (decimalDigits M).length = l at *
  have hl1 : 1 ≤ l := by
    by_contra h0
    have : l = 0 := by omega
    subst this
    simp at hMl
    omega
  obtain ⟨k, hk⟩ : ∃ k, n = k + 2 := ⟨n - 2, by omega⟩
  subst hk
  have hT : 10 ^ l ≤ 10 ^ (k + 1) := Nat.pow_le_pow_right (by norm_num) (by omega)
  have hTc : 10 ^ (k + 1) ≤ c := by
    have : 10 ^ (k + 2) = 10 * 10 ^ (k + 1) := by ring
    omega
  have hMT : M < 10 ^ (k + 1) := by omega
  have hW : 10 ^ (k + 1) * 10 ^ p = 10 ^ k * 10 ^ (p + 1) := by ring
  have hpp : 0 < 10 ^ p := Nat.pow_pos (by norm_num)
  -- the power of ten between the two decimals lies between `lo` and `hi`
  have hWhi : 10 ^ (k + 1) * 10 ^ p < hi ∨ (incl ∧ 10 ^ (k + 1) * 10 ^ p = hi) := by
    have hle : 10 ^ (k + 1) * 10 ^ p ≤ c * 10 ^ p := Nat.mul_le_mul_right _ hTc
    rcases hin.2 with h | ⟨hi1, h⟩
    · exact Or.inl (by omega)
    · rcases Nat.lt_or_ge (10 ^ (k + 1) * 10 ^ p) (c * 10 ^ p) with h2 | h2
      · exact Or.inl (by omega)
      · exact Or.inr ⟨hi1, by omega⟩
  have hWlo : lo < 10 ^ (k + 1) * 10 ^ p := by
    rcases hM with ⟨q, h1, h2⟩ | ⟨j, h⟩
    · by_cases hq : p < q
      · exact absurd ⟨h1, h2⟩ (hmin q M hq)
      · have hqp : 10 ^ q ≤ 10 ^ p := Nat.pow_le_pow_right (by norm_num) (by omega)
        have a1 : M * 10 ^ q < 10 ^ (k + 1) * 10 ^ q :=
          Nat.mul_lt_mul_of_pos_right hMT (Nat.pow_pos (by norm_num))
        have a2 : 10 ^ (k + 1) * 10 ^ q ≤ 10 ^ (k + 1) * 10 ^ p := Nat.mul_le_mul_left _ hqp
        rcases h1 with h1 | ⟨_, h1⟩ <;> omega
    · have a1 : lo * 1 ≤ lo * 10 ^ j := Nat.mul_le_mul_left _ (Nat.pow_pos (by norm_num))
      have a2 : 10 ^ (k + 1) * 1 ≤ 10 ^ (k + 1) * 10 ^ p := Nat.mul_le_mul_left _ hpp
      omega
  rw [hW] at hWhi hWlo
  exact hmin (p + 1) (10 ^ k) (by omega) ⟨Or.inl hWlo, hWhi⟩

/-- Midpoint comparisons carried from units of `2 ^ -1074` over `D` to units of
`10 ^ -1076`. -/
theorem between_units (a b X C D K : Nat) (incl : Prop) (hK : 0 < K) (hD : 0 < D)
    (hv : 4 * X * K = C * D)
    (hb1 : a * D < 4 * X ∨ (a * D = 4 * X ∧ incl))
    (hb2 : 4 * X < b * D ∨ (4 * X = b * D ∧ incl)) :
    (a * K < C ∨ (incl ∧ a * K = C)) ∧ (C < b * K ∨ (incl ∧ C = b * K)) := by
  have s1 := scale_lt a X C D K hK hD hv
  have s2 := scale_lt b X C D K hK hD hv
  constructor
  · rcases hb1 with h | ⟨h, hi⟩
    · exact Or.inl (s1.1.mpr h)
    · exact Or.inr ⟨hi, s1.2.1.mpr h⟩
  · rcases hb2 with h | ⟨h, hi⟩
    · exact Or.inl (s2.2.2.mpr h)
    · exact Or.inr ⟨hi, (s2.2.1.mpr h.symm).symm⟩

/-- A decimal `M * 10 ^ E` that converts to a non-zero float lies, in units of
`10 ^ -1076`, between the midpoints `a * K` and `b * K` around it: as the whole
number `M * 10 ^ q`, or below the unit, as `M / 10 ^ j`. -/
theorem atofValue_between (f : float64) (r : readResult)
    (hhex : r.hex = false) (hv : atofValue r = (f, false)) (a b : Nat) (incl : Prop)
    (hb : ∀ N D : Nat, 0 < D → nearest r.neg N D = (f, false) →
      (a * D < 4 * (N * 2 ^ 1074) ∨ (a * D = 4 * (N * 2 ^ 1074) ∧ incl))
      ∧ (4 * (N * 2 ^ 1074) < b * D ∨ (4 * (N * 2 ^ 1074) = b * D ∧ incl))) :
    (∃ q, (a * 5 ^ 1076 < r.mantissa * 10 ^ q ∨ (incl ∧ a * 5 ^ 1076 = r.mantissa * 10 ^ q))
        ∧ (r.mantissa * 10 ^ q < b * 5 ^ 1076 ∨ (incl ∧ r.mantissa * 10 ^ q = b * 5 ^ 1076)))
      ∨ (∃ j, a * 5 ^ 1076 * 10 ^ j ≤ r.mantissa) := by
  unfold atofValue at hv
  simp only [hhex, Bool.false_eq_true, if_false] at hv
  have hK := pow5_pos
  have h10 := ten_pow_1076
  by_cases hE : 0 ≤ r.exp
  · rw [if_pos hE] at hv
    obtain ⟨b1, b2⟩ := hb _ 1 (by norm_num) hv
    left
    refine ⟨r.exp.toNat + 1076, ?_⟩
    have hval : 4 * (r.mantissa * 10 ^ r.exp.toNat * 2 ^ 1074) * 5 ^ 1076
        = r.mantissa * 10 ^ (r.exp.toNat + 1076) * 1 := by
      rw [pow_add, h10]; ring
    generalize r.mantissa * 10 ^ r.exp.toNat * 2 ^ 1074 = X at *
    generalize r.mantissa * 10 ^ (r.exp.toNat + 1076) = C at *
    generalize (5 : Nat) ^ 1076 = K at *
    exact between_units a b X C 1 K incl hK (by norm_num) hval b1 b2
  · rw [if_neg hE] at hv
    obtain ⟨b1, b2⟩ := hb _ _ (by positivity) hv
    generalize (-r.exp).toNat = k at *
    by_cases hk : k ≤ 1076
    · left
      refine ⟨1076 - k, ?_⟩
      have hval : 4 * (r.mantissa * 2 ^ 1074) * 5 ^ 1076
          = r.mantissa * 10 ^ (1076 - k) * 10 ^ k := by
        have hk1 : 1076 = 1076 - k + k := by omega
        have e : 10 ^ (1076 - k) * 10 ^ k = 10 ^ 1076 := by
          conv_rhs => rw [hk1]
          exact (pow_add 10 _ _).symm
        rw [Nat.mul_assoc r.mantissa, e, h10]; ring
      clear h10
      generalize r.mantissa * 2 ^ 1074 = X at *
      generalize r.mantissa * 10 ^ (1076 - k) = C at *
      generalize (5 : Nat) ^ 1076 = K at *
      exact between_units a b X C (10 ^ k) K incl hK (by positivity) hval b1 b2
    · right
      refine ⟨k - 1076, ?_⟩
      have hle : a * 10 ^ k ≤ 4 * (r.mantissa * 2 ^ 1074) := by
        rcases b1 with h | ⟨h, _⟩
        · exact Nat.le_of_lt h
        · exact Nat.le_of_eq h
      have hk1 : k = k - 1076 + 1076 := by omega
      have e : 10 ^ k = 10 ^ (k - 1076) * 10 ^ 1076 := by
        conv_lhs => rw [hk1]
        exact pow_add 10 _ _
      have h2 : a * 10 ^ k * 5 ^ 1076 ≤ 4 * (r.mantissa * 2 ^ 1074) * 5 ^ 1076 :=
        Nat.mul_le_mul_right _ hle
      have e2 : 4 * (r.mantissa * 2 ^ 1074) * 5 ^ 1076 = r.mantissa * 10 ^ 1076 := by
        rw [h10]; ring
      have e3 : a * 10 ^ k * 5 ^ 1076 = a * 5 ^ 1076 * 10 ^ (k - 1076) * 10 ^ 1076 := by
        rw [e]; ring
      rw [e2, e3] at h2
      exact Nat.le_of_mul_le_mul_right h2 (by positivity)

/-- The digits of `roundShortest` are the fewest there can be: every decimal
mantissa and exponent that convert to the non-zero float `f` have at least as
many digits in the mantissa. -/
theorem atofValue_fewest_digits (f : float64) (hnz : f.mant ≠ 0) (c p : Nat)
    (h : roundShortest f.mant f.shift = (c, p)) (r : readResult) (hhex : r.hex = false)
    (hv : atofValue r = (f, false)) :
    (decimalDigits c).length ≤ (decimalDigits r.mantissa).length := by
  have hspec := roundShortest_spec f.mant f.shift c p hnz h
  have hmin := fun q m hq => roundShortest_shortest f.mant f.shift c p hnz h q m hq
  have hc := roundShortest_pos f.mant f.shift c p hnz h
  have hS : 0 < 2 ^ f.shift := Nat.pow_pos (by norm_num)
  have hK := pow5_pos
  by_cases hreg : 2 ^ 52 < f.mant ∨ f.shift = 0
  · simp only [if_pos hreg] at hspec hmin
    have hM := atofValue_between f r hhex hv ((4 * f.mant - 2) * 2 ^ f.shift)
      ((4 * f.mant + 2) * 2 ^ f.shift) (f.mant % 2 = 0) (by
        intro N D hD hn
        have := nearest_bounds f r.neg hnz N D hD hn
        rw [if_pos hreg] at this
        exact this)
    have hlo0 : 0 < (4 * f.mant - 2) * 2 ^ f.shift * 5 ^ 1076 :=
      Nat.mul_pos (Nat.mul_pos (by omega) hS) hK
    exact fewest_digits_core _ _ c p r.mantissa (f.mant % 2 = 0) hlo0 hspec hmin hc hM
  · simp only [if_neg hreg] at hspec hmin
    have hM := atofValue_between f r hhex hv ((4 * f.mant - 1) * 2 ^ f.shift)
      ((4 * f.mant + 2) * 2 ^ f.shift) (f.mant % 2 = 0) (by
        intro N D hD hn
        have := nearest_bounds f r.neg hnz N D hD hn
        rw [if_neg hreg] at this
        exact this)
    have hlo0 : 0 < (4 * f.mant - 1) * 2 ^ f.shift * 5 ^ 1076 :=
      Nat.mul_pos (Nat.mul_pos (by omega) hS) hK
    exact fewest_digits_core _ _ c p r.mantissa (f.mant % 2 = 0) hlo0 hspec hmin hc hM

/-- The special names denote an infinity or a NaN. -/
theorem special_not_finite (s : Bytes) (val : float64) (n : Nat)
    (h : special s = some (val, n)) : val.expo.val = 2047 := by
  have hinf : ∀ (neg : Bool) (k : Nat) (t : Bytes), specialInf neg k t = some (val, n) →
      val.expo.val = 2047 := by
    intro neg k t ht
    unfold specialInf at ht
    simp only at ht
    generalize (if 3 < commonPrefixLenIgnoreCase t (bytes "infinity")
        ∧ commonPrefixLenIgnoreCase t (bytes "infinity") < 8 then 3
      else commonPrefixLenIgnoreCase t (bytes "infinity")) = m at ht
    split at ht
    · obtain ⟨rfl, _⟩ := Prod.mk.inj (Option.some.inj ht)
      rfl
    · exact absurd ht (by simp)
  unfold special at h
  split at h
  · exact absurd h (by simp)
  · split at h
    · exact hinf _ _ _ h
    · split at h
      · exact hinf _ _ _ h
      · split at h
        · split at h
          · obtain ⟨rfl, _⟩ := Prod.mk.inj (Option.some.inj h)
            rfl
          · exact absurd h (by simp)
        · exact absurd h (by simp)

/-- A text that `ParseFloat` reads as a finite float without error went
through `readFloat`, and what was read converts to that float. -/
theorem atofValue_of_ParseFloat (f : float64) (hfin : f.finite) (s : Bytes) (r : readResult)
    (hr : readFloat s = some r) (hp : ParseFloat s = (f, none)) : atofValue r = (f, false) := by
  unfold ParseFloat at hp
  rcases hsp : special s with _ | ⟨val, n⟩
  · rw [hsp, hr] at hp
    simp only at hp
    split at hp
    · exact absurd (Prod.mk.inj hp).2 (by simp)
    · rcases hv : atofValue r with ⟨g, _ | _⟩
      · rw [hv] at hp
        simp only at hp
        rw [(Prod.mk.inj hp).1]
      · rw [hv] at hp
        exact absurd (Prod.mk.inj hp).2 (by simp)
  · rw [hsp] at hp
    simp only at hp
    split at hp
    · exact absurd (Prod.mk.inj hp).2 (by simp)
    · have := special_not_finite s val n hsp
      rw [(Prod.mk.inj hp).1] at this
      exact absurd this hfin

/-- The digits `FormatFloat` prints are the fewest that read back: every
decimal text that `ParseFloat` reads as the finite float `f` has a mantissa of
at least as many digits as the shortest digits of `f`. -/
theorem ParseFloat_fewest_digits (f : float64) (hfin : f.finite) (s : Bytes) (r : readResult)
    (hr : readFloat s = some r) (hhex : r.hex = false) (hp : ParseFloat s = (f, none)) :
    (shortestDigits f).d.length ≤ (decimalDigits r.mantissa).length := by
  have hv := atofValue_of_ParseFloat f hfin s r hr hp
  unfold shortestDigits
  by_cases hnz : f.mant = 0
  · rw [if_pos hnz]
    simp
  · rw [if_neg hnz]
    rcases hrs : roundShortest f.mant f.shift with ⟨c, p⟩
    exact atofValue_fewest_digits f hnz c p hrs r hhex hv

end strconv

/-! ## The library model on known texts -/

/-- The constant of `math.NaN()` has the bit pattern `0x7FF8000000000001`. -/
theorem NaN_bits : float64.NaN.bits = 0x7FF8000000000001 := by decide

/-- The thresholds of the JSON float encoder are the floats the texts `1e-6`
and `1e21` denote. -/
theorem json_thresholds :
    strconv.ParseFloat (bytes "1e-6") = (json.f1em6, none)
    ∧ strconv.ParseFloat (bytes "1e21") = (json.f1e21, none) := by
  refine ⟨by decide!, by decide!⟩

/-- `ParseFloat` on texts whose results the library documents or tests: a
hexadecimal mantissa, underscores, an overflow, an underflow to the smallest
subnormal, a tie rounded to even, and rejected texts. -/
theorem ParseFloat_known :
    strconv.ParseFloat (bytes "0x1p-2") = (float64.frombits 0x3FD0000000000000, none)
    ∧ strconv.ParseFloat (bytes "1_000.5") = (float64.frombits 0x408F440000000000, none)
    ∧ strconv.ParseFloat (bytes "1e400")
      = (float64.Inf false, some (error.rangeError (bytes "1e400")))
    ∧ strconv.ParseFloat (bytes "5e-324") = (float64.frombits 1, none)
    ∧ strconv.ParseFloat (bytes "9007199254740993") = (float64.frombits 0x4340000000000000, none)
    ∧ strconv.ParseFloat (bytes "-Infinity") = (float64.Inf true, none)
    ∧ strconv.ParseFloat (bytes "1__0") = (float64.zero false, some (error.syntaxError (bytes "1__0")))
    ∧ strconv.ParseFloat (bytes "0x1") = (float64.zero false, some (error.syntaxError (bytes "0x1")))
    ∧ strconv.ParseFloat (bytes "") = (float64.zero false, some (error.syntaxError (bytes ""))) := by
  refine ⟨by decide!, by decide!, by decide!, by decide!, by decide!, by decide!, by decide!,
    by decide!, by decide!⟩

/-- `FormatFloat` and the JSON encoder on floats whose texts are known: `3.14`,
`0.1`, the smallest subnormal, the largest float, `1e21`, `1e-7` and `-0`. -/
theorem FormatFloat_known :
    strconv.FormatFloat (float64.frombits 0x40091EB851EB851F) false = bytes "3.14"
    ∧ strconv.FormatFloat (float64.frombits 0x3FB999999999999A) false = bytes "0.1"
    ∧ strconv.FormatFloat (float64.frombits 1) true = bytes "5e-324"
    ∧ strconv.FormatFloat (float64.frombits 0x7FEFFFFFFFFFFFFF) true
      = bytes "1.7976931348623157e+308"
    ∧ json.MarshalFloat64 json.f1e21 = (bytes "1e+21", none)
    ∧ json.MarshalFloat64 (float64.frombits 0x3E7AD7F29ABCAF48) = (bytes "1e-7", none)
    ∧ json.MarshalFloat64 (float64.frombits 0x4415AF1D78B58C40) = (bytes "100000000000000000000", none)
    ∧ strconv.FormatFloat (float64.zero true) false = bytes "-0" := by
  refine ⟨by decide!, by decide!, by decide!, by decide!, by decide!, by decide!, by decide!,
    by decide!⟩

/-! ## Round trips -/

/-- C1, as stated, fails at a NaN: `MarshalJSON` on the valid wrapper of
`math.NaN()` returns no bytes and json's `UnsupportedValueError`, so there are
no bytes `b` it succeeds with. -/
theorem marshalJSON_NaN_fails :
    (NewFloat64 float64.NaN).MarshalJSON = ([], some (error.unsupportedValue float64.NaN))
    ∧ ¬ ∃ b, (NewFloat64 float64.NaN).MarshalJSON = (b, none) := by
  have h : (NewFloat64 float64.NaN).MarshalJSON
      = ([], some (error.unsupportedValue float64.NaN)) := by decide
  refine ⟨h, ?_⟩
  rintro ⟨b, hb⟩
  rw [h] at hb
  exact absurd (congrArg Prod.snd hb) (by simp)

/-- C1 (amended): for every finite float `f` and every prior receiver `r`,
`MarshalJSON` on `NewFloat64 f` succeeds with some bytes `b`, and
`UnmarshalJSON b` on `r` succeeds and leaves the receiver valid with a value
bit-identical to `f`; for a NaN or an infinity `MarshalJSON` returns no bytes
and json's `UnsupportedValueError`. -/
theorem json_round_trip (f : float64) (r : nulls.Float64) :
    (f.finite → ∃ b, (NewFloat64 f).MarshalJSON = (b, none)
      ∧ r.UnmarshalJSON b = ({ Float64 := f, Valid := true }, none))
    ∧ (¬ f.finite →
      (NewFloat64 f).MarshalJSON = ([], some (error.unsupportedValue f))) := by
  constructor
  · intro hfin
    obtain ⟨herr, hparse⟩ := json.ParseFloat_MarshalFloat64 f hfin
    refine ⟨(json.MarshalFloat64 f).1, ?_, ?_⟩
    · simp only [Float64.MarshalJSON, NewFloat64, if_true]
      exact Prod.ext rfl herr
    · have hnull : (json.MarshalFloat64 f).1 ≠ bytes "null" := by
        intro h
        rw [h] at hparse
        have h2 : (strconv.ParseFloat (bytes "null")).2 ≠ none := by decide
        rw [hparse] at h2
        exact h2 rfl
      simp [Float64.UnmarshalJSON, hnull, hparse]
  · intro hinf
    have he : f.expo.val = 2047 := by
      unfold float64.finite at hinf
      exact not_not.mp hinf
    have h : (f.IsInf = true ∨ f.IsNaN = true) := by
      by_cases hz : f.frac.val = 0
      · left; simp [float64.IsInf, he, hz]
      · right; simp [float64.IsNaN, he, hz]
    simp [Float64.MarshalJSON, NewFloat64, json.MarshalFloat64, h]

/-- C1 (amended) at the float `2.5`, decoded into a default instance. -/
theorem json_round_trip_witness :
    ∃ b, (NewFloat64 { sign := false, expo := 1024, frac := 1125899906842624 }).MarshalJSON
        = (b, none)
      ∧ Float64.UnmarshalJSON { Float64 := float64.zero false, Valid := false } b
        = ({ Float64 := { sign := false, expo := 1024, frac := 1125899906842624 },
             Valid := true }, none) :=
  (json_round_trip { sign := false, expo := 1024, frac := 1125899906842624 }
    { Float64 := float64.zero false, Valid := false }).1 (by decide)

/-- C2, as stated, fails at a NaN: the NaN with bit pattern
`0x7FF0000000000001` is marshalled to the attribute text `NaN`, which the
decoder accepts but reads as `math.NaN()`: the value stored is neither
bit-identical nor `==` to the original. -/
theorem xml_attr_NaN_not_restored :
    (Float64.MarshalXMLAttr (NewFloat64 { sign := false, expo := 2047, frac := 1 })
        { Space := [], Local := bytes "x" })
      = ({ Name := { Space := [], Local := bytes "x" }, Value := bytes "NaN" }, none)
    ∧ Float64.UnmarshalXMLAttr { Float64 := float64.zero false, Valid := false }
        { Name := { Space := [], Local := bytes "x" }, Value := bytes "NaN" }
      = ({ Float64 := float64.NaN, Valid := true }, none)
    ∧ float64.NaN ≠ { sign := false, expo := 2047, frac := 1 }
    ∧ float64.eq float64.NaN { sign := false, expo := 2047, frac := 1 } = false := by
  refine ⟨by decide, by decide, by decide, by decide⟩

/-- C2 (amended): for every float `f`, every attribute name `n` and every
prior receiver `r`, `MarshalXMLAttr n` on `NewFloat64 f` returns no error and
an attribute named `n` whose text is neither empty nor `null`, and
`UnmarshalXMLAttr` of that attribute on `r` returns no error and leaves the
receiver valid; the value is bit-identical to `f` unless `f` is a NaN, which
comes back as `math.NaN()`. -/
theorem xml_attr_round_trip (f : float64) (n : xml.Name) (r : nulls.Float64) :
    ∃ a, (NewFloat64 f).MarshalXMLAttr n = (a, none)
      ∧ a.Name = n ∧ a.Value ≠ bytes "" ∧ a.Value ≠ bytes "null"
      ∧ r.UnmarshalXMLAttr a
        = ({ Float64 := if f.IsNaN then float64.NaN else f, Valid := true }, none) := by
  have hparse : strconv.ParseFloat (strconv.FormatFloat f false)
      = (if f.IsNaN then float64.NaN else f, none) := by
    by_cases hnan : f.IsNaN = true
    · have h := hnan
      unfold float64.IsNaN at h
      simp only [decide_eq_true_eq] at h
      have htext : strconv.FormatFloat f false = bytes "NaN" := by
        unfold strconv.FormatFloat
        rw [if_pos h.1, if_pos h.2]
      rw [htext, if_pos hnan]
      decide
    · have hnan' : f.IsNaN = false := by simpa using hnan
      rw [if_neg hnan]
      exact strconv.ParseFloat_FormatFloat f hnan'
  have hempty : strconv.FormatFloat f false ≠ bytes "" := by
    intro h
    rw [h] at hparse
    have h2 : (strconv.ParseFloat (bytes "")).2 ≠ none := by decide
    rw [hparse] at h2
    exact h2 rfl
  have hnull : strconv.FormatFloat f false ≠ bytes "null" := by
    intro h
    rw [h] at hparse
    have h2 : (strconv.ParseFloat (bytes "null")).2 ≠ none := by decide
    rw [hparse] at h2
    exact h2 rfl
  refine ⟨{ Name := n, Value := strconv.FormatFloat f false }, ?_, rfl, hempty, hnull, ?_⟩
  · simp [Float64.MarshalXMLAttr, NewFloat64]
  · simp [Float64.UnmarshalXMLAttr, hempty, hnull, hparse]

/-- C2 (amended) at negative infinity, the attribute named `x`, decoded into
a default instance: the receiver ends valid with negative infinity. -/
theorem xml_attr_round_trip_witness :
    ∃ a, (NewFloat64 (float64.Inf true)).MarshalXMLAttr { Space := [], Local := bytes "x" }
        = (a, none)
      ∧ a.Name = { Space := [], Local := bytes "x" } ∧ a.Value ≠ bytes "" ∧ a.Value ≠ bytes "null"
      ∧ Float64.UnmarshalXMLAttr { Float64 := float64.zero false, Valid := false } a
        = ({ Float64 := float64.Inf true, Valid := true }, none) :=
  xml_attr_round_trip (float64.Inf true) { Space := [], Local := bytes "x" }
    { Float64 := float64.zero false, Valid := false }

/-! ## The JSON decoder and the absent value -/

/-- C3: an absent wrapper, whatever float it stores, marshals to exactly the
bytes `null` with no error; and unmarshalling `null` into any receiver, valid
or not, returns no error and leaves it absent. -/
theorem marshalJSON_absent_and_unmarshalJSON_null (v : float64) (r : nulls.Float64) :
    Float64.MarshalJSON { Float64 := v, Valid := false } = (bytes "null", none)
    ∧ (r.UnmarshalJSON (bytes "null")).2 = none
    ∧ (r.UnmarshalJSON (bytes "null")).1.Valid = false := by
  refine ⟨?_, ?_, ?_⟩
  · simp [Float64.MarshalJSON, json.MarshalNil]
  · simp [Float64.UnmarshalJSON]
  · simp [Float64.UnmarshalJSON]

/-- C4: for every text other than `null` that `ParseFloat` reads as the float
`v` without error, and every prior receiver, `UnmarshalJSON` returns no error
and leaves the receiver valid with value `v`. -/
theorem unmarshalJSON_parsed (t : Bytes) (v : float64) (r : nulls.Float64)
    (hnull : t ≠ bytes "null") (hparse : strconv.ParseFloat t = (v, none)) :
    r.UnmarshalJSON t = ({ Float64 := v, Valid := true }, none) := by
  simp [Float64.UnmarshalJSON, hnull, hparse]

/-- C4 at the text `2.5` and the default instance: the receiver becomes valid
with the float `2.5` (bit pattern `0x4004000000000000`). -/
theorem unmarshalJSON_parsed_witness :
    Float64.UnmarshalJSON { Float64 := float64.zero false, Valid := false } (bytes "2.5")
      = ({ Float64 := { sign := false, expo := 1024, frac := 1125899906842624 }, Valid := true },
          none) :=
  unmarshalJSON_parsed (bytes "2.5") _ _ (by decide) (by decide!)

/-- C5: `UnmarshalJSON` returns an error exactly when the text is not `null`
and `ParseFloat` rejects it; and whenever it returns an error the receiver
ends absent, whatever it was before. -/
theorem unmarshalJSON_error_iff (t : Bytes) (r : nulls.Float64) :
    ((r.UnmarshalJSON t).2 ≠ none ↔ (t ≠ bytes "null" ∧ (strconv.ParseFloat t).2 ≠ none))
    ∧ ((r.UnmarshalJSON t).2 ≠ none → (r.UnmarshalJSON t).1.Valid = false) := by
  unfold Float64.UnmarshalJSON
  by_cases hnull : t = bytes "null"
  · simp [hnull]
  · rcases hp : strconv.ParseFloat t with ⟨i, _ | err⟩ <;> simp [hnull, hp]

/-- C5 at the text `abc` and a receiver that was valid: the call fails and the
receiver ends absent. -/
theorem unmarshalJSON_error_witness :
    (Float64.UnmarshalJSON (NewFloat64 (float64.zero false)) (bytes "abc")).2 ≠ none
    ∧ (Float64.UnmarshalJSON (NewFloat64 (float64.zero false)) (bytes "abc")).1.Valid = false :=
  have h := unmarshalJSON_error_iff (bytes "abc") (NewFloat64 (float64.zero false))
  have herr := h.1.2 ⟨by decide, by decide⟩
  ⟨herr, h.2 herr⟩

/-! ## Encoding to JSON -/

/-- C6, as stated, fails at an infinity: `MarshalJSON` on the valid wrapper of
`+Inf` returns json's `UnsupportedValueError`. -/
theorem marshalJSON_Inf_fails :
    (Float64.MarshalJSON { Float64 := float64.Inf false, Valid := true }).2
      = some (error.unsupportedValue (float64.Inf false)) := by
  decide

/-- C6 (amended): `MarshalJSON` returns no error for every wrapper that is
absent or stores a finite float; when such a wrapper is valid the bytes are
the ones `json.Marshal` prints for the stored float: a number of the JSON
grammar that `ParseFloat` reads back as exactly that float. A valid wrapper
storing a NaN or an infinity gets no bytes and json's `UnsupportedValueError`. -/
theorem marshalJSON_no_error (w : nulls.Float64) :
    ((w.Valid = false ∨ w.Float64.finite) →
      w.MarshalJSON.2 = none
      ∧ (w.Valid = true →
          w.MarshalJSON = json.MarshalFloat64 w.Float64
          ∧ json.isValidNumber w.MarshalJSON.1 = true
          ∧ strconv.ParseFloat w.MarshalJSON.1 = (w.Float64, none)))
    ∧ ((w.Valid = true ∧ ¬ w.Float64.finite) →
      w.MarshalJSON = ([], some (error.unsupportedValue w.Float64))) := by
  obtain ⟨v, valid⟩ := w
  constructor
  · intro h
    cases valid
    · simp [Float64.MarshalJSON, json.MarshalNil]
    · have hfin : v.finite := by
        rcases h with h | h
        · simp at h
        · exact h
      obtain ⟨herr, hparse⟩ := json.ParseFloat_MarshalFloat64 v hfin
      have hvalid := json.isValidNumber_MarshalFloat64 v hfin
      have hm : Float64.MarshalJSON { Float64 := v, Valid := true } = json.MarshalFloat64 v := by
        simp [Float64.MarshalJSON]
      rw [hm]
      exact ⟨herr, fun _ => ⟨rfl, hvalid, hparse⟩⟩
  · rintro ⟨hv, hinf⟩
    simp only at hv hinf
    subst hv
    have he : v.expo.val = 2047 := by
      unfold float64.finite at hinf
      exact not_not.mp hinf
    have h : (v.IsInf = true ∨ v.IsNaN = true) := by
      by_cases hz : v.frac.val = 0
      · left; simp [float64.IsInf, he, hz]
      · right; simp [float64.IsNaN, he, hz]
    simp [Float64.MarshalJSON, json.MarshalFloat64, h]

/-- C6 (amended) at the valid wrapper of `2.5`: no error, and the bytes are
`2.5`. -/
theorem marshalJSON_no_error_witness :
    (Float64.MarshalJSON
        { Float64 := { sign := false, expo := 1024, frac := 1125899906842624 }, Valid := true }).2
      = none
    ∧ json.MarshalFloat64 { sign := false, expo := 1024, frac := 1125899906842624 }
      = (bytes "2.5", none) :=
  ⟨((marshalJSON_no_error
      { Float64 := { sign := false, expo := 1024, frac := 1125899906842624 }, Valid := true }).1
      (Or.inr (by decide))).1, by decide!⟩

/-! ## Driver values -/

/-- C7: scanning `nil` into any receiver returns no error and leaves it
absent; scanning a float `v` returns no error and leaves it valid with value
`v`; and for every input the receiver's fields and the error are those of the
delegate `sql.NullFloat64`, started from the receiver's float, after its own
`Scan` of that input. -/
theorem scan_postcondition (r : nulls.Float64) (v : float64) (value : Value) :
    ((r.Scan Value.nil).2 = none ∧ (r.Scan Value.nil).1.Valid = false)
    ∧ r.Scan (Value.float64 v) = ({ Float64 := v, Valid := true }, none)
    ∧ ((r.Scan value).1.Float64
          = (sql.NullFloat64.Scan { Float64 := r.Float64, Valid := false } value).1.Float64
        ∧ (r.Scan value).1.Valid
          = (sql.NullFloat64.Scan { Float64 := r.Float64, Valid := false } value).1.Valid
        ∧ (r.Scan value).2
          = (sql.NullFloat64.Scan { Float64 := r.Float64, Valid := false } value).2) := by
  refine ⟨⟨?_, ?_⟩, ?_, ?_, ?_, ?_⟩
  · simp [Float64.Scan, sql.NullFloat64.Scan]
  · simp [Float64.Scan, sql.NullFloat64.Scan]
  · simp [Float64.Scan, sql.NullFloat64.Scan, sql.convertAssign]
  · simp [Float64.Scan]
  · simp [Float64.Scan]
  · simp [Float64.Scan]

/-- C8: `Interface` and `Value` both return `nil` for an absent wrapper and the
stored float for a valid one, `Value` never returns an error, and `NewFloat64 f`
is the valid wrapper of `f`, so its `Interface` is `f`. -/
theorem interface_and_value (w : nulls.Float64) (f : float64) :
    (Float64.Interface { Float64 := f, Valid := false } = Value.nil
      ∧ Float64.Value { Float64 := f, Valid := false } = (Value.nil, none))
    ∧ (Float64.Interface { Float64 := f, Valid := true } = Value.float64 f
      ∧ Float64.Value { Float64 := f, Valid := true } = (Value.float64 f, none))
    ∧ w.Value.2 = none
    ∧ (NewFloat64 f).Float64 = f ∧ (NewFloat64 f).Valid = true
    ∧ (NewFloat64 f).Interface = Value.float64 f := by
  refine ⟨⟨?_, ?_⟩, ⟨?_, ?_⟩, ?_, ?_, ?_, ?_⟩
  · simp [Float64.Interface]
  · simp [Float64.Value]
  · simp [Float64.Interface]
  · simp [Float64.Value]
  · unfold Float64.Value; split <;> rfl
  · rfl
  · rfl
  · simp [Float64.Interface, NewFloat64]

/-- C8 at the float `3.14` (bit pattern `0x40091EB851EB851F`): the wrapper made
from it hands the same float back through `Interface`. -/
theorem interface_and_value_witness :
    (NewFloat64 { sign := false, expo := 1024, frac := 2567051787601183 }).Interface
      = Value.float64 { sign := false, expo := 1024, frac := 2567051787601183 } :=
  (interface_and_value (NewFloat64 (float64.zero false))
    { sign := false, expo := 1024, frac := 2567051787601183 }).2.2.2.2.2

/-- C9: two absent wrappers storing any two floats are indistinguishable to
every encoder: `Interface`, `Value`, `MarshalJSON` and `MarshalXMLAttr` return
equal results, and `MarshalXML` returns no error and the encoder as it was,
for both. -/
theorem absent_value_never_read (v1 v2 : float64) (name : xml.Name) {Enc : Type}
    (EncodeElement : Enc → float64 → xml.StartElement → Enc × Option error)
    (e : Enc) (start : xml.StartElement) :
    Float64.Interface { Float64 := v1, Valid := false }
      = Float64.Interface { Float64 := v2, Valid := false }
    ∧ Float64.Value { Float64 := v1, Valid := false }
      = Float64.Value { Float64 := v2, Valid := false }
    ∧ Float64.MarshalJSON { Float64 := v1, Valid := false }
      = Float64.MarshalJSON { Float64 := v2, Valid := false }
    ∧ Float64.MarshalXMLAttr { Float64 := v1, Valid := false } name
      = Float64.MarshalXMLAttr { Float64 := v2, Valid := false } name
    ∧ Float64.MarshalXML EncodeElement { Float64 := v1, Valid := false } e start
      = Float64.MarshalXML EncodeElement { Float64 := v2, Valid := false } e start
    ∧ Float64.MarshalXML EncodeElement { Float64 := v1, Valid := false } e start = (e, none) := by
  simp [Float64.Interface, Float64.Value, Float64.MarshalJSON, Float64.MarshalXMLAttr,
    Float64.MarshalXML]

/-! ## Failed decodes -/

/-- A conversion that fails leaves the destination as it was. -/
theorem sql.assignParsed_error (dest : float64) (s : Bytes)
    (h : (sql.assignParsed dest s).2 ≠ none) : (sql.assignParsed dest s).1 = dest := by
  unfold sql.assignParsed at h ⊢
  rcases hp : strconv.ParseFloat s with ⟨i, _ | err⟩
  · rw [hp] at h
    exact absurd rfl h
  · rfl

/-- The library's `convertAssign` assigns nothing when it returns an error. -/
theorem sql.convertAssign_error (dest : float64) (src : Value)
    (h : (sql.convertAssign dest src).2 ≠ none) : (sql.convertAssign dest src).1 = dest := by
  cases src with
  | nil => rfl
  | float64 f => exact absurd rfl h
  | int64 i => exact sql.assignParsed_error dest _ h
  | bool b => exact sql.assignParsed_error dest _ h
  | bytes b => exact sql.assignParsed_error dest _ h
  | string s => exact sql.assignParsed_error dest _ h
  | time text => exact sql.assignParsed_error dest _ h

/-- C10: on every input on which `Scan`, `UnmarshalJSON`, `UnmarshalText`,
`UnmarshalXML` or `UnmarshalXMLAttr` returns an error, a receiver that was
absent before the call is absent after it, with the float it stored before:
a failed call commits nothing. -/
theorem failed_decode_keeps_absent (v : float64) (t : Bytes) (attr : xml.Attr)
    (value : Value) {Dec : Type}
    (DecodeElement : Dec → xml.StartElement → Dec × Bytes × Option error)
    (d : Dec) (start : xml.StartElement) :
    ((Float64.Scan { Float64 := v, Valid := false } value).2 ≠ none →
      (Float64.Scan { Float64 := v, Valid := false } value).1 = { Float64 := v, Valid := false })
    ∧ ((Float64.UnmarshalJSON { Float64 := v, Valid := false } t).2 ≠ none →
      (Float64.UnmarshalJSON { Float64 := v, Valid := false } t).1
        = { Float64 := v, Valid := false })
    ∧ ((Float64.UnmarshalText { Float64 := v, Valid := false } t).2 ≠ none →
      (Float64.UnmarshalText { Float64 := v, Valid := false } t).1
        = { Float64 := v, Valid := false })
    ∧ ((Float64.UnmarshalXML DecodeElement { Float64 := v, Valid := false } d start).2.2 ≠ none →
      (Float64.UnmarshalXML DecodeElement { Float64 := v, Valid := false } d start).1
        = { Float64 := v, Valid := false })
    ∧ ((Float64.UnmarshalXMLAttr { Float64 := v, Valid := false } attr).2 ≠ none →
      (Float64.UnmarshalXMLAttr { Float64 := v, Valid := false } attr).1
        = { Float64 := v, Valid := false }) := by
  refine ⟨?_, ?_, ?_, ?_, ?_⟩
  · intro h
    have hc := sql.convertAssign_error v value
    unfold Float64.Scan sql.NullFloat64.Scan at h ⊢
    simp only at h ⊢
    by_cases hnil : value = Value.nil
    · rw [if_pos hnil] at h
      exact absurd rfl h
    · rw [if_neg hnil] at h ⊢
      rcases hca : sql.convertAssign v value with ⟨g, _ | err⟩
      · rw [hca] at h
        exact absurd rfl h
      · rw [hca] at hc
        have hg : g = v := hc (by simp)
        subst hg
        simp
  · unfold Float64.UnmarshalJSON
    by_cases hnull : t = bytes "null"
    · simp [hnull]
    · rcases hp : strconv.ParseFloat t with ⟨i, _ | err⟩ <;> simp [hnull, hp]
  · unfold Float64.UnmarshalText Float64.UnmarshalJSON
    by_cases hnull : t = bytes "null"
    · simp [hnull]
    · rcases hp : strconv.ParseFloat t with ⟨i, _ | err⟩ <;> simp [hnull, hp]
  · unfold Float64.UnmarshalXML
    rcases hd : DecodeElement d start with ⟨d', data, _ | err⟩
    · simp only
      by_cases h1 : data = bytes ""
      · simp [h1]
      · by_cases h2 : data = bytes "null"
        · simp [h2]
        · rcases hp : strconv.ParseFloat data with ⟨i, _ | err⟩ <;> simp [h1, h2]
    · simp
  · unfold Float64.UnmarshalXMLAttr
    by_cases h1 : attr.Value = bytes ""
    · simp [h1]
    · by_cases h2 : attr.Value = bytes "null"
      · simp [h2]
      · rcases hp : strconv.ParseFloat attr.Value with ⟨i, _ | err⟩ <;> simp [h1, h2]

/-- C10 at an absent receiver storing zero: `Scan` of the string `abc`,
`UnmarshalJSON` and `UnmarshalText` of the text `abc`, `UnmarshalXML` with a
decoder that yields `abc`, and `UnmarshalXMLAttr` of the value `notanumber`
all return an error and all leave the receiver absent with zero. -/
theorem failed_decode_keeps_absent_witness :
    ((Float64.Scan { Float64 := float64.zero false, Valid := false }
          (Value.string (bytes "abc"))).2 ≠ none
      ∧ (Float64.Scan { Float64 := float64.zero false, Valid := false }
          (Value.string (bytes "abc"))).1 = { Float64 := float64.zero false, Valid := false })
    ∧ ((Float64.UnmarshalJSON { Float64 := float64.zero false, Valid := false }
          (bytes "abc")).2 ≠ none
      ∧ (Float64.UnmarshalJSON { Float64 := float64.zero false, Valid := false }
          (bytes "abc")).1 = { Float64 := float64.zero false, Valid := false })
    ∧ ((Float64.UnmarshalText { Float64 := float64.zero false, Valid := false }
          (bytes "abc")).2 ≠ none
      ∧ (Float64.UnmarshalText { Float64 := float64.zero false, Valid := false }
          (bytes "abc")).1 = { Float64 := float64.zero false, Valid := false })
    ∧ ((Float64.UnmarshalXML (fun (d : Unit) (_ : xml.StartElement) => (d, bytes "abc", none))
          { Float64 := float64.zero false, Valid := false } ()
          { Name := { Space := [], Local := bytes "a" }, Attr := [] }).2.2 ≠ none
      ∧ (Float64.UnmarshalXML (fun (d : Unit) (_ : xml.StartElement) => (d, bytes "abc", none))
          { Float64 := float64.zero false, Valid := false } ()
          { Name := { Space := [], Local := bytes "a" }, Attr := [] }).1
        = { Float64 := float64.zero false, Valid := false })
    ∧ ((Float64.UnmarshalXMLAttr { Float64 := float64.zero false, Valid := false }
          { Name := { Space := [], Local := bytes "x" }, Value := bytes "notanumber" }).2 ≠ none
      ∧ (Float64.UnmarshalXMLAttr { Float64 := float64.zero false, Valid := false }
          { Name := { Space := [], Local := bytes "x" }, Value := bytes "notanumber" }).1
        = { Float64 := float64.zero false, Valid := false }) :=
  have h := failed_decode_keeps_absent (float64.zero false) (bytes "abc")
    { Name := { Space := [], Local := bytes "x" }, Value := bytes "notanumber" }
    (Value.string (bytes "abc"))
    (fun (d : Unit) (_ : xml.StartElement) => (d, bytes "abc", none)) ()
    { Name := { Space := [], Local := bytes "a" }, Attr := [] }
  ⟨⟨by decide, h.1 (by decide)⟩, ⟨by decide, h.2.1 (by decide)⟩,
    ⟨by decide, h.2.2.1 (by decide)⟩, ⟨by decide, h.2.2.2.1 (by decide)⟩,
    ⟨by decide, h.2.2.2.2 (by decide)⟩⟩

/-! ## XML attributes -/

/-- C11: for every prior receiver, valid or not, and every attribute name,
`UnmarshalXMLAttr` on the attribute value `""` and on the attribute value
`"null"` returns no error and leaves both fields of the receiver as they
were. -/
theorem unmarshalXMLAttr_sentinels (r : nulls.Float64) (attr : xml.Attr)
    (h : attr.Value = bytes "" ∨ attr.Value = bytes "null") :
    r.UnmarshalXMLAttr attr = (r, none)
    ∧ (r.UnmarshalXMLAttr attr).1.Valid = r.Valid
    ∧ (r.UnmarshalXMLAttr attr).1.Float64 = r.Float64 := by
  have hr : r.UnmarshalXMLAttr attr = (r, none) := by
    unfold Float64.UnmarshalXMLAttr
    rcases h with h | h
    · rw [if_pos h]
    · have hne : attr.Value ≠ bytes "" := by rw [h]; decide
      rw [if_neg hne, if_pos h]
  rw [hr]
  exact ⟨rfl, rfl, rfl⟩

/-- C11 at a receiver that is valid with `2.5`, for the attribute `x=""` and
for the attribute `x="null"`: no error, and the receiver is still valid with
`2.5`. -/
theorem unmarshalXMLAttr_sentinels_witness :
    Float64.UnmarshalXMLAttr
        { Float64 := { sign := false, expo := 1024, frac := 1125899906842624 }, Valid := true }
        { Name := { Space := [], Local := bytes "x" }, Value := bytes "" }
      = ({ Float64 := { sign := false, expo := 1024, frac := 1125899906842624 }, Valid := true },
          none)
    ∧ Float64.UnmarshalXMLAttr
        { Float64 := { sign := false, expo := 1024, frac := 1125899906842624 }, Valid := true }
        { Name := { Space := [], Local := bytes "x" }, Value := bytes "null" }
      = ({ Float64 := { sign := false, expo := 1024, frac := 1125899906842624 }, Valid := true },
          none) :=
  ⟨(unmarshalXMLAttr_sentinels _ { Name := { Space := [], Local := bytes "x" }, Value := bytes "" }
      (Or.inl rfl)).1,
    (unmarshalXMLAttr_sentinels _
      { Name := { Space := [], Local := bytes "x" }, Value := bytes "null" } (Or.inr rfl)).1⟩

/-- C12: for every attribute whose value is neither `""` nor `"null"` and is
rejected by `ParseFloat` with the error `err`, and every prior receiver,
`UnmarshalXMLAttr` returns `err` and leaves both fields of the receiver as they
were. -/
theorem unmarshalXMLAttr_parse_failure (r : nulls.Float64) (attr : xml.Attr) (err : error)
    (hempty : attr.Value ≠ bytes "") (hnull : attr.Value ≠ bytes "null")
    (hparse : (strconv.ParseFloat attr.Value).2 = some err) :
    r.UnmarshalXMLAttr attr = (r, some err) := by
  unfold Float64.UnmarshalXMLAttr
  rw [if_neg hempty, if_neg hnull]
  rcases hp : strconv.ParseFloat attr.Value with ⟨v, _ | e⟩
  · rw [hp] at hparse
    simp at hparse
  · rw [hp] at hparse
    simp only [Option.some.injEq] at hparse
    subst hparse
    rfl

/-- C12 at the attribute value `notanumber`, into a receiver that is valid
with `2.5`: the call returns the syntax error of `ParseFloat` for that text
and the receiver is still valid with `2.5`. -/
theorem unmarshalXMLAttr_parse_failure_witness :
    Float64.UnmarshalXMLAttr
        { Float64 := { sign := false, expo := 1024, frac := 1125899906842624 }, Valid := true }
        { Name := { Space := [], Local := bytes "x" }, Value := bytes "notanumber" }
      = ({ Float64 := { sign := false, expo := 1024, frac := 1125899906842624 }, Valid := true },
          some (error.syntaxError (bytes "notanumber"))) :=
  unmarshalXMLAttr_parse_failure _
    { Name := { Space := [], Local := bytes "x" }, Value := bytes "notanumber" } _
    (by decide) (by decide) (by decide)

/-- C13: for every attribute name `n`, `MarshalXMLAttr` on an absent wrapper
returns the empty attribute (empty name, empty value) and no error; on a valid
wrapper it returns no error and the attribute named `n` whose value is
`strconv.FormatFloat(f, 'f', -1, 64)` of the stored float `f`. That text has no
exponent: for a finite `f` it is made of a sign, digits and a point only. It is
a round-trip text: for every `f` that is not a NaN, `ParseFloat` reads it back
as exactly `f`; every NaN prints as `NaN`. And it is the shortest one: for a
finite `f` it is the plain layout of the shortest digits of `f`, and every
decimal text that `ParseFloat` reads as `f` has a mantissa of at least as many
digits as those. -/
theorem marshalXMLAttr_result (f : float64) (n : xml.Name) :
    Float64.MarshalXMLAttr { Float64 := f, Valid := false } n
      = ({ Name := { Space := bytes "", Local := bytes "" }, Value := bytes "" }, none)
    ∧ Float64.MarshalXMLAttr { Float64 := f, Valid := true } n
      = ({ Name := n, Value := strconv.FormatFloat f false }, none)
    ∧ (f.finite →
        ∀ b ∈ (Float64.MarshalXMLAttr { Float64 := f, Valid := true } n).1.Value,
          b = 45 ∨ b = 46 ∨ (48 ≤ b ∧ b ≤ 57))
    ∧ (f.IsNaN = false →
        strconv.ParseFloat (Float64.MarshalXMLAttr { Float64 := f, Valid := true } n).1.Value
          = (f, none))
    ∧ (f.IsNaN = true →
        (Float64.MarshalXMLAttr { Float64 := f, Valid := true } n).1.Value = bytes "NaN")
    ∧ (f.finite →
        (Float64.MarshalXMLAttr { Float64 := f, Valid := true } n).1.Value
          = strconv.fmtF f.sign (strconv.shortestDigits f)
        ∧ ∀ (s : Bytes) (r : strconv.readResult), strconv.readFloat s = some r →
            r.hex = false → strconv.ParseFloat s = (f, none) →
            (strconv.shortestDigits f).d.length ≤ (strconv.decimalDigits r.mantissa).length) := by
  have hv : Float64.MarshalXMLAttr { Float64 := f, Valid := true } n
      = ({ Name := n, Value := strconv.FormatFloat f false }, none) := by
    simp [Float64.MarshalXMLAttr]
  refine ⟨?_, hv, ?_, ?_, ?_, ?_⟩
  · simp [Float64.MarshalXMLAttr, bytes]
  · intro hfin
    rw [hv]
    exact strconv.FormatFloat_plain_bytes f hfin
  · intro hnan
    rw [hv]
    exact strconv.ParseFloat_FormatFloat f hnan
  · intro hnan
    rw [hv]
    unfold float64.IsNaN at hnan
    simp only [decide_eq_true_eq] at hnan
    unfold strconv.FormatFloat
    rw [if_pos hnan.1, if_pos hnan.2]
  · intro hfin
    rw [hv]
    constructor
    · have he : f.expo.val ≠ 2047 := hfin
      unfold strconv.FormatFloat
      rw [if_neg he]
      simp
    · intro s r hr hhex hp
      exact strconv.ParseFloat_fewest_digits f hfin s r hr hhex hp

/-- C13 at the name `x`: an absent instance gives the empty attribute and no
error, the valid wrapper of `3.14` gives the attribute `x="3.14"`, a text that
reads back as the same float, and the valid wrapper of `math.NaN()` gives
`x="NaN"`. The shortest digits of `3.14` are `314`, and the text `3.14`, which
reads back as that float, has as many digits as they are. -/
theorem marshalXMLAttr_result_witness :
    Float64.MarshalXMLAttr { Float64 := float64.zero false, Valid := false }
        { Space := [], Local := bytes "x" }
      = ({ Name := { Space := bytes "", Local := bytes "" }, Value := bytes "" }, none)
    ∧ Float64.MarshalXMLAttr
        { Float64 := { sign := false, expo := 1024, frac := 2567051787601183 }, Valid := true }
        { Space := [], Local := bytes "x" }
      = ({ Name := { Space := [], Local := bytes "x" }, Value := bytes "3.14" }, none)
    ∧ (∀ b ∈ (Float64.MarshalXMLAttr
        { Float64 := { sign := false, expo := 1024, frac := 2567051787601183 }, Valid := true }
        { Space := [], Local := bytes "x" }).1.Value, b = 45 ∨ b = 46 ∨ (48 ≤ b ∧ b ≤ 57))
    ∧ strconv.ParseFloat (Float64.MarshalXMLAttr
        { Float64 := { sign := false, expo := 1024, frac := 2567051787601183 }, Valid := true }
        { Space := [], Local := bytes "x" }).1.Value
      = ({ sign := false, expo := 1024, frac := 2567051787601183 }, none)
    ∧ (Float64.MarshalXMLAttr { Float64 := float64.NaN, Valid := true }
        { Space := [], Local := bytes "x" }).1.Value = bytes "NaN"
    ∧ (strconv.shortestDigits { sign := false, expo := 1024, frac := 2567051787601183 }).d
      = bytes "314"
    ∧ (strconv.shortestDigits { sign := false, expo := 1024, frac := 2567051787601183 }).d.length
      ≤ (strconv.decimalDigits 314).length :=
  ⟨(marshalXMLAttr_result (float64.zero false) { Space := [], Local := bytes "x" }).1,
    by decide!,
    (marshalXMLAttr_result { sign := false, expo := 1024, frac := 2567051787601183 }
      { Space := [], Local := bytes "x" }).2.2.1 (by decide),
    (marshalXMLAttr_result { sign := false, expo := 1024, frac := 2567051787601183 }
      { Space := [], Local := bytes "x" }).2.2.2.1 (by decide),
    (marshalXMLAttr_result float64.NaN { Space := [], Local := bytes "x" }).2.2.2.2.1 (by decide),
    by decide!,
    ((marshalXMLAttr_result { sign := false, expo := 1024, frac := 2567051787601183 }
      { Space := [], Local := bytes "x" }).2.2.2.2.2 (by decide)).2 (bytes "3.14")
      { mantissa := 314, exp := -2, neg := false, hex := false, n := 4 }
      (by decide!) rfl (by decide!)⟩

/-! ## XML elements -/

/-- C14: for every absent wrapper, whatever float it stores, every encoder,
every encoder state and every start element, `MarshalXML` returns no error and
the encoder in the state it was given, so that anything read off the encoder,
its output stream included, is what it was; `EncodeElement` is called only for
a valid wrapper. -/
theorem marshalXML_absent_writes_nothing (v : float64) {Enc : Type}
    (EncodeElement : Enc → float64 → xml.StartElement → Enc × Option error)
    (e : Enc) (start : xml.StartElement) {Out : Type} (output : Enc → Out) :
    Float64.MarshalXML EncodeElement { Float64 := v, Valid := false } e start = (e, none)
    ∧ output (Float64.MarshalXML EncodeElement { Float64 := v, Valid := false } e start).1
      = output e
    ∧ Float64.MarshalXML EncodeElement { Float64 := v, Valid := true } e start
      = EncodeElement e v start := by
  refine ⟨?_, ?_, ?_⟩
  · simp [Float64.MarshalXML]
  · simp [Float64.MarshalXML]
  · simp [Float64.MarshalXML]

/-- C15: for every text and every prior receiver, `UnmarshalText` returns the
same error and leaves the receiver in the same state as `UnmarshalJSON`; the
text `null` leaves the receiver absent with its float kept and returns no
error on the plain-text path too. -/
theorem unmarshalText_eq_unmarshalJSON (t : Bytes) (r : nulls.Float64) :
    (r.UnmarshalText t).2 = (r.UnmarshalJSON t).2
    ∧ (r.UnmarshalText t).1.Float64 = (r.UnmarshalJSON t).1.Float64
    ∧ (r.UnmarshalText t).1.Valid = (r.UnmarshalJSON t).1.Valid
    ∧ r.UnmarshalText (bytes "null") = ({ Float64 := r.Float64, Valid := false }, none) := by
  refine ⟨rfl, rfl, rfl, ?_⟩
  simp [Float64.UnmarshalText, Float64.UnmarshalJSON]

/-- C16: when the decoder yields the text `s` for the element without an
error, `UnmarshalXML` returns the error and leaves the receiver in the state
that `UnmarshalXMLAttr` returns and leaves for an attribute of any name whose
value is `s`; when the decoder fails, `UnmarshalXML` returns the decoder's
error and leaves the receiver as it was. -/
theorem unmarshalXML_mirrors_attr (r : nulls.Float64) (s s2 : Bytes) (n : xml.Name) {Dec : Type}
    (DecodeElement : Dec → xml.StartElement → Dec × Bytes × Option error)
    (d d2 da db : Dec) (start : xml.StartElement) (err : error) :
    (DecodeElement d start = (da, s, none) →
      Float64.UnmarshalXML DecodeElement r d start
        = ((r.UnmarshalXMLAttr { Name := n, Value := s }).1, da,
            (r.UnmarshalXMLAttr { Name := n, Value := s }).2))
    ∧ (DecodeElement d2 start = (db, s2, some err) →
      Float64.UnmarshalXML DecodeElement r d2 start = (r, db, some err)) := by
  constructor
  · intro h
    unfold Float64.UnmarshalXML Float64.UnmarshalXMLAttr
    rw [h]
    simp only
    by_cases h1 : s = bytes ""
    · simp [h1]
    · by_cases h2 : s = bytes "null"
      · simp [h2]
      · rcases hp : strconv.ParseFloat s with ⟨i, _ | e⟩ <;> simp [h1, h2]
  · intro h
    unfold Float64.UnmarshalXML
    rw [h]

/-- C16 for a decoder that yields the text `2.5` in its state `true` and fails
in its state `false`, and a default receiver: in the first state the receiver
ends valid with `2.5`, as after `UnmarshalXMLAttr` on `x="2.5"`, and in the
second the decoder's error comes back and the receiver is unchanged. -/
theorem unmarshalXML_mirrors_attr_witness :
    Float64.UnmarshalXML
        (fun (d : Bool) (_ : xml.StartElement) =>
          if d then (d, bytes "2.5", none) else (d, bytes "", some (error.xmlError 1)))
        { Float64 := float64.zero false, Valid := false } true
        { Name := { Space := [], Local := bytes "a" }, Attr := [] }
      = ({ Float64 := { sign := false, expo := 1024, frac := 1125899906842624 }, Valid := true },
          true, none)
    ∧ Float64.UnmarshalXML
        (fun (d : Bool) (_ : xml.StartElement) =>
          if d then (d, bytes "2.5", none) else (d, bytes "", some (error.xmlError 1)))
        { Float64 := float64.zero false, Valid := false } false
        { Name := { Space := [], Local := bytes "a" }, Attr := [] }
      = ({ Float64 := float64.zero false, Valid := false }, false, some (error.xmlError 1)) :=
  have h := unmarshalXML_mirrors_attr { Float64 := float64.zero false, Valid := false }
    (bytes "2.5") (bytes "") { Space := [], Local := bytes "x" }
    (fun (d : Bool) (_ : xml.StartElement) =>
      if d then (d, bytes "2.5", none) else (d, bytes "", some (error.xmlError 1)))
    true false true false { Name := { Space := [], Local := bytes "a" }, Attr := [] }
    (error.xmlError 1)
  have ha : Float64.UnmarshalXMLAttr { Float64 := float64.zero false, Valid := false }
      { Name := { Space := [], Local := bytes "x" }, Value := bytes "2.5" }
      = ({ Float64 := { sign := false, expo := 1024, frac := 1125899906842624 }, Valid := true },
          none) := by decide!
  ⟨(h.1 rfl).trans (by rw [ha]), h.2 rfl⟩

/-! ## The JSON decoder and the prior receiver -/

/-- C17: for every text and any two prior receivers, `UnmarshalJSON` returns
the same error and leaves the same valid flag on both; and when the text is not
`null` and `ParseFloat` reads it as `v`, both receivers end as the valid
wrapper of `v`. The XML attribute decoder differs: on the value `null` it
leaves a valid receiver valid and an absent one absent. -/
theorem unmarshalJSON_ignores_receiver (t : Bytes) (r1 r2 : nulls.Float64) (v : float64) :
    (r1.UnmarshalJSON t).2 = (r2.UnmarshalJSON t).2
    ∧ (r1.UnmarshalJSON t).1.Valid = (r2.UnmarshalJSON t).1.Valid
    ∧ (t ≠ bytes "null" → strconv.ParseFloat t = (v, none) →
        r1.UnmarshalJSON t = ({ Float64 := v, Valid := true }, none)
        ∧ r2.UnmarshalJSON t = ({ Float64 := v, Valid := true }, none)
        ∧ (r1.UnmarshalJSON t).1.Float64 = (r2.UnmarshalJSON t).1.Float64)
    ∧ (Float64.UnmarshalXMLAttr { Float64 := r1.Float64, Valid := true }
          { Name := { Space := [], Local := [] }, Value := bytes "null" }).1.Valid
        ≠ (Float64.UnmarshalXMLAttr { Float64 := r2.Float64, Valid := false }
          { Name := { Space := [], Local := [] }, Value := bytes "null" }).1.Valid := by
  refine ⟨?_, ?_, ?_, ?_⟩
  · unfold Float64.UnmarshalJSON
    by_cases hnull : t = bytes "null"
    · simp [hnull]
    · rcases hp : strconv.ParseFloat t with ⟨i, _ | err⟩ <;> simp [hnull, hp]
  · unfold Float64.UnmarshalJSON
    by_cases hnull : t = bytes "null"
    · simp [hnull]
    · rcases hp : strconv.ParseFloat t with ⟨i, _ | err⟩ <;> simp [hnull, hp]
  · intro hnull hparse
    have h : ∀ r : nulls.Float64, r.UnmarshalJSON t = ({ Float64 := v, Valid := true }, none) := by
      intro r
      simp [Float64.UnmarshalJSON, hnull, hparse]
    rw [h r1, h r2]
    exact ⟨rfl, rfl, rfl⟩
  · have hne : bytes "null" ≠ bytes "" := by decide
    simp [Float64.UnmarshalXMLAttr, hne]

/-- C17 at the text `2.5`, for a receiver that was absent with zero and one
that was valid with `3.14`: both end valid with `2.5` and no error. -/
theorem unmarshalJSON_ignores_receiver_witness :
    Float64.UnmarshalJSON { Float64 := float64.zero false, Valid := false } (bytes "2.5")
      = ({ Float64 := { sign := false, expo := 1024, frac := 1125899906842624 }, Valid := true },
          none)
    ∧ Float64.UnmarshalJSON
        { Float64 := { sign := false, expo := 1024, frac := 2567051787601183 }, Valid := true }
        (bytes "2.5")
      = ({ Float64 := { sign := false, expo := 1024, frac := 1125899906842624 }, Valid := true },
          none) :=
  have h := (unmarshalJSON_ignores_receiver (bytes "2.5")
    { Float64 := float64.zero false, Valid := false }
    { Float64 := { sign := false, expo := 1024, frac := 2567051787601183 }, Valid := true }
    { sign := false, expo := 1024, frac := 1125899906842624 }).2.2.1 (by decide) (by decide!)
  ⟨h.1, h.2.1⟩

/-- C18: for every prior receiver, when the text is `null` or `ParseFloat`
rejects it, the float stored after `UnmarshalJSON` is the float stored before,
and the receiver ends absent: only the valid flag is cleared. The float changes
only on a successful parse, to the float parsed. -/
theorem unmarshalJSON_keeps_value (t : Bytes) (r : nulls.Float64) :
    ((t = bytes "null" ∨ (strconv.ParseFloat t).2 ≠ none) →
      (r.UnmarshalJSON t).1 = { Float64 := r.Float64, Valid := false })
    ∧ ((r.UnmarshalJSON t).1.Float64 ≠ r.Float64 →
      t ≠ bytes "null" ∧ (strconv.ParseFloat t).2 = none
      ∧ (r.UnmarshalJSON t).1.Float64 = (strconv.ParseFloat t).1) := by
  unfold Float64.UnmarshalJSON
  by_cases hnull : t = bytes "null"
  · simp [hnull]
  · rcases hp : strconv.ParseFloat t with ⟨i, _ | err⟩ <;> simp [hnull, hp]

/-- C18 at a receiver that is valid with `2.5`: the text `null`, the text `abc`
and the text `1e400`, for which `ParseFloat` returns an infinity together with
a range error, all leave the float `2.5` in place and the receiver absent;
the text `3.14` changes the float. -/
theorem unmarshalJSON_keeps_value_witness :
    (Float64.UnmarshalJSON
        { Float64 := { sign := false, expo := 1024, frac := 1125899906842624 }, Valid := true }
        (bytes "null")).1
      = { Float64 := { sign := false, expo := 1024, frac := 1125899906842624 }, Valid := false }
    ∧ (Float64.UnmarshalJSON
        { Float64 := { sign := false, expo := 1024, frac := 1125899906842624 }, Valid := true }
        (bytes "abc")).1
      = { Float64 := { sign := false, expo := 1024, frac := 1125899906842624 }, Valid := false }
    ∧ (Float64.UnmarshalJSON
        { Float64 := { sign := false, expo := 1024, frac := 1125899906842624 }, Valid := true }
        (bytes "1e400")).1
      = { Float64 := { sign := false, expo := 1024, frac := 1125899906842624 }, Valid := false }
    ∧ (strconv.ParseFloat (bytes "3.14")).2 = none :=
  ⟨(unmarshalJSON_keeps_value (bytes "null") _).1 (Or.inl rfl),
    (unmarshalJSON_keeps_value (bytes "abc") _).1 (Or.inr (by decide)),
    (unmarshalJSON_keeps_value (bytes "1e400") _).1 (Or.inr (by decide!)),
    ((unmarshalJSON_keeps_value (bytes "3.14")
      { Float64 := { sign := false, expo := 1024, frac := 1125899906842624 }, Valid := true }).2
      (by decide!)).2.1⟩

end nulls
